import Mathlib

/-!
# procstat: the reference-counted statistics tree behind the FUSE handlers

A shallow embedding of `src/procstat.c`.

* Pointers are addresses (`Nat`); the items that are currently allocated are
  the addresses at which the heap `Nat → Option procstat_item` is `some`.
* The intrusive `list_head` lists of `list.h` are kept as the sequence of
  addresses linked into each `children` head, in list order.  An item's `entry`
  is its position in the one sequence that holds it; an item whose `entry` is
  self-linked (after `INIT_LIST_HEAD` or `list_del_init`) is in no sequence.
* A call that does not return normally yields a `fault`: a failed `assert`
  aborts the process and a dereference of an address that holds no live
  object is undefined behaviour.
* `int refcnt` is an integer that stays within the range of the C `int`: an
  `int` operation whose result exceeds `INT_MAX` (the `++item->refcnt` of
  `fuse_lookup`, the capacity `1024 * (1 << alloc_factor)` of `fuse_readdir`) is
  a signed overflow, undefined behaviour, and yields a `fault`.  `uint32_t`
  hashes are reduced modulo `2^32`; a C string is the list of its bytes before
  the terminating NUL.
* The mutex, the FUSE session and the mount are not part of the tree state.
-/

namespace Procstat

/-! ## Constants -/

/-- Flag bit `1 << 0` of `procstat_item.flags`. -/
def STATS_ENTRY_FLAG_REGISTERED : Nat := 1

/-- Flag bit `1 << 1` of `procstat_item.flags`. -/
def STATS_ENTRY_FLAG_DIR : Nat := 2

/-- Size of the inline name buffer `iname`. -/
def DNAME_INLINE_LEN : Nat := 32

/-- The inode number libfuse reserves for the root. -/
def FUSE_ROOT_ID : Nat := 1

def ENOENT : Nat := 2
def ENOMEM : Nat := 12
def EEXIST : Nat := 17
def EINVAL : Nat := 22

def S_IFDIR : Nat := 0o040000
def S_IFREG : Nat := 0o100000
def S_IFMT : Nat := 0o170000
def INODE_BLK_SIZE : Nat := 4096
def DEFAULT_BUFER_SIZE : Nat := 1024

/-- The largest value of the C `int` (32 bits). -/
def INT_MAX : Nat := 2147483647

/-! ## Data model -/

/-- Abnormal ends of a call. -/
inductive fault where
  /-- An `assert` failed: the process aborts. -/
  | assertion
  /-- An address that holds no live object of the expected type was
  dereferenced (dangling or NULL pointer, read past an allocation). -/
  | invalid_access
  /-- The recursion bound of the model was reached (not a behaviour of the C code). -/
  | out_of_fuel
  /-- An `int` operation overflowed: undefined behaviour. -/
  | overflow
  deriving DecidableEq

/-- The C `struct procstat_item`, together with the `children` head of the
`struct procstat_directory` that extends it.

The union of `iname` and `name` is kept as two fields: `iname` is the 32
byte inline buffer, whose first byte is also the bit-field `name.zero`, and
`buffer` is the string `name.buffer` points to (`none` for NULL).  `buffer`
is only read when `name.zero` is 0, and `iname` past its first byte only when
it is not, so the overlap of the two is not observable. -/
structure procstat_item where
  iname : List Nat
  buffer : Option (List Nat)
  parent : Option Nat
  name_hash : Nat
  refcnt : Int
  flags : Nat
  children : List Nat
  deriving DecidableEq

/-- The live items, by address. -/
abbrev item_heap := Nat → Option procstat_item

/-- The C `struct procstat_context`: `root` is the address of the embedded
root directory, which lives in `items` like every other item. -/
structure procstat_context where
  root : Nat
  items : item_heap
  uid : Nat
  gid : Nat

/-- The fields of `struct stat` that `fill_item_stats` writes. -/
structure stat where
  st_uid : Nat
  st_gid : Nat
  st_ino : Nat
  st_mode : Nat
  st_nlink : Nat
  st_size : Nat
  st_blocks : Nat
  st_blksize : Nat
  deriving DecidableEq

/-- What a handler sends back with `fuse_reply_*`. -/
inductive reply where
  | err (errno : Nat)
  | entry (ino : Nat) (attr : stat)
  | attr (st : stat)
  | opened
  | buf (bytes : List Nat)
  | none
  deriving DecidableEq

/-- A block of zeroed storage for one directory, as `calloc` returns it. -/
def zeroed_item : procstat_item :=
  { iname := List.replicate DNAME_INLINE_LEN 0, buffer := none, parent := none,
    name_hash := 0, refcnt := 0, flags := 0, children := [] }

/-! ## Heap and list primitives -/

/-- Store `it` at address `p`. -/
def heap_set (h : item_heap) (p : Nat) (it : procstat_item) : item_heap :=
  fun a => if a = p then some it else h a

/-- The C `free(item)`: release the storage at `p`. -/
def heap_free (h : item_heap) (p : Nat) : item_heap :=
  fun a => if a = p then none else h a

/-- The C `list_del(&item->entry)` and `list_del_init(&item->entry)`: unlink
`p` from the list that holds it. -/
def list_del (h : item_heap) (p : Nat) : item_heap :=
  fun a => (h a).map (fun it => { it with children := it.children.filter (fun c => c ≠ p) })

/-- The C `list_add_tail(&item->entry, &parent->children)`. -/
def list_add_tail (h : item_heap) (p : Nat) (parent : Nat) : item_heap :=
  match h parent with
  | some d => heap_set h parent { d with children := d.children ++ [p] }
  | none => h

/-! ## Names -/

/-- The C `string_hash`. -/
def string_hash (string : List Nat) : Nat :=
  string.foldl (fun hash i => (31 * hash + i) % 2 ^ 32) 0

/-- The C `stats_item_short_name`: `item->name.zero != 0`. -/
def stats_item_short_name (item : procstat_item) : Bool :=
  item.iname.headD 0 != 0

/-- The C `procstat_item_name`: the inline string, read up to its NUL, or
the string behind `name.buffer` (`none` when that pointer is NULL). -/
def procstat_item_name (item : procstat_item) : Option (List Nat) :=
  if stats_item_short_name item then some (item.iname.takeWhile (fun b => b != 0))
  else item.buffer

/-- The C `item_registered`. -/
def item_registered (item : procstat_item) : Bool :=
  item.flags &&& STATS_ENTRY_FLAG_REGISTERED != 0

/-- The C `item_type_directory`. -/
def item_type_directory (item : procstat_item) : Bool :=
  item.flags &&& STATS_ENTRY_FLAG_DIR != 0

/-- The C `flags &= ~STATS_ENTRY_FLAG_REGISTERED` on a 32 bit `unsigned`. -/
def clear_registered (flags : Nat) : Nat :=
  flags &&& (0xFFFFFFFF ^^^ STATS_ENTRY_FLAG_REGISTERED)

/-- The C `init_item`, on the zeroed storage `item`. `strcpy` writes the
name and its NUL at the start of `iname`; `strdup` is taken to succeed.
`INIT_LIST_HEAD(&item->entry)` leaves the item in no list. -/
def init_item (item : procstat_item) (name : List Nat) : procstat_item :=
  let item1 := { item with name_hash := string_hash name }
  if name.length < DNAME_INLINE_LEN then
    { item1 with iname := name ++ [0] ++ item1.iname.drop (name.length + 1) }
  else
    { item1 with iname := 0 :: item1.iname.drop 1, buffer := some name }

/-! ## Handle mapping -/

/-- The C `fuse_inode_to_item` (and `fuse_inode_to_dir`, which only casts). -/
def fuse_inode_to_item (context : procstat_context) (inode : Nat) : Nat :=
  if inode = FUSE_ROOT_ID then context.root else inode

/-- The C `root_directory`. -/
def root_directory (context : procstat_context) (directory : Nat) : Bool :=
  context.root = directory

/-! ## Freeing and releasing -/

/-- The C `free_item`: unlink, check that a directory has no children left,
free.  The owned name buffer is part of the item and goes with it. -/
def free_item (h : item_heap) (item : Nat) : Except fault item_heap :=
  match h item with
  | none => .error .invalid_access
  | some _ =>
    let h1 := list_del h item
    match h1 item with
    | none => .error .invalid_access
    | some it1 =>
      if item_type_directory it1 && !it1.children.isEmpty then .error .assertion
      else .ok (heap_free h1 item)

/-- The loop of the C `item_put_children_locked` over the children `cs` of a
directory, with `put` for the call of `item_put_locked`:
`list_for_each_entry_safe` visits the entries that were linked when it
started, and the body clears `parent`, unlinks the child and releases it. -/
def item_put_children_loop (put : item_heap → Nat → Except fault item_heap) :
    List Nat → item_heap → Except fault item_heap
  | [], h => .ok h
  | iter :: rest, h =>
    match h iter with
    | none => .error .invalid_access
    | some it =>
      match put (list_del (heap_set h iter { it with parent := none }) iter) iter with
      | .error e => .error e
      | .ok h1 => item_put_children_loop put rest h1

/-- The C `item_put_locked`, with the recursion through
`item_put_children_locked` bounded by `fuel`. -/
def item_put_locked : Nat → item_heap → Nat → Except fault item_heap
  | 0, _, _ => .error .out_of_fuel
  | fuel + 1, h, item =>
    match h item with
    | none => .error .invalid_access
    | some it =>
      if it.refcnt = 0 then .error .assertion
      else if it.refcnt - 1 ≠ 0 then .ok (heap_set h item { it with refcnt := it.refcnt - 1 })
      else
        let it1 := { it with refcnt := it.refcnt - 1, flags := clear_registered it.flags }
        let h1 := heap_set h item it1
        if item_type_directory it1 then
          match item_put_children_loop (item_put_locked fuel) it1.children h1 with
          | .error e => .error e
          | .ok h2 => free_item h2 item
        else free_item h1 item

/-- The C `item_put_children_locked`. -/
def item_put_children_locked (fuel : Nat) (h : item_heap) (directory : Nat) :
    Except fault item_heap :=
  match h directory with
  | none => .error .invalid_access
  | some d => item_put_children_loop (item_put_locked fuel) d.children h

/-! ## Lookup -/

/-- The loop of the C `lookup_item_locked` over the children of `parent`.
`strcmp` on a NULL string is an invalid access. -/
def lookup_scan (h : item_heap) (name : Option (List Nat)) (name_hash : Nat) :
    List Nat → Except fault (Option Nat)
  | [] => .ok none
  | item :: rest =>
    match h item with
    | none => .error .invalid_access
    | some it =>
      if it.name_hash ≠ name_hash then lookup_scan h name name_hash rest
      else
        match procstat_item_name it, name with
        | some s, some n => if s = n then .ok (some item) else lookup_scan h name name_hash rest
        | _, _ => .error .invalid_access

/-- The C `lookup_item_locked`.  The `children` head exists only in a
`struct procstat_directory`. -/
def lookup_item_locked (h : item_heap) (parent : Nat) (name : Option (List Nat))
    (name_hash : Nat) : Except fault (Option Nat) :=
  match h parent with
  | none => .error .invalid_access
  | some d =>
    if item_type_directory d then lookup_scan h name name_hash d.children
    else .error .invalid_access

/-! ## Protocol handlers -/

/-- The C `fill_item_stats`, on a `struct stat` that was zeroed before. -/
def fill_item_stats (context : procstat_context) (item : Nat) (it : procstat_item) : stat :=
  if item_type_directory it then
    { st_uid := context.uid, st_gid := context.gid, st_ino := item,
      st_mode := S_IFDIR ||| 0o755,
      st_nlink := if root_directory context item then 2 else 1,
      st_size := 0, st_blocks := 0, st_blksize := 0 }
  else
    { st_uid := context.uid, st_gid := context.gid, st_ino := item,
      st_mode := S_IFREG ||| 0o444, st_nlink := 1,
      st_size := 0, st_blocks := 0, st_blksize := INODE_BLK_SIZE }

/-- The C `fuse_forget`.  `nlookup` is an `unsigned long`; on a count that is not
negative, as every count of a reachable tree is, the comparison and the subtraction in
`unsigned long` are those of the integers. -/
def fuse_forget (context : procstat_context) (ino : Nat) (nlookup : Nat) :
    Except fault (procstat_context × reply) :=
  let item := fuse_inode_to_item context ino
  match context.items item with
  | none => .error .invalid_access
  | some it =>
    if it.refcnt < (nlookup : Int) then .error .assertion
    else
      let h1 := heap_set context.items item { it with refcnt := it.refcnt - nlookup }
      if it.refcnt - nlookup = 0 then
        match free_item h1 item with
        | .error e => .error e
        | .ok h2 => .ok ({ context with items := h2 }, reply.none)
      else .ok ({ context with items := h1 }, reply.none)

/-- The C `fuse_lookup`.  `++item->refcnt` on an `int` that holds `INT_MAX` is a
signed overflow. -/
def fuse_lookup (context : procstat_context) (parent_inode : Nat) (name : List Nat) :
    Except fault (procstat_context × reply) :=
  let parent := fuse_inode_to_item context parent_inode
  match lookup_item_locked context.items parent (some name) (string_hash name) with
  | .error e => .error e
  | .ok none => .ok (context, reply.err ENOENT)
  | .ok (some item) =>
    match context.items item with
    | none => .error .invalid_access
    | some it =>
      if !item_registered it then .ok (context, reply.err ENOENT)
      else if (INT_MAX : Int) ≤ it.refcnt then .error .overflow
      else
        let it1 := { it with refcnt := it.refcnt + 1 }
        .ok ({ context with items := heap_set context.items item it1 },
             reply.entry item (fill_item_stats context item it1))

/-- The C `fuse_getattr`. -/
def fuse_getattr (context : procstat_context) (ino : Nat) :
    Except fault (procstat_context × reply) :=
  let item := fuse_inode_to_item context ino
  match context.items item with
  | none => .error .invalid_access
  | some it =>
    if !item_registered it then .ok (context, reply.err ENOENT)
    else .ok (context, reply.attr (fill_item_stats context item it))

/-- The C `fuse_opendir`. -/
def fuse_opendir (context : procstat_context) (ino : Nat) :
    Except fault (procstat_context × reply) :=
  let item := fuse_inode_to_item context ino
  match context.items item with
  | none => .error .invalid_access
  | some it =>
    if !item_registered it then .ok (context, reply.err ENOENT)
    else .ok (context, reply.opened)

/-! ## Directory listing -/

/-- The low `n` bytes of `v`, least significant first. -/
def le_bytes : Nat → Nat → List Nat
  | 0, _ => []
  | n + 1, v => v % 256 :: le_bytes n (v / 256)

/-- The libfuse `fuse_dirent_size`: the 24 byte header and the name, padded
to a multiple of 8. -/
def fuse_dirent_size (namelen : Nat) : Nat :=
  (24 + namelen + 7) / 8 * 8

/-- The size `fuse_add_direntry` returns for `name`. -/
def fuse_add_direntry_size (name : List Nat) : Nat :=
  fuse_dirent_size name.length

/-- The record libfuse `fuse_add_direntry` writes (a `struct fuse_dirent`:
`ino`, `off`, `namelen`, `type`, the name, zero padding). -/
def fuse_add_direntry (name : List Nat) (st : stat) (off : Nat) : List Nat :=
  le_bytes 8 st.st_ino ++ le_bytes 8 off ++ le_bytes 4 name.length
    ++ le_bytes 4 ((st.st_mode &&& S_IFMT) >>> 12) ++ name
    ++ List.replicate (fuse_dirent_size name.length - (24 + name.length)) 0

/-- The state of the loop of `fuse_readdir`: the bytes written to
`reply_buffer` so far (as many as `offset`), its capacity and the growth
counter. -/
structure readdir_state where
  reply_buffer : List Nat
  bufsize : Nat
  alloc_factor : Nat
  deriving DecidableEq

/-- How the loop of `fuse_readdir` ends. -/
inductive readdir_loop_result where
  | filled (s : readdir_state)
  | nomem
  deriving DecidableEq

/-- The loop of the C `fuse_readdir` over the children of the directory.
`realloc_ok k` tells whether the `realloc` of growth `k` succeeds.  The new
capacity `DEFAULT_BUFER_SIZE * (1 << alloc_factor)` is computed in `int`, and is a
signed overflow when it exceeds `INT_MAX`.  A record that does not fit the capacity
is written past the allocation. -/
def readdir_loop (context : procstat_context) (realloc_ok : Nat → Bool) :
    List Nat → readdir_state → Except fault readdir_loop_result
  | [], s => .ok (.filled s)
  | iter :: rest, s =>
    match context.items iter with
    | none => .error .invalid_access
    | some it =>
      match procstat_item_name it with
      | none => .error .invalid_access
      | some fname =>
        let st := fill_item_stats context iter it
        let offset := s.reply_buffer.length
        let entry_size := fuse_add_direntry_size fname
        if s.bufsize ≤ entry_size + offset then
          if INT_MAX < DEFAULT_BUFER_SIZE * 2 ^ s.alloc_factor then .error .overflow
          else if realloc_ok s.alloc_factor then
            let bufsize := DEFAULT_BUFER_SIZE * 2 ^ s.alloc_factor
            if bufsize < offset + entry_size then .error .invalid_access
            else
              readdir_loop context realloc_ok rest
                { reply_buffer := s.reply_buffer ++ fuse_add_direntry fname st (offset + entry_size),
                  bufsize := bufsize, alloc_factor := s.alloc_factor + 1 }
          else .ok .nomem
        else
          readdir_loop context realloc_ok rest
            { s with reply_buffer := s.reply_buffer ++ fuse_add_direntry fname st (offset + entry_size) }

/-- The C `fuse_readdir`. -/
def fuse_readdir (context : procstat_context) (realloc_ok : Nat → Bool) (ino : Nat)
    (size : Nat) (off : Nat) : Except fault (procstat_context × reply) :=
  let dir := fuse_inode_to_item context ino
  match context.items dir with
  | none => .error .invalid_access
  | some d =>
    if !item_registered d then .ok (context, reply.err ENOENT)
    else if !item_type_directory d then .error .invalid_access
    else
      match readdir_loop context realloc_ok d.children
          { reply_buffer := [], bufsize := 0, alloc_factor := 0 } with
      | .error e => .error e
      | .ok .nomem => .ok (context, reply.err ENOMEM)
      | .ok (.filled s) =>
        let offset := s.reply_buffer.length
        if off < offset then
          .ok (context, reply.buf ((s.reply_buffer.drop off).take (min size (offset - off))))
        else .ok (context, reply.buf [])

/-! ## Registration API -/

/-- The C `register_item`, for the item stored at `item`; the second
component is the returned error code. -/
def register_item (h : item_heap) (item : Nat) (parent : Option Nat) :
    Except fault (item_heap × Nat) :=
  match h item with
  | none => .error .invalid_access
  | some it =>
    match parent with
    | none => .ok (heap_set h item
        { it with flags := it.flags ||| STATS_ENTRY_FLAG_REGISTERED, refcnt := 1 }, 0)
    | some par =>
      match lookup_item_locked h par (procstat_item_name it) it.name_hash with
      | .error e => .error e
      | .ok (some _) => .ok (h, EEXIST)
      | .ok none =>
        let h1 := list_add_tail h item par
        match h1 item with
        | none => .error .invalid_access
        | some it1 => .ok (heap_set h1 item
            { it1 with flags := it1.flags ||| STATS_ENTRY_FLAG_REGISTERED, refcnt := 1 }, 0)

/-- The C `init_directory`, on the storage at `directory`. -/
def init_directory (h : item_heap) (directory : Nat) (name : List Nat) (parent : Option Nat) :
    Except fault (item_heap × Nat) :=
  match h directory with
  | none => .error .invalid_access
  | some d =>
    let d1 := { init_item d name with flags := STATS_ENTRY_FLAG_DIR, children := [] }
    register_item (heap_set h directory d1) directory parent

/-- The C `parent_or_root`. -/
def parent_or_root (context : procstat_context) (parent : Option Nat) :
    Except fault (Option Nat) :=
  match parent with
  | none => .ok (some context.root)
  | some p =>
    match context.items p with
    | none => .error .invalid_access
    | some it => if item_type_directory it then .ok (some p) else .ok none

/-- The C `procstat_create_directory`.  `calloc` is the pointer the
allocator returns (`none` for NULL).  The result is the new item, or the
`errno` that goes with a NULL return. -/
def procstat_create_directory (context : procstat_context) (parent : Option Nat)
    (name : List Nat) (calloc : Option Nat) :
    Except fault (procstat_context × Except Nat Nat) :=
  match parent_or_root context parent with
  | .error e => .error e
  | .ok none => .ok (context, .error EINVAL)
  | .ok (some par) =>
    match calloc with
    | none => .ok (context, .error ENOMEM)
    | some new_directory =>
      let h := heap_set context.items new_directory zeroed_item
      match init_directory h new_directory name (some par) with
      | .error e => .error e
      | .ok (h1, error) =>
        if error ≠ 0 then
          match free_item h1 new_directory with
          | .error e => .error e
          | .ok h2 => .ok ({ context with items := h2 }, .error error)
        else .ok ({ context with items := h1 }, .ok new_directory)

/-- The C `procstat_remove`. -/
def procstat_remove (fuel : Nat) (context : procstat_context) (item : Nat) :
    Except fault procstat_context :=
  match context.items item with
  | none => .error .invalid_access
  | some it =>
    if item_type_directory it && root_directory context item then
      match item_put_children_locked fuel context.items item with
      | .error e => .error e
      | .ok h => .ok { context with items := h }
    else
      let h1 := heap_set context.items item { it with flags := clear_registered it.flags }
      match item_put_locked fuel h1 item with
      | .error e => .error e
      | .ok h => .ok { context with items := h }

/-- The C `procstat_remove_by_name`; the second component is the return value. -/
def procstat_remove_by_name (fuel : Nat) (context : procstat_context) (parent : Option Nat)
    (name : List Nat) : Except fault (procstat_context × Int) :=
  match parent_or_root context parent with
  | .error e => .error e
  | .ok none => .ok (context, -1)
  | .ok (some par) =>
    match lookup_item_locked context.items par (some name) (string_hash name) with
    | .error e => .error e
    | .ok none => .ok (context, ENOENT)
    | .ok (some item) =>
      match context.items item with
      | none => .error .invalid_access
      | some it =>
        let h1 := heap_set context.items item { it with flags := clear_registered it.flags }
        match item_put_locked fuel h1 item with
        | .error e => .error e
        | .ok h => .ok ({ context with items := h }, 0)

/-- The C `procstat_root`. -/
def procstat_root (context : procstat_context) : Nat :=
  context.root

/-- The name of the root directory. -/
def ROOT_DIR_NAME : List Nat := [46]

/-- The tree part of the C `procstat_create`: the context is zeroed storage
at `addr` and `init_directory` sets up the embedded root with no parent. -/
def procstat_create (addr : Nat) (uid gid : Nat) : Except fault procstat_context :=
  match init_directory (heap_set (fun _ => none) addr zeroed_item) addr ROOT_DIR_NAME none with
  | .error e => .error e
  | .ok (h, _) => .ok { root := addr, items := h, uid := uid, gid := gid }

/-! ## Calls in sequence -/

/-- One call into the tree: by the application (Registration API) or by the
kernel (protocol handlers). -/
inductive op where
  | create_directory (parent : Option Nat) (name : List Nat) (calloc : Option Nat)
  | remove (item : Nat)
  | remove_by_name (parent : Option Nat) (name : List Nat)
  | lookup (parent_inode : Nat) (name : List Nat)
  | forget (ino : Nat) (nlookup : Nat)
  | getattr (ino : Nat)
  | opendir (ino : Nat)
  | readdir (ino : Nat) (size : Nat) (off : Nat)

/-- The tree after one call. -/
def step (fuel : Nat) (context : procstat_context) : op → Except fault procstat_context
  | .create_directory parent name calloc =>
    (procstat_create_directory context parent name calloc).map Prod.fst
  | .remove item => procstat_remove fuel context item
  | .remove_by_name parent name => (procstat_remove_by_name fuel context parent name).map Prod.fst
  | .lookup parent_inode name => (fuse_lookup context parent_inode name).map Prod.fst
  | .forget ino nlookup => (fuse_forget context ino nlookup).map Prod.fst
  | .getattr ino => (fuse_getattr context ino).map Prod.fst
  | .opendir ino => (fuse_opendir context ino).map Prod.fst
  | .readdir ino size off => (fuse_readdir context (fun _ => true) ino size off).map Prod.fst

/-- The tree after a sequence of calls; a fault ends the run. -/
def run (fuel : Nat) (context : procstat_context) : List op → Except fault procstat_context
  | [] => .ok context
  | o :: rest =>
    match step fuel context o with
    | .error e => .error e
    | .ok c => run fuel c rest

/-- The allocator's part of a call: the block `calloc` returns is neither the
storage of a live item nor that of the context (where the root is embedded). -/
def alloc_fresh (context : procstat_context) : op → Prop
  | .create_directory _ _ (some a) => context.items a = none ∧ a ≠ context.root
  | _ => True

/-- Every `calloc` along the run returns a block that is free at that time. -/
def allocs_fresh (fuel : Nat) (context : procstat_context) : List op → Prop
  | [] => True
  | o :: rest =>
    alloc_fresh context o ∧
      match step fuel context o with
      | .error _ => True
      | .ok c => allocs_fresh fuel c rest

/-- The states the tree can be in: those a freshly created context reaches
by calls. -/
def reachable (context : procstat_context) : Prop :=
  ∃ fuel addr uid gid ops c0, procstat_create addr uid gid = .ok c0 ∧
    allocs_fresh fuel c0 ops ∧ run fuel c0 ops = .ok context

/-! ## Properties of states -/

/-- A file name as a C string: not empty, no NUL byte inside. -/
def valid_name (name : List Nat) : Prop :=
  name ≠ [] ∧ ∀ b ∈ name, b ≠ 0

/-- The item at `c` is live, has a name, and that name is not `name`. -/
def other_name (h : item_heap) (name : List Nat) (c : Nat) : Prop :=
  ∃ ic n, h c = some ic ∧ procstat_item_name ic = some n ∧ n ≠ name

/-- No live item links `a` as a child. -/
def unreferenced (h : item_heap) (a : Nat) : Prop :=
  ∀ q iq, h q = some iq → a ∉ iq.children

/-- The shape of a tree of items: `rk` decreases from a directory to its
children (no cycles), children are live, an item is linked in one list only
and once. -/
structure tree_shape (rk : Nat → Nat) (h : item_heap) : Prop where
  children_live : ∀ p ip c, h p = some ip → c ∈ ip.children → ∃ ic, h c = some ic
  unique_parent : ∀ p q ip iq c, h p = some ip → h q = some iq →
    c ∈ ip.children → c ∈ iq.children → p = q
  rank : ∀ p ip c, h p = some ip → c ∈ ip.children → rk c < rk p
  nodup : ∀ p ip, h p = some ip → ip.children.Nodup

/-- A well-formed tree: the shape of a tree, and every live item holds a
reference. -/
structure tree_wf (rk : Nat → Nat) (h : item_heap) : Prop where
  shape : tree_shape rk h
  refcnt_pos : ∀ p ip, h p = some ip → 1 ≤ ip.refcnt

/-- The invariant of the reachable trees: the tree is well formed for some rank,
and every live item is a directory (the only kind this source creates). -/
def tree_inv (h : item_heap) : Prop :=
  (∃ rk, tree_wf rk h) ∧ ∀ a ia, h a = some ia → item_type_directory ia = true

/-- The items below `p` in the tree, `p` included. -/
inductive descends (h : item_heap) (p : Nat) : Nat → Prop where
  | self : descends h p p
  | child (q : Nat) (iq : procstat_item) (c : Nat) : descends h p q → h q = some iq →
      c ∈ iq.children → descends h p c

/-- The items the cascade from a directory `p` that is being freed reaches:
the children of `p`, and the children of every reached directory that the
release brings to zero. -/
inductive cascade (h : item_heap) (p : Nat) : Nat → Prop where
  | child (ip : procstat_item) (c : Nat) : h p = some ip → item_type_directory ip = true →
      c ∈ ip.children → cascade h p c
  | deeper (q : Nat) (iq : procstat_item) (c : Nat) : cascade h p q → h q = some iq →
      iq.refcnt = 1 → item_type_directory iq = true → c ∈ iq.children → cascade h p c

/-- What the cascade leaves of an item it reaches: nothing when the release
takes its last reference, else the item detached and with one reference less. -/
def put_result (ic : procstat_item) : Option procstat_item :=
  if ic.refcnt = 1 then none else some { ic with parent := none, refcnt := ic.refcnt - 1 }

/-- The item `it` with `p` taken out of its child list. -/
def unlink (p : Nat) (it : procstat_item) : procstat_item :=
  { it with children := it.children.filter (fun c => c ≠ p) }

/-- The items from which `item_put_locked h p` releases a reference: `p`, and
if that is its last one the items of the cascade. -/
def put_released (h : item_heap) (p : Nat) (a : Nat) : Prop :=
  a = p ∨ ∃ ip, h p = some ip ∧ ip.refcnt = 1 ∧ cascade h p a

/-- The items from which the loop of `item_put_children_locked` over `cs`
releases a reference. -/
def loop_released (h : item_heap) (cs : List Nat) (a : Nat) : Prop :=
  ∃ c ∈ cs, put_released h c a

/-- The references a call releases: `refs_released context o a k` says that the
call `o` on `context` releases `k` references of the item `a`.  `fuse_forget`
releases `nlookup` references of its item; a removal releases one reference of the
removed item and, if that was its last, one of every item of the cascade; the removal
of the root releases one reference of every item of the cascade from the root. -/
def refs_released (context : procstat_context) : op → Nat → Int → Prop
  | .forget ino nlookup, a, k => a = fuse_inode_to_item context ino ∧ k = nlookup
  | .remove item, a, k => k = 1 ∧
      (if context.root = item then cascade context.items item a
       else put_released context.items item a)
  | .remove_by_name parent name, a, k => k = 1 ∧ ∃ par item,
      parent_or_root context parent = .ok (some par) ∧
      lookup_item_locked context.items par (some name) (string_hash name) = .ok (some item) ∧
      put_released context.items item a
  | _, _, _ => False

/-- Two heap cells hold items with the same reference count, type and children
(or both hold none). -/
def same_links (x y : Option procstat_item) : Prop :=
  x.map (fun i => (i.refcnt, item_type_directory i, i.children)) =
    y.map (fun i => (i.refcnt, item_type_directory i, i.children))

/-- What `item_put_locked` with `fuel` does to an item that holds its last
reference: it returns, the item is freed, every item of the cascade is left as
`put_result` says, and every other item only loses its link to the freed one. -/
def put_last_spec (fuel : Nat) : Prop :=
  ∀ (rk : Nat → Nat) (h : item_heap) (p : Nat) (ip : procstat_item),
    tree_shape rk h → h p = some ip → rk p < fuel → ip.refcnt = 1 →
    (∀ a ia, descends h p a → h a = some ia → 1 ≤ ia.refcnt) →
    ∃ h', item_put_locked fuel h p = .ok h' ∧ h' p = none ∧
      (∀ a ia, cascade h p a → h a = some ia → h' a = put_result ia) ∧
      (∀ a, a ≠ p → ¬ cascade h p a → h' a = (h a).map (unlink p))

/-- The storage of a new directory after `init_directory` has set it up and
before `register_item` runs. -/
def fresh_directory (name : List Nat) : procstat_item :=
  { init_item zeroed_item name with flags := STATS_ENTRY_FLAG_DIR, children := [] }

/-- The directory `procstat_create_directory` leaves behind on success. -/
def new_directory (name : List Nat) : procstat_item :=
  { fresh_directory name with
    flags := STATS_ENTRY_FLAG_DIR ||| STATS_ENTRY_FLAG_REGISTERED, refcnt := 1 }

/-! ## Observations -/

/-- The reference count of the item at `a`, if it is live. -/
def refcnt_at (context : procstat_context) (a : Nat) : Option Int :=
  (context.items a).map (fun it => it.refcnt)

/-- The flags of the item at `a`, if it is live. -/
def flags_at (context : procstat_context) (a : Nat) : Option Nat :=
  (context.items a).map (fun it => it.flags)

/-- The children of the item at `a`, if it is live. -/
def children_at (context : procstat_context) (a : Nat) : Option (List Nat) :=
  (context.items a).map (fun it => it.children)

/-! ## Example trees -/

/-- A directory item named `name` as `procstat_create_directory` sets it up,
with the given reference count, flags and children. -/
def ex_item (name : List Nat) (refcnt : Int) (flags : Nat) (children : List Nat) :
    procstat_item :=
  { init_item zeroed_item name with refcnt := refcnt, flags := flags, children := children }

/-- The freshly created context: only the root ".", at 1000. -/
def ex_fresh : procstat_context :=
  { root := 1000, uid := 0, gid := 0,
    items := fun a => if a = 1000 then some (ex_item [46] 1 3 []) else none }

/-- The tree after creating the directory "a" (at 2000) under the root. -/
def ex_one : procstat_context :=
  { root := 1000, uid := 0, gid := 0,
    items := fun a =>
      if a = 1000 then some (ex_item [46] 1 3 [2000])
      else if a = 2000 then some (ex_item [97] 1 3 [])
      else none }

/-- The tree after creating the directory "a" (at 2000) under the root (at
1000) and the directory "b" (at 3000) under "a". -/
def ex_tree : procstat_context :=
  { root := 1000, uid := 0, gid := 0,
    items := fun a =>
      if a = 1000 then some (ex_item [46] 1 3 [2000])
      else if a = 2000 then some (ex_item [97] 1 3 [3000])
      else if a = 3000 then some (ex_item [98] 1 3 [])
      else none }

/-- The tree `ex_tree` after the kernel looked up "b" under "a": "b" holds two
references. -/
def ex_looked : procstat_context :=
  { root := 1000, uid := 0, gid := 0,
    items := fun a =>
      if a = 1000 then some (ex_item [46] 1 3 [2000])
      else if a = 2000 then some (ex_item [97] 1 3 [3000])
      else if a = 3000 then some (ex_item [98] 2 3 [])
      else none }

/-- The tree `ex_tree` after the kernel looked up "a" and the application then
removed it: "a" is unregistered and kept alive by the kernel's reference. -/
def ex_held : procstat_context :=
  { root := 1000, uid := 0, gid := 0,
    items := fun a =>
      if a = 1000 then some (ex_item [46] 1 3 [2000])
      else if a = 2000 then some (ex_item [97] 1 2 [3000])
      else if a = 3000 then some (ex_item [98] 1 3 [])
      else none }

/-- The tree `ex_held` with a second reference of the kernel on "a": "a" is
unregistered and holds two references. -/
def ex_held_twice : procstat_context :=
  { root := 1000, uid := 0, gid := 0,
    items := fun a =>
      if a = 1000 then some (ex_item [46] 1 3 [2000])
      else if a = 2000 then some (ex_item [97] 2 2 [3000])
      else if a = 3000 then some (ex_item [98] 1 3 [])
      else none }

/-- The example tree (root at 1000, "a" at 2000 under it, "b" at 3000 under "a") with
reference count `ra` and flags `fa` for "a" and reference count `rb` for "b". -/
def ex_state (ra : Int) (fa : Nat) (rb : Int) : procstat_context :=
  { root := 1000, uid := 0, gid := 0,
    items := fun a =>
      if a = 1000 then some (ex_item [46] 1 3 [2000])
      else if a = 2000 then some (ex_item [97] ra fa [3000])
      else if a = 3000 then some (ex_item [98] rb 3 [])
      else none }

/-- A rank for the example trees: the depth below which an item has no descendants. -/
def ex_rank (a : Nat) : Nat :=
  if a = 1000 then 2 else if a = 2000 then 1 else 0

/-- The calls that lead from a fresh context to `ex_held`: create "a" under the root
and "b" under "a", look "a" up, remove "a". -/
def ex_calls : List op :=
  [op.create_directory none [97] (some 2000), op.create_directory (some 2000) [98] (some 3000),
   op.lookup FUSE_ROOT_ID [97], op.remove 2000]

/-! ## The hash as the specification words it -/

/-- The hash of the specification, by its recurrence: `h 0 = 0` and
`h (i + 1) = (31 * h i + byte i) mod 2^32`, with `byte i` the `i`-th byte of the name.
`polynomial_hash name i` is `h i`. -/
def polynomial_hash (name : List Nat) : Nat → Nat
  | 0 => 0
  | i + 1 => (31 * polynomial_hash name i + name.getD i 0) % 2 ^ 32

/-- The value of the polynomial with the bytes of `name` as coefficients, highest
power first, at the multiplier 31. -/
def polynomial_value : List Nat → Nat
  | [] => 0
  | b :: rest => b * 31 ^ rest.length + polynomial_value rest

/-! ## Names in the calls and in the tree -/

/-- A C string as a call receives it: bytes, none of them the NUL. -/
def c_string (s : List Nat) : Prop :=
  ∀ b ∈ s, b ≠ 0 ∧ b < 256

/-- The names a call passes are C strings. -/
def op_strings : op → Prop
  | .create_directory _ name _ => c_string name
  | .remove_by_name _ name => c_string name
  | .lookup _ name => c_string name
  | _ => True

/-- The states a freshly created context reaches by calls whose names are C strings. -/
def reachable_by_strings (context : procstat_context) : Prop :=
  ∃ fuel addr uid gid ops c0, procstat_create addr uid gid = .ok c0 ∧
    allocs_fresh fuel c0 ops ∧ (∀ o ∈ ops, op_strings o) ∧ run fuel c0 ops = .ok context

/-- Every item of `h'` is an item of `h` with the same name and hash, and with no child
that it did not have in `h`. -/
def names_kept (h h' : item_heap) : Prop :=
  ∀ c i', h' c = some i' → ∃ i, h c = some i ∧
    procstat_item_name i' = procstat_item_name i ∧ i'.name_hash = i.name_hash ∧
    ∀ x ∈ i'.children, x ∈ i.children

/-- The names in a tree: the hash an item stores is the hash of its name (of the empty
string when the name pointer is NULL), and two children of one directory have different
names. -/
structure names_inv (h : item_heap) : Prop where
  hash : ∀ a ia, h a = some ia → ia.name_hash = string_hash ((procstat_item_name ia).getD [])
  unique : ∀ p ip c1 c2 i1 i2, h p = some ip → c1 ∈ ip.children → c2 ∈ ip.children →
    c1 ≠ c2 → h c1 = some i1 → h c2 = some i2 → procstat_item_name i1 ≠ procstat_item_name i2

/-! ## The listing as the specification words it -/

/-- The listing of the children `cs`: one directory-entry record per child, in the order
of `cs`, each placed at the cumulative size `offset` of the records before it. -/
def listing (context : procstat_context) : List Nat → Nat → List Nat
  | [], _ => []
  | c :: rest, offset =>
    match context.items c with
    | none => []
    | some ic =>
      let fname := (procstat_item_name ic).getD []
      let entry_size := fuse_dirent_size fname.length
      fuse_add_direntry fname (fill_item_stats context c ic) (offset + entry_size) ++
        listing context rest (offset + entry_size)

/-! ## More example trees -/

/-- The tree after creating the directories "a" (at 2000) and "b" (at 3000) under the
root. -/
def ex_pair : procstat_context :=
  { root := 1000, uid := 0, gid := 0,
    items := fun a =>
      if a = 1000 then some (ex_item [46] 1 3 [2000, 3000])
      else if a = 2000 then some (ex_item [97] 1 3 [])
      else if a = 3000 then some (ex_item [98] 1 3 [])
      else none }

/-- A name of 1001 bytes, all of them the letter a. -/
def ex_long_name : List Nat := List.replicate 1001 97

/-! ## The scan by name as the specification words it -/

/-- The scan that compares names only: the first child in collection order whose name
equals `name`, or nothing if there is none. -/
def first_named (h : item_heap) (name : List Nat) (cs : List Nat) : Option Nat :=
  cs.find? (fun c => decide ((h c).bind procstat_item_name = some name))

/-! ## The writes of the listing loop -/

/-- The writes of the loop of the C `fuse_readdir` over the children, from the offset,
capacity `bufsize` and growth counter `alloc_factor` it has reached, when every
`realloc` succeeds: for each child in turn the offset at which its record is written,
the size of the record, and the capacity of the buffer at that moment.  The writes end
where the new capacity overflows the `int` it is computed in. -/
def readdir_writes (context : procstat_context) :
    List Nat → Nat → Nat → Nat → List (Nat × Nat × Nat)
  | [], _, _, _ => []
  | iter :: rest, offset, bufsize, alloc_factor =>
    match context.items iter with
    | none => []
    | some it =>
      match procstat_item_name it with
      | none => []
      | some fname =>
        let entry_size := fuse_add_direntry_size fname
        if bufsize ≤ entry_size + offset then
          if INT_MAX < DEFAULT_BUFER_SIZE * 2 ^ alloc_factor then []
          else
            (offset, entry_size, DEFAULT_BUFER_SIZE * 2 ^ alloc_factor) ::
              readdir_writes context rest (offset + entry_size)
                (DEFAULT_BUFER_SIZE * 2 ^ alloc_factor) (alloc_factor + 1)
        else
          (offset, entry_size, bufsize) ::
            readdir_writes context rest (offset + entry_size) bufsize alloc_factor

/-! ## Two names with one hash -/

/-- The tree after creating the directories "Aa" (at 2000) and "BB" (at 3000) under the
root; the two names have the same hash. -/
def ex_clash : procstat_context :=
  { root := 1000, uid := 0, gid := 0,
    items := fun a =>
      if a = 1000 then some (ex_item [46] 1 3 [2000, 3000])
      else if a = 2000 then some (ex_item [65, 97] 1 3 [])
      else if a = 3000 then some (ex_item [66, 66] 1 3 [])
      else none }

/-- The tree after creating the directory "Aa" (at 2000) under the root. -/
def ex_clash_one : procstat_context :=
  { root := 1000, uid := 0, gid := 0,
    items := fun a =>
      if a = 1000 then some (ex_item [46] 1 3 [2000])
      else if a = 2000 then some (ex_item [65, 97] 1 3 [])
      else none }

/-! ## The references the kernel holds -/

/-- The references the kernel holds after the call `o`, item by item.  A lookup that
replies with an entry issues one reference on the item of the entry; a forget gives
`nlookup` references on its item back. -/
def held_after (context : procstat_context) (held : Nat → Nat) : op → Nat → Nat
  | .lookup parent_inode name =>
    match fuse_lookup context parent_inode name with
    | .ok (_, reply.entry ino _) => fun a => if a = ino then held a + 1 else held a
    | _ => held
  | .forget ino nlookup =>
    fun a => if a = fuse_inode_to_item context ino then held a - nlookup else held a
  | _ => held

/-- The kernel's part of a call: a forget gives back references that lookups have issued
on the item and that the kernel still holds. -/
def forget_conforms (context : procstat_context) (held : Nat → Nat) : op → Prop
  | .forget ino nlookup => nlookup ≤ held (fuse_inode_to_item context ino)
  | _ => True

/-- Every forget along the run gives back references that the kernel holds at that
time. -/
def forgets_conform (fuel : Nat) (context : procstat_context) (held : Nat → Nat) :
    List op → Prop
  | [] => True
  | o :: rest =>
    forget_conforms context held o ∧
      match step fuel context o with
      | .error _ => True
      | .ok c => forgets_conform fuel c (held_after context held o) rest

/-- The item at `r` is live and registered, and no item links it as a child. -/
def stays_root (h : item_heap) (r : Nat) : Prop :=
  (∃ ir, h r = some ir ∧ item_registered ir = true) ∧ unreferenced h r

/-- Every reference count of the heap is a value of the C `int`: at most `INT_MAX`. -/
def counts_in_int (h : item_heap) : Prop :=
  ∀ a ia, h a = some ia → ia.refcnt ≤ (INT_MAX : Int)

/-! # Theorems -/

/-! ## Heap primitives -/

@[simp] theorem heap_set_same (h : item_heap) (p : Nat) (it : procstat_item) :
    heap_set h p it p = some it := by
  simp [heap_set]

theorem heap_set_other (h : item_heap) (p a : Nat) (it : procstat_item) (hne : a ≠ p) :
    heap_set h p it a = h a := by
  simp [heap_set, hne]

@[simp] theorem heap_free_same (h : item_heap) (p : Nat) : heap_free h p p = none := by
  simp [heap_free]

theorem heap_free_other (h : item_heap) (p a : Nat) (hne : a ≠ p) : heap_free h p a = h a := by
  simp [heap_free, hne]

theorem list_del_apply (h : item_heap) (p a : Nat) :
    list_del h p a = (h a).map (unlink p) := rfl

theorem unlink_of_not_mem (p : Nat) (it : procstat_item) (hp : p ∉ it.children) :
    unlink p it = it := by
  cases it
  simp only [unlink] at *
  simp only [procstat_item.mk.injEq, true_and]
  apply List.filter_eq_self.mpr
  intro c hc
  simp only [ne_eq, decide_not, Bool.not_eq_eq_eq_not, Bool.not_true, decide_eq_false_iff_not]
  intro hcp
  exact hp (hcp ▸ hc)

/-! ## Flags -/

theorem dir_clear_registered (it : procstat_item) (r : Int) :
    item_type_directory { it with refcnt := r, flags := clear_registered it.flags }
      = item_type_directory it := by
  simp only [item_type_directory, clear_registered, STATS_ENTRY_FLAG_DIR,
    STATS_ENTRY_FLAG_REGISTERED]
  rw [Nat.and_assoc]
  rfl

theorem registered_clear_registered (f : Nat) :
    (clear_registered f &&& STATS_ENTRY_FLAG_REGISTERED) = 0 := by
  unfold clear_registered STATS_ENTRY_FLAG_REGISTERED
  rw [Nat.and_assoc]
  show f &&& 0 = 0
  simp

theorem clear_registered_of_unregistered (f : Nat) (hf : f < 2 ^ 32)
    (h : f &&& STATS_ENTRY_FLAG_REGISTERED = 0) : clear_registered f = f := by
  unfold clear_registered STATS_ENTRY_FLAG_REGISTERED at *
  apply Nat.eq_of_testBit_eq
  intro i
  rw [Nat.testBit_and]
  have h0 : f.testBit 0 = false := by
    have := congrArg (fun x => x.testBit 0) h
    simpa [Nat.testBit_and] using this
  by_cases hi : i < 32
  · by_cases hz : i = 0
    · subst hz; simp [h0]
    · have hm : Nat.testBit (0xFFFFFFFF ^^^ 1) i = true := by
        interval_cases i <;> first | decide | exact absurd rfl hz
      rw [hm]; simp
  · have : f.testBit i = false := by
      apply Nat.testBit_lt_two_pow
      calc f < 2 ^ 32 := hf
        _ ≤ 2 ^ i := Nat.pow_le_pow_right (by decide) (by omega)
    simp [this]

/-! ## Names -/

theorem takeWhile_nonzero_append (name rest : List Nat) (hn : ∀ b ∈ name, b ≠ 0) :
    (name ++ 0 :: rest).takeWhile (fun b => b != 0) = name := by
  induction name with
  | nil => simp
  | cons b bs ih =>
    have hb : b ≠ 0 := hn b (by simp)
    simp only [List.cons_append, List.takeWhile_cons, bne_iff_ne, ne_eq, hb, not_false_eq_true,
      ↓reduceIte, List.cons.injEq, true_and]
    exact ih (fun x hx => hn x (by simp [hx]))

theorem name_init_item (item : procstat_item) (name : List Nat) (hv : valid_name name) :
    procstat_item_name (init_item item name) = some name := by
  obtain ⟨hne, hnz⟩ := hv
  unfold init_item
  by_cases hl : name.length < DNAME_INLINE_LEN
  · simp only [hl, ↓reduceIte]
    cases name with
    | nil => exact absurd rfl hne
    | cons b bs =>
      have hb : b ≠ 0 := hnz b (by simp)
      have := takeWhile_nonzero_append (b :: bs) (List.drop ((b :: bs).length + 1) item.iname) hnz
      simp only [procstat_item_name, stats_item_short_name]
      simp only [List.cons_append, List.headD_cons, bne_iff_ne, ne_eq, hb, not_false_eq_true,
        ↓reduceIte, Option.some.injEq]
      simpa using this
  · simp [hl, procstat_item_name, stats_item_short_name]

theorem name_hash_init_item (item : procstat_item) (name : List Nat) :
    (init_item item name).name_hash = string_hash name := by
  unfold init_item
  split <;> rfl

/-! ## The scan of `lookup_item_locked` -/

theorem lookup_scan_none (h : item_heap) (name : List Nat) (hash : Nat) (cs : List Nat)
    (hcs : ∀ c ∈ cs, other_name h name c) :
    lookup_scan h (some name) hash cs = .ok none := by
  induction cs with
  | nil => rfl
  | cons c rest ih =>
    obtain ⟨ic, n, hic, hn, hne⟩ := hcs c (by simp)
    have ih1 := ih (fun x hx => hcs x (by simp [hx]))
    simp only [lookup_scan, hic, hn]
    split
    · exact ih1
    · simp [hne, ih1]

theorem lookup_scan_found (h : item_heap) (name : List Nat) (pre post : List Nat) (c : Nat)
    (ic : procstat_item) (hpre : ∀ x ∈ pre, other_name h name x) (hic : h c = some ic)
    (hn : procstat_item_name ic = some name) (hh : ic.name_hash = string_hash name) :
    lookup_scan h (some name) (string_hash name) (pre ++ c :: post) = .ok (some c) := by
  induction pre with
  | nil => simp [lookup_scan, hic, hn, hh]
  | cons x rest ih =>
    obtain ⟨ix, n, hix, hxn, hne⟩ := hpre x (by simp)
    have ih1 := ih (fun y hy => hpre y (by simp [hy]))
    simp only [List.cons_append, lookup_scan, hix, hxn]
    split
    · exact ih1
    · simp [hne, ih1]

theorem parent_or_root_getD (context : procstat_context) (parent : Option Nat)
    (d : procstat_item) (hd : context.items (parent.getD context.root) = some d)
    (hdir : item_type_directory d = true) :
    parent_or_root context parent = .ok (some (parent.getD context.root)) := by
  cases parent with
  | none => rfl
  | some p =>
    simp only [Option.getD_some] at hd
    simp [parent_or_root, hd, hdir]

theorem other_name_heap_set (h : item_heap) (name : List Nat) (a c : Nat) (it : procstat_item)
    (hne : c ≠ a) (ho : other_name h name c) : other_name (heap_set h a it) name c := by
  obtain ⟨ic, n, h1, h2, h3⟩ := ho
  exact ⟨ic, n, by rw [heap_set_other _ _ _ _ hne]; exact h1, h2, h3⟩

theorem name_fresh_directory (name : List Nat) (hv : valid_name name) :
    procstat_item_name (fresh_directory name) = some name :=
  name_init_item zeroed_item name hv

theorem name_hash_fresh_directory (name : List Nat) :
    (fresh_directory name).name_hash = string_hash name :=
  name_hash_init_item zeroed_item name

theorem init_directory_zeroed (h : item_heap) (a : Nat) (name : List Nat) (parent : Option Nat) :
    init_directory (heap_set h a zeroed_item) a name parent =
      register_item (heap_set (heap_set h a zeroed_item) a (fresh_directory name)) a parent := by
  simp only [init_directory, heap_set_same]
  rfl

theorem register_item_dup (h : item_heap) (item par c : Nat) (it d : procstat_item)
    (hit : h item = some it) (hpar : h par = some d) (hdir : item_type_directory d = true)
    (hscan : lookup_scan h (procstat_item_name it) it.name_hash d.children = .ok (some c)) :
    register_item h item (some par) = .ok (h, EEXIST) := by
  simp [register_item, hit, lookup_item_locked, hpar, hdir, hscan]

theorem register_item_new (h : item_heap) (item par : Nat) (it d : procstat_item)
    (hit : h item = some it) (hpar : h par = some d) (hdir : item_type_directory d = true)
    (hne : item ≠ par)
    (hscan : lookup_scan h (procstat_item_name it) it.name_hash d.children = .ok none) :
    register_item h item (some par) =
      .ok (heap_set (heap_set h par { d with children := d.children ++ [item] }) item
        { it with flags := it.flags ||| STATS_ENTRY_FLAG_REGISTERED, refcnt := 1 }, 0) := by
  simp [register_item, hit, lookup_item_locked, hpar, hdir, hscan, list_add_tail,
    heap_set_other _ _ _ _ hne]

theorem create_directory_ok (context : procstat_context) (parent : Option Nat)
    (name : List Nat) (a : Nat) (d : procstat_item)
    (hd : context.items (parent.getD context.root) = some d)
    (hdir : item_type_directory d = true)
    (hfresh : context.items a = none)
    (hv : valid_name name)
    (hch : ∀ c ∈ d.children, other_name context.items name c) :
    procstat_create_directory context parent name (some a) =
      .ok ({ context with items := heap_set (heap_set context.items (parent.getD context.root) { d with children := d.children ++ [a] }) a (new_directory name) }, .ok a) := by
  have hpa : parent.getD context.root ≠ a := by
    intro e; rw [e, hfresh] at hd; cases hd
  have hscan : lookup_scan
      (heap_set (heap_set context.items a zeroed_item) a (fresh_directory name))
      (some name) (string_hash name) d.children = .ok none := by
    apply lookup_scan_none
    intro c hc
    have hca : c ≠ a := by
      intro e
      obtain ⟨ic, _, h1, _, _⟩ := hch c hc
      rw [e, hfresh] at h1; cases h1
    exact other_name_heap_set _ _ _ _ _ hca (other_name_heap_set _ _ _ _ _ hca (hch c hc))
  have hreg := register_item_new
    (heap_set (heap_set context.items a zeroed_item) a (fresh_directory name)) a
    (parent.getD context.root) (fresh_directory name) d (heap_set_same _ _ _)
    (by rw [heap_set_other _ _ _ _ hpa, heap_set_other _ _ _ _ hpa]; exact hd) hdir hpa.symm
    (by rw [name_fresh_directory name hv, name_hash_fresh_directory]; exact hscan)
  simp only [procstat_create_directory, parent_or_root_getD context parent d hd hdir,
    init_directory_zeroed, hreg]
  simp only [ne_eq, not_true_eq_false, ↓reduceIte, Except.ok.injEq, Prod.mk.injEq, and_true]
  congr 1
  funext q
  by_cases hqa : q = a
  · subst hqa; simp only [heap_set_same]; rfl
  · by_cases hqp : q = parent.getD context.root
    · simp [heap_set, hqp, hpa]
    · simp [heap_set, hqa, hqp]

theorem free_fresh_directory (h : item_heap) (a : Nat) (name : List Nat)
    (hfresh : h a = none) (hunref : unreferenced h a) :
    free_item (heap_set (heap_set h a zeroed_item) a (fresh_directory name)) a = .ok h := by
  simp only [free_item, heap_set_same, list_del_apply, Option.map_some']
  simp only [fresh_directory, unlink, List.filter_nil, List.isEmpty_nil, Bool.not_true,
    Bool.and_false, Bool.false_eq_true, ↓reduceIte, Except.ok.injEq]
  funext q
  by_cases hqa : q = a
  · subst hqa; simp [hfresh]
  · simp only [heap_free_other _ _ _ hqa, list_del_apply, heap_set_other _ _ _ _ hqa]
    cases hq : h q with
    | none => rfl
    | some iq => simp [unlink_of_not_mem a iq (hunref q iq hq)]

theorem lookup_item_locked_dir (h : item_heap) (parent : Nat) (d : procstat_item)
    (name : Option (List Nat)) (hash : Nat) (hd : h parent = some d)
    (hdir : item_type_directory d = true) :
    lookup_item_locked h parent name hash = lookup_scan h name hash d.children := by
  simp [lookup_item_locked, hd, hdir]

theorem fill_item_stats_refcnt (context : procstat_context) (c : Nat) (ic : procstat_item)
    (r : Int) : fill_item_stats context c { ic with refcnt := r } = fill_item_stats context c ic :=
  rfl

/-! ## Shape of the tree under the heap primitives -/

theorem tree_shape_heap_set (rk : Nat → Nat) (h : item_heap) (q : Nat) (it it' : procstat_item)
    (hs : tree_shape rk h) (hq : h q = some it) (hc : it'.children = it.children) :
    tree_shape rk (heap_set h q it') := by
  have key : ∀ x ix, heap_set h q it' x = some ix → ∃ iy, h x = some iy ∧ ix.children = iy.children := by
    intro x ix hx
    by_cases hxq : x = q
    · subst hxq
      rw [heap_set_same] at hx
      cases hx
      exact ⟨it, hq, hc⟩
    · rw [heap_set_other _ _ _ _ hxq] at hx
      exact ⟨ix, hx, rfl⟩
  have live : ∀ x ix, h x = some ix → ∃ iy, heap_set h q it' x = some iy := by
    intro x ix hx
    by_cases hxq : x = q
    · subst hxq; exact ⟨it', heap_set_same _ _ _⟩
    · exact ⟨ix, by rw [heap_set_other _ _ _ _ hxq]; exact hx⟩
  constructor
  · intro p ip c hp hcm
    obtain ⟨iy, hy, e⟩ := key p ip hp
    obtain ⟨ic, hic⟩ := hs.children_live p iy c hy (e ▸ hcm)
    exact live c ic hic
  · intro p p' ip ip' c hp hp' hcm hcm'
    obtain ⟨iy, hy, e⟩ := key p ip hp
    obtain ⟨iy', hy', e'⟩ := key p' ip' hp'
    exact hs.unique_parent p p' iy iy' c hy hy' (e ▸ hcm) (e' ▸ hcm')
  · intro p ip c hp hcm
    obtain ⟨iy, hy, e⟩ := key p ip hp
    exact hs.rank p iy c hy (e ▸ hcm)
  · intro p ip hp
    obtain ⟨iy, hy, e⟩ := key p ip hp
    rw [e]; exact hs.nodup p iy hy

theorem list_del_some (h : item_heap) (q x : Nat) (ix : procstat_item)
    (hx : list_del h q x = some ix) : ∃ iy, h x = some iy ∧ ix = unlink q iy := by
  rw [list_del_apply] at hx
  cases hy : h x with
  | none => rw [hy] at hx; cases hx
  | some iy => rw [hy] at hx; cases hx; exact ⟨iy, rfl, rfl⟩

theorem mem_unlink (q c : Nat) (it : procstat_item) :
    c ∈ (unlink q it).children ↔ c ∈ it.children ∧ c ≠ q := by
  simp [unlink]

theorem tree_shape_list_del (rk : Nat → Nat) (h : item_heap) (q : Nat)
    (hs : tree_shape rk h) : tree_shape rk (list_del h q) := by
  constructor
  · intro p ip c hp hcm
    obtain ⟨iy, hy, e⟩ := list_del_some h q p ip hp
    subst e
    obtain ⟨ic, hic⟩ := hs.children_live p iy c hy ((mem_unlink q c iy).mp hcm).1
    exact ⟨unlink q ic, by rw [list_del_apply, hic]; rfl⟩
  · intro p p' ip ip' c hp hp' hcm hcm'
    obtain ⟨iy, hy, e⟩ := list_del_some h q p ip hp
    obtain ⟨iy', hy', e'⟩ := list_del_some h q p' ip' hp'
    subst e; subst e'
    exact hs.unique_parent p p' iy iy' c hy hy' ((mem_unlink q c iy).mp hcm).1
      ((mem_unlink q c iy').mp hcm').1
  · intro p ip c hp hcm
    obtain ⟨iy, hy, e⟩ := list_del_some h q p ip hp
    subst e
    exact hs.rank p iy c hy ((mem_unlink q c iy).mp hcm).1
  · intro p ip hp
    obtain ⟨iy, hy, e⟩ := list_del_some h q p ip hp
    subst e
    exact (hs.nodup p iy hy).filter _

theorem tree_shape_free (rk : Nat → Nat) (h : item_heap) (q : Nat)
    (hs : tree_shape rk h) : tree_shape rk (heap_free (list_del h q) q) := by
  have hs1 := tree_shape_list_del rk h q hs
  have key : ∀ x ix, heap_free (list_del h q) q x = some ix → list_del h q x = some ix ∧ x ≠ q := by
    intro x ix hx
    by_cases hxq : x = q
    · subst hxq; rw [heap_free_same] at hx; cases hx
    · rw [heap_free_other _ _ _ hxq] at hx; exact ⟨hx, hxq⟩
  constructor
  · intro p ip c hp hcm
    obtain ⟨hp1, _⟩ := key p ip hp
    obtain ⟨iy, hy, e⟩ := list_del_some h q p ip hp1
    subst e
    have hcq : c ≠ q := ((mem_unlink q c iy).mp hcm).2
    obtain ⟨ic, hic⟩ := hs1.children_live p _ c hp1 hcm
    exact ⟨ic, by rw [heap_free_other _ _ _ hcq]; exact hic⟩
  · intro p p' ip ip' c hp hp' hcm hcm'
    exact hs1.unique_parent p p' ip ip' c (key p ip hp).1 (key p' ip' hp').1 hcm hcm'
  · intro p ip c hp hcm
    exact hs1.rank p ip c (key p ip hp).1 hcm
  · intro p ip hp
    exact hs1.nodup p ip (key p ip hp).1

theorem free_item_ok (h : item_heap) (q : Nat) (h' : item_heap)
    (hf : free_item h q = .ok h') : h' = heap_free (list_del h q) q := by
  unfold free_item at hf
  split at hf
  · cases hf
  · simp only at hf
    split at hf
    · cases hf
    · split at hf
      · cases hf
      · cases hf; rfl

theorem put_children_loop_preserves (P : item_heap → Prop)
    (hset : ∀ h q it it', P h → h q = some it → it'.children = it.children →
      it'.refcnt = it.refcnt → it'.flags = it.flags → P (heap_set h q it'))
    (hdel : ∀ h q, P h → P (list_del h q))
    (put : item_heap → Nat → Except fault item_heap)
    (hput : ∀ h c h', P h → put h c = .ok h' → P h') :
    ∀ cs h h', P h → item_put_children_loop put cs h = .ok h' → P h' := by
  intro cs
  induction cs with
  | nil => intro h h' hP hr; cases hr; exact hP
  | cons c rest ihc =>
    intro h h' hP hr
    simp only [item_put_children_loop] at hr
    split at hr
    · cases hr
    · rename_i ic hic
      split at hr
      · cases hr
      · rename_i h1 h1eq
        exact ihc h1 h' (hput _ c h1
          (hdel _ _ (hset h c ic { ic with parent := none } hP hic rfl rfl rfl)) h1eq) hr

/-- Whatever holds of a heap and survives the three ways `item_put_locked` writes to
it also holds after a call that returns. -/
theorem item_put_locked_preserves (P : item_heap → Prop)
    (hset : ∀ h q it it', P h → h q = some it → it'.children = it.children →
      item_type_directory it' = item_type_directory it → P (heap_set h q it'))
    (hdel : ∀ h q, P h → P (list_del h q))
    (hfree : ∀ h q, P h → P (heap_free (list_del h q) q)) :
    ∀ fuel h p h', P h → item_put_locked fuel h p = .ok h' → P h' := by
  intro fuel
  induction fuel with
  | zero => intro h p h' _ hr; cases hr
  | succ fuel ih =>
    have loop : ∀ cs h h', P h → item_put_children_loop (item_put_locked fuel) cs h = .ok h' →
        P h' :=
      put_children_loop_preserves P
        (fun h q it it' hP hq hc _ hf => hset h q it it' hP hq hc
          (by simp [item_type_directory, hf]))
        hdel (item_put_locked fuel) ih
    intro h p h' hP hr
    simp only [item_put_locked] at hr
    split at hr
    · cases hr
    · rename_i it hit
      split at hr
      · cases hr
      · split at hr
        · cases hr; exact hset h p it _ hP hit rfl rfl
        · have hP1 : P (heap_set h p
              { it with refcnt := it.refcnt - 1, flags := clear_registered it.flags }) :=
            hset h p it _ hP hit rfl (dir_clear_registered it _)
          split at hr
          · split at hr
            · cases hr
            · rename_i h2 h2eq
              have hP2 := loop _ _ h2 hP1 h2eq
              rw [free_item_ok _ _ _ hr]
              exact hfree _ _ hP2
          · rw [free_item_ok _ _ _ hr]
            exact hfree _ _ hP1

theorem item_put_locked_shape (rk : Nat → Nat) (fuel : Nat) (h : item_heap) (p : Nat)
    (h' : item_heap) (hs : tree_shape rk h) (hr : item_put_locked fuel h p = .ok h') :
    tree_shape rk h' :=
  item_put_locked_preserves (tree_shape rk)
    (fun h q it it' hP hq hc _ => tree_shape_heap_set rk h q it it' hP hq hc)
    (fun h q hP => tree_shape_list_del rk h q hP)
    (fun h q hP => tree_shape_free rk h q hP) fuel h p h' hs hr

/-! ## Descendants and the cascade -/

theorem descends_rank (rk : Nat → Nat) (h : item_heap) (hs : tree_shape rk h) (p a : Nat)
    (hd : descends h p a) : a = p ∨ rk a < rk p := by
  induction hd with
  | self => exact Or.inl rfl
  | child q iq c _ hq hc ih =>
    right
    have := hs.rank q iq c hq hc
    rcases ih with e | lt
    · rw [← e]; exact this
    · exact lt_trans this lt

theorem cascade_descends (h : item_heap) (p a : Nat) (hc : cascade h p a) : descends h p a := by
  induction hc with
  | child ip c hp _ hcm => exact descends.child p ip c descends.self hp hcm
  | deeper q iq c _ hq _ _ hcm ih => exact descends.child q iq c ih hq hcm

theorem cascade_rank (rk : Nat → Nat) (h : item_heap) (hs : tree_shape rk h) (p a : Nat)
    (hc : cascade h p a) : rk a < rk p := by
  induction hc with
  | child ip c hp _ hcm => exact hs.rank p ip c hp hcm
  | deeper q iq c _ hq _ _ hcm ih => exact lt_trans (hs.rank q iq c hq hcm) ih

theorem descends_live (rk : Nat → Nat) (h : item_heap) (hs : tree_shape rk h) (p a : Nat)
    (ip : procstat_item) (hp : h p = some ip) (hd : descends h p a) : ∃ ia, h a = some ia := by
  cases hd with
  | self => exact ⟨ip, hp⟩
  | child q iq _ _ hq hc => exact hs.children_live q iq a hq hc

theorem cascade_live (rk : Nat → Nat) (h : item_heap) (hs : tree_shape rk h) (p a : Nat)
    (hc : cascade h p a) : ∃ ia, h a = some ia := by
  cases hc with
  | child ip _ hp _ hcm => exact hs.children_live p ip a hp hcm
  | deeper q iq _ _ hq _ _ hcm => exact hs.children_live q iq a hq hcm

theorem descends_comparable (rk : Nat → Nat) (h : item_heap) (hs : tree_shape rk h)
    (c c' a : Nat) (h1 : descends h c a) (h2 : descends h c' a) :
    descends h c' c ∨ descends h c c' := by
  induction h1 with
  | self => exact Or.inl h2
  | child q iq x hq1 hq hx ih =>
    cases h2 with
    | self => exact Or.inr (descends.child q iq _ hq1 hq hx)
    | child q' iq' _ hq1' hq' hx' =>
      have e : q = q' := hs.unique_parent q q' iq iq' _ hq hq' hx hx'
      subst e
      exact ih hq1'

theorem siblings_disjoint_aux (rk : Nat → Nat) (h : item_heap) (hs : tree_shape rk h)
    (d : Nat) (idd : procstat_item) (hd : h d = some idd) (c c' : Nat)
    (hc : c ∈ idd.children) (hc' : c' ∈ idd.children) (hne : c ≠ c')
    (hdesc : descends h c' c) : False := by
  cases hdesc with
  | self => exact hne rfl
  | child q iq _ hq1 hq hx =>
    have e : q = d := hs.unique_parent q d iq idd c hq hd hx hc
    subst e
    have r1 := hs.rank q idd c' hd hc'
    rcases descends_rank rk h hs c' q hq1 with e | lt
    · rw [e] at r1; exact lt_irrefl _ r1
    · exact lt_irrefl _ (lt_trans r1 lt)

theorem siblings_disjoint (rk : Nat → Nat) (h : item_heap) (hs : tree_shape rk h)
    (d : Nat) (idd : procstat_item) (hd : h d = some idd) (c c' a : Nat)
    (hc : c ∈ idd.children) (hc' : c' ∈ idd.children) (hne : c ≠ c')
    (h1 : descends h c a) (h2 : descends h c' a) : False := by
  rcases descends_comparable rk h hs c c' a h1 h2 with hh | hh
  · exact siblings_disjoint_aux rk h hs d idd hd c c' hc hc' hne hh
  · exact siblings_disjoint_aux rk h hs d idd hd c' c hc' hc (Ne.symm hne) hh

theorem parent_not_below_child (rk : Nat → Nat) (h : item_heap) (hs : tree_shape rk h)
    (d : Nat) (idd : procstat_item) (hd : h d = some idd) (c : Nat) (hc : c ∈ idd.children)
    (hdesc : descends h c d) : False := by
  have r1 := hs.rank d idd c hd hc
  rcases descends_rank rk h hs c d hdesc with e | lt
  · rw [e] at r1; exact lt_irrefl _ r1
  · exact lt_irrefl _ (lt_trans r1 lt)

/-! ## Heaps that agree below an item -/

theorem same_links_some (x : Option procstat_item) (i : procstat_item)
    (hx : same_links x (some i)) :
    ∃ j, x = some j ∧ j.refcnt = i.refcnt ∧
      item_type_directory j = item_type_directory i ∧ j.children = i.children := by
  cases x with
  | none => simp [same_links] at hx
  | some j =>
    simp only [same_links, Option.map_some', Option.some.injEq, Prod.mk.injEq] at hx
    exact ⟨j, rfl, hx.1, hx.2.1, hx.2.2⟩

theorem same_links_some_left (y : Option procstat_item) (i : procstat_item)
    (hx : same_links (some i) y) :
    ∃ j, y = some j ∧ j.refcnt = i.refcnt ∧
      item_type_directory j = item_type_directory i ∧ j.children = i.children :=
  same_links_some y i hx.symm

theorem same_links_of_eq (x y : Option procstat_item) (e : x = y) : same_links x y := by
  rw [e]; rfl

theorem descends_congr (h h' : item_heap) (c : Nat)
    (hag : ∀ x, descends h c x → same_links (h' x) (h x)) (a : Nat) :
    descends h' c a ↔ descends h c a := by
  constructor
  · intro hd
    induction hd with
    | self => exact descends.self
    | child q iq x _ hq hx ih =>
      obtain ⟨j, hj, _, _, e⟩ := same_links_some_left _ iq (hq ▸ hag q ih)
      exact descends.child q j x ih hj (e ▸ hx)
  · intro hd
    induction hd with
    | self => exact descends.self
    | child q iq x hq1 hq hx ih =>
      obtain ⟨j, hj, _, _, e⟩ := same_links_some _ iq (hq ▸ hag q hq1)
      exact descends.child q j x ih hj (e ▸ hx)

theorem cascade_congr (h h' : item_heap) (c : Nat)
    (hag : ∀ x, descends h c x → same_links (h' x) (h x)) (a : Nat) :
    cascade h' c a ↔ cascade h c a := by
  constructor
  · intro hd
    induction hd with
    | child ip x hp hdir hx =>
      obtain ⟨j, hj, _, ef, e⟩ := same_links_some_left _ ip (hp ▸ hag c descends.self)
      exact cascade.child j x hj (by rw [ef]; exact hdir) (e ▸ hx)
    | deeper q iq x _ hq hr hdir hx ih =>
      obtain ⟨j, hj, er, ef, e⟩ :=
        same_links_some_left _ iq (hq ▸ hag q (cascade_descends h c q ih))
      exact cascade.deeper q j x ih hj (by rw [er]; exact hr)
        (by rw [ef]; exact hdir) (e ▸ hx)
  · intro hd
    induction hd with
    | child ip x hp hdir hx =>
      obtain ⟨j, hj, _, ef, e⟩ := same_links_some _ ip (hp ▸ hag c descends.self)
      exact cascade.child j x hj (by rw [ef]; exact hdir) (e ▸ hx)
    | deeper q iq x hq1 hq hr hdir hx ih =>
      obtain ⟨j, hj, er, ef, e⟩ :=
        same_links_some _ iq (hq ▸ hag q (cascade_descends h c q hq1))
      exact cascade.deeper q j x ih hj (by rw [er]; exact hr)
        (by rw [ef]; exact hdir) (e ▸ hx)

/-- The cascade from `p` is what the loop over the children of `p` releases. -/
theorem cascade_iff_loop_released (h : item_heap) (p : Nat) (ip : procstat_item)
    (hp : h p = some ip) (a : Nat) :
    cascade h p a ↔ item_type_directory ip = true ∧ loop_released h ip.children a := by
  constructor
  · intro hc
    induction hc with
    | child ip' x hp' hdir hx =>
      rw [hp] at hp'; cases hp'
      exact ⟨hdir, x, hx, Or.inl rfl⟩
    | deeper q iq x _ hq hr hdir hx ih =>
      obtain ⟨hd, c, hc, hrel⟩ := ih
      refine ⟨hd, c, hc, Or.inr ?_⟩
      rcases hrel with e | ⟨ic, hic, hr1, hcas⟩
      · subst e
        exact ⟨iq, hq, hr, cascade.child iq x hq hdir hx⟩
      · exact ⟨ic, hic, hr1, cascade.deeper q iq x hcas hq hr hdir hx⟩
  · rintro ⟨hdir, c, hc, hrel⟩
    have hpc : cascade h p c := cascade.child ip c hp hdir hc
    rcases hrel with e | ⟨ic, hic, hr1, hcas⟩
    · rw [e]; exact hpc
    · induction hcas with
      | child ic' x hic' hdir' hx =>
        rw [hic] at hic'; cases hic'
        exact cascade.deeper c ic x hpc hic hr1 hdir' hx
      | deeper q iq x _ hq hr hdir' hx ih =>
        exact cascade.deeper q iq x ih hq hr hdir' hx

/-! ## Unfolding `item_put_locked` and `free_item` -/

theorem item_put_locked_more (fuel : Nat) (h : item_heap) (p : Nat) (it : procstat_item)
    (hp : h p = some it) (h0 : it.refcnt ≠ 0) (h1 : it.refcnt ≠ 1) :
    item_put_locked (fuel + 1) h p =
      .ok (heap_set h p { it with refcnt := it.refcnt - 1 }) := by
  have h2 : it.refcnt - 1 ≠ 0 := by omega
  simp [item_put_locked, hp, h0, h2]

theorem item_put_locked_last_dir (fuel : Nat) (h : item_heap) (p : Nat) (it : procstat_item)
    (h2 : item_heap) (hp : h p = some it) (hr : it.refcnt = 1)
    (hdir : item_type_directory it = true)
    (hloop : item_put_children_loop (item_put_locked fuel) it.children
      (heap_set h p { it with refcnt := it.refcnt - 1, flags := clear_registered it.flags })
      = .ok h2) :
    item_put_locked (fuel + 1) h p = free_item h2 p := by
  have hd := dir_clear_registered it 0
  rw [hdir] at hd
  rw [hr] at hloop
  simp at hloop
  simp [item_put_locked, hp, hr, hd, hloop]

theorem item_put_locked_last_leaf (fuel : Nat) (h : item_heap) (p : Nat) (it : procstat_item)
    (hp : h p = some it) (hr : it.refcnt = 1) (hdir : item_type_directory it = false) :
    item_put_locked (fuel + 1) h p =
      free_item (heap_set h p
        { it with refcnt := it.refcnt - 1, flags := clear_registered it.flags }) p := by
  have hd := dir_clear_registered it 0
  rw [hdir] at hd
  simp [item_put_locked, hp, hr, hd]

theorem free_item_childless (h : item_heap) (p : Nat) (it : procstat_item)
    (hp : h p = some it)
    (hc : item_type_directory it = false ∨ it.children = []) :
    free_item h p = .ok (heap_free (list_del h p) p) := by
  simp only [free_item, hp, list_del_apply, Option.map_some']
  have hdir : item_type_directory (unlink p it) = item_type_directory it := rfl
  rcases hc with hc | hc
  · simp [hdir, hc]
  · simp [unlink, hc]

/-! ## Detaching a child -/

theorem detach_self (rk : Nat → Nat) (h : item_heap) (hs : tree_shape rk h) (c : Nat)
    (ic : procstat_item) (hc : h c = some ic) :
    list_del (heap_set h c { ic with parent := none }) c c = some { ic with parent := none } := by
  rw [list_del_apply, heap_set_same, Option.map_some']
  congr 1
  apply unlink_of_not_mem
  intro hm
  exact lt_irrefl _ (hs.rank c ic c hc hm)

theorem detach_other (rk : Nat → Nat) (h : item_heap) (hs : tree_shape rk h) (d c : Nat)
    (idd ic : procstat_item) (hd : h d = some idd) (hcm : c ∈ idd.children)
    (a : Nat) (hac : a ≠ c) (had : a ≠ d) :
    list_del (heap_set h c { ic with parent := none }) c a = h a := by
  rw [list_del_apply, heap_set_other _ _ _ _ hac]
  cases ha : h a with
  | none => rfl
  | some ia =>
    rw [Option.map_some']
    congr 1
    apply unlink_of_not_mem
    intro hm
    exact had (hs.unique_parent a d ia idd c ha hd hm hcm)

theorem detach_parent (rk : Nat → Nat) (h : item_heap) (hs : tree_shape rk h) (d c : Nat)
    (idd ic : procstat_item) (hd : h d = some idd) (hcm : c ∈ idd.children) :
    list_del (heap_set h c { ic with parent := none }) c d = some (unlink c idd) := by
  have hdc : d ≠ c := by
    intro e; rw [e] at hd
    exact lt_irrefl _ (hs.rank c idd c hd hcm)
  rw [list_del_apply, heap_set_other _ _ _ _ hdc, hd]
  rfl

theorem detach_unlinked (h : item_heap) (c : Nat) (x : Nat) (ix : procstat_item)
    (hx : list_del h c x = some ix) : c ∉ ix.children := by
  obtain ⟨iy, _, e⟩ := list_del_some h c x ix hx
  subst e
  intro hm
  exact ((mem_unlink c c iy).mp hm).2 rfl

theorem put_released_descends (h : item_heap) (c a : Nat) (hr : put_released h c a) :
    descends h c a := by
  rcases hr with e | ⟨_, _, _, hc⟩
  · rw [e]; exact descends.self
  · exact cascade_descends h c a hc

theorem descends_of_child (h : item_heap) (p c a : Nat) (ip : procstat_item)
    (hp : h p = some ip) (hc : c ∈ ip.children) (hd : descends h c a) : descends h p a := by
  induction hd with
  | self => exact descends.child p ip c descends.self hp hc
  | child q iq x _ hq hx ih => exact descends.child q iq x ih hq hx

theorem map_unlink_put_result (p : Nat) (ia : procstat_item) (hp : p ∉ ia.children) :
    (put_result ia).map (unlink p) = put_result ia := by
  unfold put_result
  split
  · rfl
  · rw [Option.map_some']
    congr 1
    exact unlink_of_not_mem p _ hp

/-- One call of `item_put_locked` from the loop, on a child that is already unlinked. -/
theorem put_step (fuel : Nat) (hML : put_last_spec fuel) (rk : Nat → Nat) (h : item_heap)
    (c : Nat) (ic : procstat_item) (hs : tree_shape rk h) (hc : h c = some ic)
    (hrk : rk c < fuel)
    (hpos : ∀ a ia, descends h c a → h a = some ia → 1 ≤ ia.refcnt)
    (hun : ∀ x ix, h x = some ix → c ∉ ix.children) :
    ∃ h', item_put_locked fuel h c = .ok h' ∧
      h' c = (if ic.refcnt = 1 then none else some { ic with refcnt := ic.refcnt - 1 }) ∧
      (∀ a ia, ic.refcnt = 1 → cascade h c a → h a = some ia → h' a = put_result ia) ∧
      (∀ a, a ≠ c → ¬ (ic.refcnt = 1 ∧ cascade h c a) → h' a = h a) := by
  by_cases hr : ic.refcnt = 1
  · obtain ⟨h', he, hfree, hcas, hoth⟩ := hML rk h c ic hs hc hrk hr hpos
    refine ⟨h', he, by simp [hr, hfree], fun a ia _ hca ha => hcas a ia hca ha, ?_⟩
    intro a hac hn
    rw [hoth a hac (fun hca => hn ⟨hr, hca⟩)]
    cases ha : h a with
    | none => rfl
    | some ia => rw [Option.map_some', unlink_of_not_mem c ia (hun a ia ha)]
  · have h1 : 1 ≤ ic.refcnt := hpos c ic descends.self hc
    obtain ⟨f, rfl⟩ : ∃ f, fuel = f + 1 := ⟨fuel - 1, by omega⟩
    refine ⟨_, item_put_locked_more f h c ic hc (by omega) hr, by simp [hr], ?_, ?_⟩
    · intro a ia hr1; exact absurd hr1 hr
    · intro a hac _
      exact heap_set_other _ _ _ _ hac

theorem filter_not_mem_cons (c : Nat) (rest l : List Nat) :
    (l.filter (fun x => decide (x ≠ c))).filter (fun x => decide (x ∉ rest)) =
      l.filter (fun x => decide (x ∉ c :: rest)) := by
  rw [List.filter_filter]
  congr 1
  funext x
  simp only [ne_eq, decide_not, List.mem_cons, not_or, Bool.decide_and]
  rw [Bool.and_comm]

/-- The loop of `item_put_children_locked` over children `cs` of the directory `d`:
it returns, `d` loses the children `cs`, the released items are left as `put_result`
says, and nothing else changes. -/
theorem put_children_loop_spec (fuel : Nat) (hML : put_last_spec fuel) :
    ∀ (cs : List Nat) (rk : Nat → Nat) (H : item_heap) (d : Nat) (idd : procstat_item),
      tree_shape rk H → H d = some idd → (∀ c ∈ cs, c ∈ idd.children) → cs.Nodup →
      rk d ≤ fuel →
      (∀ c ∈ cs, ∀ a ia, descends H c a → H a = some ia → 1 ≤ ia.refcnt) →
      ∃ H', item_put_children_loop (item_put_locked fuel) cs H = .ok H' ∧
        H' d = some { idd with children := idd.children.filter (fun x => decide (x ∉ cs)) } ∧
        (∀ a ia, loop_released H cs a → H a = some ia → H' a = put_result ia) ∧
        (∀ a, a ≠ d → ¬ loop_released H cs a → H' a = H a) := by
  intro cs
  induction cs with
  | nil =>
    intro rk H d idd _ hd _ _ _ _
    refine ⟨H, rfl, ?_, ?_, ?_⟩
    · simp [hd]
    · rintro a ia ⟨c, hc, _⟩; cases hc
    · intro a _ _; rfl
  | cons c rest ih =>
    intro rk H d idd hs hd hsub hnd hrk hpos
    have hcm : c ∈ idd.children := hsub c (by simp)
    obtain ⟨ic, hic⟩ := hs.children_live d idd c hd hcm
    have hcd : rk c < rk d := hs.rank d idd c hd hcm
    have hdc : d ≠ c := by intro e; rw [e] at hcd; exact lt_irrefl _ hcd
    -- the heap after the child is detached
    have hs1 : tree_shape rk (list_del (heap_set H c { ic with parent := none }) c) :=
      tree_shape_list_del rk _ c (tree_shape_heap_set rk H c ic _ hs hic rfl)
    have h1c := detach_self rk H hs c ic hic
    have h1d := detach_parent rk H hs d c idd ic hd hcm
    have h1o := detach_other rk H hs d c idd ic hd hcm
    have hnotd : ∀ x, descends H c x → x ≠ d := by
      intro x hx e; rw [e] at hx
      exact parent_not_below_child rk H hs d idd hd c hcm hx
    have hag1 : ∀ x, descends H c x →
        same_links (list_del (heap_set H c { ic with parent := none }) c x) (H x) := by
      intro x hx
      by_cases hxc : x = c
      · rw [hxc, h1c, hic]; rfl
      · rw [h1o x hxc (hnotd x hx)]; rfl
    have hdesc1 := descends_congr H _ c hag1
    have hcas1 := cascade_congr H _ c hag1
    obtain ⟨h2, h2eq, h2c, h2cas, h2oth⟩ := put_step fuel hML rk _ c { ic with parent := none }
      hs1 h1c (lt_of_lt_of_le hcd hrk)
      (by
        intro a ia hda ha
        have hda' := (hdesc1 a).mp hda
        obtain ⟨ia', ha', er, _, _⟩ := same_links_some_left _ ia (ha ▸ hag1 a hda')
        have := hpos c (by simp) a ia' hda' ha'
        rw [er] at this; exact this)
      (fun x ix hx => detach_unlinked _ c x ix hx)
    have hs2 : tree_shape rk h2 := item_put_locked_shape rk fuel _ c h2 hs1 h2eq
    have h2d : h2 d = some (unlink c idd) := by
      rw [h2oth d hdc (fun hh => hnotd d (cascade_descends H c d ((hcas1 d).mp hh.2)) rfl), h1d]
    -- the untouched siblings
    have hK : ∀ c' ∈ rest, ∀ x, descends H c' x → h2 x = H x := by
      intro c' hc' x hx
      have hc'm : c' ∈ idd.children := hsub c' (by simp [hc'])
      have hne : c ≠ c' := by
        intro e; rw [← e] at hc'
        exact (List.nodup_cons.mp hnd).1 hc'
      have hnc : ¬ descends H c x := fun h1 =>
        siblings_disjoint rk H hs d idd hd c c' x hcm hc'm hne h1 hx
      have hxc : x ≠ c := by intro e; rw [e] at hnc; exact hnc descends.self
      have hxd : x ≠ d := by
        intro e; rw [e] at hx
        exact parent_not_below_child rk H hs d idd hd c' hc'm hx
      rw [h2oth x hxc (fun hh => hnc (cascade_descends H c x ((hcas1 x).mp hh.2))), h1o x hxc hxd]
    have hrel : ∀ a, loop_released h2 rest a ↔ loop_released H rest a := by
      intro a
      constructor
      · rintro ⟨c', hc', hr⟩
        refine ⟨c', hc', ?_⟩
        rcases hr with e | ⟨ic', hic', hr1, hca⟩
        · exact Or.inl e
        · rw [hK c' hc' c' descends.self] at hic'
          exact Or.inr ⟨ic', hic', hr1,
            (cascade_congr H h2 c' (fun x hx => same_links_of_eq _ _ (hK c' hc' x hx)) a).mp hca⟩
      · rintro ⟨c', hc', hr⟩
        refine ⟨c', hc', ?_⟩
        rcases hr with e | ⟨ic', hic', hr1, hca⟩
        · exact Or.inl e
        · rw [← hK c' hc' c' descends.self] at hic'
          exact Or.inr ⟨ic', hic', hr1,
            (cascade_congr H h2 c' (fun x hx => same_links_of_eq _ _ (hK c' hc' x hx)) a).mpr hca⟩
    obtain ⟨H', hH', hH'd, hH'rel, hH'oth⟩ := ih rk h2 d (unlink c idd) hs2 h2d
      (by
        intro c' hc'
        refine (mem_unlink c c' idd).mpr ⟨hsub c' (by simp [hc']), ?_⟩
        intro e; rw [e] at hc'
        exact (List.nodup_cons.mp hnd).1 hc')
      (List.nodup_cons.mp hnd).2 hrk
      (by
        intro c' hc' a ia hda ha
        have hda' := (descends_congr H h2 c'
          (fun x hx => same_links_of_eq _ _ (hK c' hc' x hx)) a).mp hda
        rw [hK c' hc' a hda'] at ha
        exact hpos c' (by simp [hc']) a ia hda' ha)
    refine ⟨H', ?_, ?_, ?_, ?_⟩
    · simp only [item_put_children_loop, hic, h2eq]
      exact hH'
    · rw [hH'd]
      simp only [unlink, Option.some.injEq, procstat_item.mk.injEq, true_and]
      exact filter_not_mem_cons c rest idd.children
    · rintro a ia ⟨c0, hc0, hr⟩ ha
      rcases List.mem_cons.mp hc0 with e | hc0r
      · subst e
        have hda : descends H c0 a := put_released_descends H c0 a hr
        have had : a ≠ d := hnotd a hda
        have hnr : ¬ loop_released h2 rest a := by
          rw [hrel]
          rintro ⟨c', hc', hr'⟩
          have hne : c0 ≠ c' := by
            intro e; rw [← e] at hc'
            exact (List.nodup_cons.mp hnd).1 hc'
          exact siblings_disjoint rk H hs d idd hd c0 c' a hcm (hsub c' (by simp [hc'])) hne hda
            (put_released_descends H c' a hr')
        rw [hH'oth a had hnr]
        rcases hr with e | ⟨ic', hic', hr1, hca⟩
        · subst e
          rw [hic] at ha; cases ha
          rw [h2c]; rfl
        · rw [hic] at hic'; cases hic'
          have hac : a ≠ c0 := by
            intro e; rw [e] at hca
            exact lt_irrefl _ (cascade_rank rk H hs c0 c0 hca)
          exact h2cas a ia hr1 ((hcas1 a).mpr hca) (by rw [h1o a hac had]; exact ha)
      · have hr2 : loop_released h2 rest a := (hrel a).mpr ⟨c0, hc0r, hr⟩
        have : h2 a = H a := hK c0 hc0r a (put_released_descends H c0 a hr)
        exact hH'rel a ia hr2 (by rw [this]; exact ha)
    · intro a had hnr
      have hnr2 : ¬ loop_released h2 rest a := by
        rw [hrel]
        rintro ⟨c', hc', hr'⟩
        exact hnr ⟨c', by simp [hc'], hr'⟩
      have hac : a ≠ c := by
        intro e; exact hnr ⟨c, by simp, Or.inl e⟩
      rw [hH'oth a had hnr2, h2oth a hac, h1o a hac had]
      rintro ⟨hr1, hca⟩
      exact hnr ⟨c, by simp, Or.inr ⟨ic, hic, hr1, (hcas1 a).mp hca⟩⟩

theorem filter_not_mem_self (l : List Nat) :
    l.filter (fun x => decide (x ∉ l)) = [] := by
  apply List.filter_eq_nil_iff.mpr
  intro x hx
  simp [hx]

/-- The specification of `item_put_locked` on a last reference holds for every `fuel`. -/
theorem put_last_spec_all (fuel : Nat) : put_last_spec fuel := by
  induction fuel with
  | zero =>
    intro rk h p ip _ _ hrk _ _
    exact absurd hrk (Nat.not_lt_zero _)
  | succ fuel ih =>
    intro rk h p ip hs hp hrk hr1 hpos
    have hs1 : tree_shape rk (heap_set h p
        { ip with refcnt := ip.refcnt - 1, flags := clear_registered ip.flags }) :=
      tree_shape_heap_set rk h p ip _ hs hp rfl
    have hnotp : ∀ c ∈ ip.children, ∀ x, descends h c x → x ≠ p := by
      intro c hc x hx e; rw [e] at hx
      exact parent_not_below_child rk h hs p ip hp c hc hx
    have hag : ∀ c ∈ ip.children, ∀ x, descends h c x →
        same_links (heap_set h p
          { ip with refcnt := ip.refcnt - 1, flags := clear_registered ip.flags } x) (h x) := by
      intro c hc x hx
      rw [heap_set_other _ _ _ _ (hnotp c hc x hx)]; rfl
    cases hdir : item_type_directory ip with
    | false =>
      rw [item_put_locked_last_leaf fuel h p ip hp hr1 hdir,
        free_item_childless _ p _ (heap_set_same _ _ _)
          (Or.inl (by rw [dir_clear_registered]; exact hdir))]
      refine ⟨_, rfl, heap_free_same _ _, ?_, ?_⟩
      · intro a ia hca _
        have := ((cascade_iff_loop_released h p ip hp a).mp hca).1
        rw [hdir] at this; cases this
      · intro a hap _
        rw [heap_free_other _ _ _ hap, list_del_apply, heap_set_other _ _ _ _ hap]
    | true =>
      obtain ⟨h2, h2eq, h2p, h2rel, h2oth⟩ := put_children_loop_spec fuel ih ip.children rk _ p
        { ip with refcnt := ip.refcnt - 1, flags := clear_registered ip.flags }
        hs1 (heap_set_same _ _ _) (fun c hc => hc) (hs.nodup p ip hp) (Nat.lt_succ_iff.mp hrk)
        (by
          intro c hc a ia hda ha
          have hda' := (descends_congr h _ c (hag c hc) a).mp hda
          rw [heap_set_other _ _ _ _ (hnotp c hc a hda')] at ha
          exact hpos a ia (descends_of_child h p c a ip hp hc hda') ha)
      have hrel : ∀ a, loop_released (heap_set h p
          { ip with refcnt := ip.refcnt - 1, flags := clear_registered ip.flags }) ip.children a
            ↔ loop_released h ip.children a := by
        intro a
        have hcne : ∀ c ∈ ip.children, c ≠ p := fun c hc => hnotp c hc c descends.self
        constructor
        · rintro ⟨c, hc, hr⟩
          refine ⟨c, hc, ?_⟩
          rcases hr with e | ⟨ic, hic, hr1', hca⟩
          · exact Or.inl e
          · rw [heap_set_other _ _ _ _ (hcne c hc)] at hic
            exact Or.inr ⟨ic, hic, hr1', (cascade_congr h _ c (hag c hc) a).mp hca⟩
        · rintro ⟨c, hc, hr⟩
          refine ⟨c, hc, ?_⟩
          rcases hr with e | ⟨ic, hic, hr1', hca⟩
          · exact Or.inl e
          · rw [← heap_set_other h p c
              { ip with refcnt := ip.refcnt - 1, flags := clear_registered ip.flags }
              (hcne c hc)] at hic
            exact Or.inr ⟨ic, hic, hr1', (cascade_congr h _ c (hag c hc) a).mpr hca⟩
      rw [item_put_locked_last_dir fuel h p ip h2 hp hr1 hdir h2eq,
        free_item_childless h2 p _ h2p (Or.inr (filter_not_mem_self ip.children))]
      refine ⟨_, rfl, heap_free_same _ _, ?_, ?_⟩
      · intro a ia hca ha
        have hap : a ≠ p := by
          intro e; rw [e] at hca
          exact lt_irrefl _ (cascade_rank rk h hs p p hca)
        have hlr := ((cascade_iff_loop_released h p ip hp a).mp hca).2
        have h2a := h2rel a ia ((hrel a).mpr hlr) (by rw [heap_set_other _ _ _ _ hap]; exact ha)
        rw [heap_free_other _ _ _ hap, list_del_apply, h2a]
        apply map_unlink_put_result
        intro hm
        exact lt_irrefl _ (lt_trans (hs.rank a ia p ha hm) (cascade_rank rk h hs p a hca))
      · intro a hap hnc
        have hnr : ¬ loop_released (heap_set h p
            { ip with refcnt := ip.refcnt - 1, flags := clear_registered ip.flags })
            ip.children a := by
          rw [hrel]
          intro hlr
          exact hnc ((cascade_iff_loop_released h p ip hp a).mpr ⟨hdir, hlr⟩)
        rw [heap_free_other _ _ _ hap, list_del_apply, h2oth a hap hnr,
          heap_set_other _ _ _ _ hap]

theorem cascade_flags_cleared (h : item_heap) (p : Nat) (ip : procstat_item)
    (hp : h p = some ip) (a : Nat) :
    cascade (heap_set h p { ip with flags := clear_registered ip.flags }) p a ↔ cascade h p a := by
  apply cascade_congr
  intro x _
  by_cases hx : x = p
  · subst hx
    rw [heap_set_same, hp]
    simp only [same_links, Option.map_some', Option.some.injEq, Prod.mk.injEq, and_true, true_and]
    exact dir_clear_registered ip ip.refcnt
  · rw [heap_set_other _ _ _ _ hx]; rfl

theorem remove_not_root (fuel : Nat) (context : procstat_context) (p : Nat) (ip : procstat_item)
    (hp : context.items p = some ip) (hroot : p ≠ context.root) :
    procstat_remove fuel context p =
      (item_put_locked fuel
        (heap_set context.items p { ip with flags := clear_registered ip.flags }) p).map
        (fun h => { context with items := h }) := by
  have : root_directory context p = false := by
    simp [root_directory, Ne.symm hroot]
  simp only [procstat_remove, hp, this, Bool.and_false, Bool.false_eq_true, ↓reduceIte]
  cases item_put_locked fuel
    (heap_set context.items p { ip with flags := clear_registered ip.flags }) p <;> rfl

/-- The effect of `procstat_remove` on a non-root item that holds its last reference. -/
theorem remove_last (rk : Nat → Nat) (fuel : Nat) (context : procstat_context) (p : Nat)
    (ip : procstat_item) (hwf : tree_wf rk context.items) (hp : context.items p = some ip)
    (hroot : p ≠ context.root) (hr : ip.refcnt = 1) (hfuel : rk p < fuel) :
    ∃ h', procstat_remove fuel context p = .ok { context with items := h' } ∧
      h' p = none ∧
      (∀ a ia, cascade context.items p a → context.items a = some ia → h' a = put_result ia) ∧
      (∀ a, a ≠ p → ¬ cascade context.items p a → h' a = (context.items a).map (unlink p)) := by
  have hs1 : tree_shape rk (heap_set context.items p
      { ip with flags := clear_registered ip.flags }) :=
    tree_shape_heap_set rk _ p ip _ hwf.shape hp rfl
  obtain ⟨h', he, hfree, hcas, hoth⟩ := put_last_spec_all fuel rk _ p
    { ip with flags := clear_registered ip.flags } hs1 (heap_set_same _ _ _) hfuel hr
    (by
      intro a ia _ ha
      by_cases hap : a = p
      · subst hap
        rw [heap_set_same] at ha; cases ha
        show 1 ≤ ip.refcnt
        omega
      · rw [heap_set_other _ _ _ _ hap] at ha
        exact hwf.refcnt_pos a ia ha)
  refine ⟨h', ?_, hfree, ?_, ?_⟩
  · rw [remove_not_root fuel context p ip hp hroot, he]; rfl
  · intro a ia hca ha
    have hap : a ≠ p := by
      intro e; rw [e] at hca
      exact lt_irrefl _ (cascade_rank rk _ hwf.shape p p hca)
    exact hcas a ia ((cascade_flags_cleared _ p ip hp a).mpr hca)
      (by rw [heap_set_other _ _ _ _ hap]; exact ha)
  · intro a hap hnc
    rw [hoth a hap (fun hca => hnc ((cascade_flags_cleared _ p ip hp a).mp hca)),
      heap_set_other _ _ _ _ hap]

theorem ex_looked_wf : tree_wf ex_rank ex_looked.items := by
  have key : ∀ p ip, ex_looked.items p = some ip →
      (p = 1000 ∧ ip = ex_item [46] 1 3 [2000]) ∨ (p = 2000 ∧ ip = ex_item [97] 1 3 [3000]) ∨
      (p = 3000 ∧ ip = ex_item [98] 2 3 []) := by
    intro p ip hp
    simp only [ex_looked] at hp
    split_ifs at hp with h1 h2 h3
    · cases hp; exact Or.inl ⟨h1, rfl⟩
    · cases hp; exact Or.inr (Or.inl ⟨h2, rfl⟩)
    · cases hp; exact Or.inr (Or.inr ⟨h3, rfl⟩)
  refine ⟨⟨?_, ?_, ?_, ?_⟩, ?_⟩
  · intro p ip c hp hc
    rcases key p ip hp with ⟨_, rfl⟩ | ⟨_, rfl⟩ | ⟨_, rfl⟩
    · have : c = 2000 := by simpa [ex_item] using hc
      subst this; exact ⟨_, rfl⟩
    · have : c = 3000 := by simpa [ex_item] using hc
      subst this; exact ⟨_, rfl⟩
    · simp [ex_item] at hc
  · intro p q ip iq c hp hq hc hc'
    rcases key p ip hp with ⟨rfl, rfl⟩ | ⟨rfl, rfl⟩ | ⟨rfl, rfl⟩ <;>
    rcases key q iq hq with ⟨rfl, rfl⟩ | ⟨rfl, rfl⟩ | ⟨rfl, rfl⟩ <;>
    simp [ex_item] at hc hc' <;> omega
  · intro p ip c hp hc
    rcases key p ip hp with ⟨rfl, rfl⟩ | ⟨rfl, rfl⟩ | ⟨rfl, rfl⟩ <;>
    simp [ex_item] at hc <;> subst hc <;> decide
  · intro p ip hp
    rcases key p ip hp with ⟨_, rfl⟩ | ⟨_, rfl⟩ | ⟨_, rfl⟩ <;> simp [ex_item]
  · intro p ip hp
    rcases key p ip hp with ⟨_, rfl⟩ | ⟨_, rfl⟩ | ⟨_, rfl⟩ <;> simp [ex_item]

theorem ex_held_twice_wf : tree_wf ex_rank ex_held_twice.items := by
  have key : ∀ p ip, ex_held_twice.items p = some ip →
      (p = 1000 ∧ ip = ex_item [46] 1 3 [2000]) ∨ (p = 2000 ∧ ip = ex_item [97] 2 2 [3000]) ∨
      (p = 3000 ∧ ip = ex_item [98] 1 3 []) := by
    intro p ip hp
    simp only [ex_held_twice] at hp
    split_ifs at hp with h1 h2 h3
    · cases hp; exact Or.inl ⟨h1, rfl⟩
    · cases hp; exact Or.inr (Or.inl ⟨h2, rfl⟩)
    · cases hp; exact Or.inr (Or.inr ⟨h3, rfl⟩)
  refine ⟨⟨?_, ?_, ?_, ?_⟩, ?_⟩
  · intro p ip c hp hc
    rcases key p ip hp with ⟨_, rfl⟩ | ⟨_, rfl⟩ | ⟨_, rfl⟩
    · have : c = 2000 := by simpa [ex_item] using hc
      subst this; exact ⟨_, rfl⟩
    · have : c = 3000 := by simpa [ex_item] using hc
      subst this; exact ⟨_, rfl⟩
    · simp [ex_item] at hc
  · intro p q ip iq c hp hq hc hc'
    rcases key p ip hp with ⟨rfl, rfl⟩ | ⟨rfl, rfl⟩ | ⟨rfl, rfl⟩ <;>
    rcases key q iq hq with ⟨rfl, rfl⟩ | ⟨rfl, rfl⟩ | ⟨rfl, rfl⟩ <;>
    simp [ex_item] at hc hc' <;> omega
  · intro p ip c hp hc
    rcases key p ip hp with ⟨rfl, rfl⟩ | ⟨rfl, rfl⟩ | ⟨rfl, rfl⟩ <;>
    simp [ex_item] at hc <;> subst hc <;> decide
  · intro p ip hp
    rcases key p ip hp with ⟨_, rfl⟩ | ⟨_, rfl⟩ | ⟨_, rfl⟩ <;> simp [ex_item]
  · intro p ip hp
    rcases key p ip hp with ⟨_, rfl⟩ | ⟨_, rfl⟩ | ⟨_, rfl⟩ <;> simp [ex_item]

theorem heap_set_idem (h : item_heap) (p : Nat) (x y : procstat_item) :
    heap_set (heap_set h p x) p y = heap_set h p y := by
  funext a
  by_cases ha : a = p <;> simp [heap_set, ha]

/-! ## Invariants of the release path -/

theorem item_put_locked_refcnt (fuel : Nat) :
    ∀ (X : Nat → Prop) (h : item_heap) (p : Nat) (h' : item_heap),
      (∀ a ia, h a = some ia → ¬ X a → 1 ≤ ia.refcnt) →
      item_put_locked fuel h p = .ok h' →
      ∀ a ia, h' a = some ia → ¬ X a → 1 ≤ ia.refcnt := by
  induction fuel with
  | zero => intro X h p h' _ hr; cases hr
  | succ fuel ih =>
    intro X h p h' hP hr
    simp only [item_put_locked] at hr
    split at hr
    · cases hr
    · rename_i it hit
      split at hr
      · cases hr
      · rename_i hne0
        split at hr
        · rename_i hne1
          cases hr
          intro a ia ha hX
          by_cases hap : a = p
          · subst hap
            rw [heap_set_same] at ha; cases ha
            have := hP a it hit hX
            show 1 ≤ it.refcnt - 1
            omega
          · rw [heap_set_other _ _ _ _ hap] at ha
            exact hP a ia ha hX
        · have hP1 : ∀ a ia, heap_set h p
              { it with refcnt := it.refcnt - 1, flags := clear_registered it.flags } a = some ia →
              ¬ (X a ∨ a = p) → 1 ≤ ia.refcnt := by
            intro a ia ha hX
            have hap : a ≠ p := fun e => hX (Or.inr e)
            rw [heap_set_other _ _ _ _ hap] at ha
            exact hP a ia ha (fun hx => hX (Or.inl hx))
          have hloop : ∀ h2, item_put_children_loop (item_put_locked fuel) it.children
              (heap_set h p
                { it with refcnt := it.refcnt - 1, flags := clear_registered it.flags }) = .ok h2 →
              ∀ a ia, h2 a = some ia → ¬ (X a ∨ a = p) → 1 ≤ ia.refcnt := by
            intro h2 h2eq
            apply put_children_loop_preserves
              (fun g => ∀ a ia, g a = some ia → ¬ (X a ∨ a = p) → 1 ≤ ia.refcnt)
              ?_ ?_ (item_put_locked fuel) ?_ it.children _ h2 hP1 h2eq
            · intro g q iq iq' hg hq _ hr' _ a ia ha hX
              by_cases haq : a = q
              · subst haq
                rw [heap_set_same] at ha; cases ha
                rw [hr']; exact hg a iq hq hX
              · rw [heap_set_other _ _ _ _ haq] at ha
                exact hg a ia ha hX
            · intro g q hg a ia ha hX
              obtain ⟨iy, hy, e⟩ := list_del_some g q a ia ha
              subst e
              exact hg a iy hy hX
            · intro g c g' hg hr'
              exact ih (fun a => X a ∨ a = p) g c g' hg hr'
          have hfin : ∀ h2, (∀ a ia, h2 a = some ia → ¬ (X a ∨ a = p) → 1 ≤ ia.refcnt) →
              ∀ a ia, heap_free (list_del h2 p) p a = some ia → ¬ X a → 1 ≤ ia.refcnt := by
            intro h2 hh a ia ha hX
            by_cases hap : a = p
            · subst hap; rw [heap_free_same] at ha; cases ha
            · rw [heap_free_other _ _ _ hap] at ha
              obtain ⟨iy, hy, e⟩ := list_del_some h2 p a ia ha
              subst e
              exact hh a iy hy (fun hx => hx.elim hX hap)
          split at hr
          · split at hr
            · cases hr
            · rename_i h2 h2eq
              rw [free_item_ok _ _ _ hr]
              exact hfin h2 (hloop h2 h2eq)
          · rw [free_item_ok _ _ _ hr]
            exact hfin _ hP1

/-! ## More fuel does not change a result -/

theorem put_children_loop_mono (put put' : item_heap → Nat → Except fault item_heap)
    (hm : ∀ h c h', put h c = .ok h' → put' h c = .ok h') :
    ∀ cs h h', item_put_children_loop put cs h = .ok h' →
      item_put_children_loop put' cs h = .ok h' := by
  intro cs
  induction cs with
  | nil => intro h h' hr; exact hr
  | cons c rest ihc =>
    intro h h' hr
    simp only [item_put_children_loop] at hr ⊢
    split at hr
    · cases hr
    · rename_i ic hic
      split at hr
      · cases hr
      · rename_i h1 h1eq
        simp only [hm _ c h1 h1eq]
        exact ihc h1 h' hr

theorem item_put_locked_mono_succ (fuel : Nat) :
    ∀ (h : item_heap) (p : Nat) (h' : item_heap),
      item_put_locked fuel h p = .ok h' → item_put_locked (fuel + 1) h p = .ok h' := by
  induction fuel with
  | zero => intro h p h' hr; cases hr
  | succ fuel ih =>
    intro h p h' hr
    simp only [item_put_locked] at hr
    split at hr
    · cases hr
    · rename_i it hit
      split at hr
      · cases hr
      · rename_i hne0
        split at hr
        · rename_i hne1
          cases hr
          simp [item_put_locked, hit, hne0, hne1]
        · rename_i h0
          have hr1 : it.refcnt = 1 := by
            have : it.refcnt - 1 = 0 := by simpa using h0
            omega
          split at hr
          · rename_i hdir
            rw [dir_clear_registered] at hdir
            split at hr
            · cases hr
            · rename_i h2 h2eq
              have := put_children_loop_mono (item_put_locked fuel) (item_put_locked (fuel + 1)) ih
                _ _ h2 h2eq
              rw [item_put_locked_last_dir (fuel + 1) h p it h2 hit hr1 hdir this]
              exact hr
          · rename_i hdir
            rw [dir_clear_registered] at hdir
            rw [item_put_locked_last_leaf (fuel + 1) h p it hit hr1 (by simpa using hdir)]
            exact hr

theorem item_put_locked_mono (fuel k : Nat) (h : item_heap) (p : Nat) (h' : item_heap)
    (hr : item_put_locked fuel h p = .ok h') : item_put_locked (fuel + k) h p = .ok h' := by
  induction k with
  | zero => exact hr
  | succ k ih => exact item_put_locked_mono_succ (fuel + k) h p h' ih

/-! ## What each call does to the tree -/

theorem fuse_lookup_effect (context : procstat_context) (parent_inode : Nat) (name : List Nat)
    (c' : procstat_context) (r : reply)
    (hr : fuse_lookup context parent_inode name = .ok (c', r)) :
    c' = context ∨ ∃ x ix, context.items x = some ix ∧
      c' = { context with items := heap_set context.items x { ix with refcnt := ix.refcnt + 1 } } := by
  unfold fuse_lookup at hr
  simp only at hr
  split at hr
  · cases hr
  · cases hr; exact Or.inl rfl
  · rename_i item _
    split at hr
    · cases hr
    · rename_i it hit
      split at hr
      · cases hr; exact Or.inl rfl
      · split at hr
        · cases hr
        · cases hr; exact Or.inr ⟨item, it, hit, rfl⟩

theorem fuse_forget_effect (context : procstat_context) (ino nlookup : Nat)
    (c' : procstat_context) (r : reply)
    (hr : fuse_forget context ino nlookup = .ok (c', r)) :
    ∃ it h', context.items (fuse_inode_to_item context ino) = some it ∧
      (nlookup : Int) ≤ it.refcnt ∧ c' = { context with items := h' } ∧
      ((it.refcnt - nlookup ≠ 0 ∧
        h' = heap_set context.items (fuse_inode_to_item context ino)
          { it with refcnt := it.refcnt - nlookup }) ∨
       (it.refcnt - nlookup = 0 ∧
        h' = heap_free (list_del (heap_set context.items (fuse_inode_to_item context ino)
          { it with refcnt := it.refcnt - nlookup }) (fuse_inode_to_item context ino))
          (fuse_inode_to_item context ino))) := by
  unfold fuse_forget at hr
  simp only at hr
  split at hr
  · cases hr
  · rename_i it hit
    split at hr
    · cases hr
    · rename_i hle
      split at hr
      · rename_i hz
        split at hr
        · cases hr
        · rename_i h2 h2eq
          cases hr
          exact ⟨it, _, hit, by omega, rfl, Or.inr ⟨hz, free_item_ok _ _ _ h2eq⟩⟩
      · rename_i hz
        cases hr
        exact ⟨it, _, hit, by omega, rfl, Or.inl ⟨hz, rfl⟩⟩

theorem fuse_getattr_effect (context : procstat_context) (ino : Nat)
    (c' : procstat_context) (r : reply) (hr : fuse_getattr context ino = .ok (c', r)) :
    c' = context := by
  unfold fuse_getattr at hr
  simp only at hr
  split at hr
  · cases hr
  · split at hr <;> cases hr <;> rfl

theorem fuse_opendir_effect (context : procstat_context) (ino : Nat)
    (c' : procstat_context) (r : reply) (hr : fuse_opendir context ino = .ok (c', r)) :
    c' = context := by
  unfold fuse_opendir at hr
  simp only at hr
  split at hr
  · cases hr
  · split at hr <;> cases hr <;> rfl

theorem fuse_readdir_effect (context : procstat_context) (ok : Nat → Bool) (ino size off : Nat)
    (c' : procstat_context) (r : reply) (hr : fuse_readdir context ok ino size off = .ok (c', r)) :
    c' = context := by
  unfold fuse_readdir at hr
  simp only at hr
  split at hr
  · cases hr
  · split at hr
    · cases hr; rfl
    · split at hr
      · cases hr
      · split at hr
        · cases hr
        · cases hr; rfl
        · split at hr <;> cases hr <;> rfl

theorem create_directory_effect (context : procstat_context) (parent : Option Nat)
    (name : List Nat) (calloc : Option Nat) (c' : procstat_context) (r : Except Nat Nat)
    (hr : procstat_create_directory context parent name calloc = .ok (c', r))
    (hfresh : ∀ a, calloc = some a → context.items a = none ∧ a ≠ context.root)
    (hunref : ∀ a, context.items a = none → unreferenced context.items a) :
    c' = context ∨ ∃ a par d h', calloc = some a ∧ context.items a = none ∧
      context.items par = some d ∧ par ≠ a ∧ c' = { context with items := h' } ∧
      h' = heap_set (heap_set context.items par { d with children := d.children ++ [a] }) a
        (new_directory name) := by
  unfold procstat_create_directory at hr
  split at hr
  · cases hr
  · cases hr; exact Or.inl rfl
  · rename_i par hpar
    split at hr
    · cases hr; exact Or.inl rfl
    · rename_i a
      obtain ⟨hfa, hroot⟩ := hfresh a rfl
      have hpa : par ≠ a := by
        cases parent with
        | none =>
          simp only [parent_or_root, Except.ok.injEq, Option.some.injEq] at hpar
          rw [← hpar]; exact Ne.symm hroot
        | some p =>
          simp only [parent_or_root] at hpar
          split at hpar
          · cases hpar
          · rename_i ip hip
            split at hpar
            · cases hpar
              intro e; rw [e, hfa] at hip; cases hip
            · cases hpar
      simp only [init_directory_zeroed] at hr
      cases hd : context.items par with
      | none =>
        simp [register_item, lookup_item_locked, heap_set_other _ _ _ _ hpa, hd] at hr
      | some d =>
        cases hdir : item_type_directory d with
        | false =>
          simp [register_item, lookup_item_locked, heap_set_other _ _ _ _ hpa, hd, hdir] at hr
        | true =>
          cases hscan : lookup_scan
              (heap_set (heap_set context.items a zeroed_item) a (fresh_directory name))
              (procstat_item_name (fresh_directory name)) (fresh_directory name).name_hash
              d.children with
          | error e =>
            simp [register_item, lookup_item_locked, heap_set_other _ _ _ _ hpa, hd, hdir,
              hscan] at hr
          | ok found =>
            cases found with
            | some c =>
              rw [register_item_dup _ a par c (fresh_directory name) d (heap_set_same _ _ _)
                (by rw [heap_set_other _ _ _ _ hpa, heap_set_other _ _ _ _ hpa]; exact hd)
                hdir hscan] at hr
              simp only [EEXIST, ne_eq, OfNat.ofNat_ne_zero, not_false_eq_true, ↓reduceIte,
                free_fresh_directory _ a name hfa (hunref a hfa)] at hr
              cases hr
              exact Or.inl rfl
            | none =>
              rw [register_item_new _ a par (fresh_directory name) d (heap_set_same _ _ _)
                (by rw [heap_set_other _ _ _ _ hpa, heap_set_other _ _ _ _ hpa]; exact hd)
                hdir hpa.symm hscan] at hr
              simp only [ne_eq, not_true_eq_false, ↓reduceIte, Except.ok.injEq,
                Prod.mk.injEq] at hr
              right
              refine ⟨a, par, d, _, rfl, hfa, hd, hpa, hr.1.symm, ?_⟩
              funext q
              by_cases hqa : q = a
              · subst hqa; simp only [heap_set_same]; rfl
              · by_cases hqp : q = par
                · simp [heap_set, hqp, hpa]
                · simp [heap_set, hqa, hqp]

/-! ## The invariant of the reachable trees -/

theorem tree_wf_heap_set (rk : Nat → Nat) (h : item_heap) (q : Nat) (it it' : procstat_item)
    (hwf : tree_wf rk h) (hq : h q = some it) (hc : it'.children = it.children)
    (hr : 1 ≤ it'.refcnt) : tree_wf rk (heap_set h q it') := by
  refine ⟨tree_shape_heap_set rk h q it it' hwf.shape hq hc, ?_⟩
  intro a ia ha
  by_cases haq : a = q
  · subst haq; rw [heap_set_same] at ha; cases ha; exact hr
  · rw [heap_set_other _ _ _ _ haq] at ha; exact hwf.refcnt_pos a ia ha

theorem tree_wf_free_set (rk : Nat → Nat) (h : item_heap) (q : Nat) (it it' : procstat_item)
    (hwf : tree_wf rk h) (hq : h q = some it) (hc : it'.children = it.children) :
    tree_wf rk (heap_free (list_del (heap_set h q it') q) q) := by
  refine ⟨tree_shape_free rk _ q (tree_shape_heap_set rk h q it it' hwf.shape hq hc), ?_⟩
  intro a ia ha
  by_cases haq : a = q
  · subst haq; rw [heap_free_same] at ha; cases ha
  · rw [heap_free_other _ _ _ haq] at ha
    obtain ⟨iy, hy, e⟩ := list_del_some _ q a ia ha
    subst e
    rw [heap_set_other _ _ _ _ haq] at hy
    exact hwf.refcnt_pos a iy hy

theorem unreferenced_of_shape (rk : Nat → Nat) (h : item_heap) (hs : tree_shape rk h) (a : Nat)
    (ha : h a = none) : unreferenced h a := by
  intro q iq hq hm
  obtain ⟨ia, hia⟩ := hs.children_live q iq a hq hm
  rw [ha] at hia; cases hia

theorem item_put_locked_wf (rk : Nat → Nat) (fuel : Nat) (h : item_heap) (p : Nat)
    (h' : item_heap) (hwf : tree_wf rk h) (hr : item_put_locked fuel h p = .ok h') :
    tree_wf rk h' :=
  ⟨item_put_locked_shape rk fuel h p h' hwf.shape hr,
    fun a ia ha => item_put_locked_refcnt fuel (fun _ => False) h p h'
      (fun x ix hx _ => hwf.refcnt_pos x ix hx) hr a ia ha (fun hf => hf)⟩

theorem all_dirs_heap_set (h : item_heap) (q : Nat) (it' : procstat_item)
    (hd : ∀ a ia, h a = some ia → item_type_directory ia = true)
    (hq : item_type_directory it' = true) :
    ∀ a ia, heap_set h q it' a = some ia → item_type_directory ia = true := by
  intro a ia ha
  by_cases haq : a = q
  · subst haq; rw [heap_set_same] at ha; cases ha; exact hq
  · rw [heap_set_other _ _ _ _ haq] at ha; exact hd a ia ha

theorem all_dirs_list_del (h : item_heap) (q : Nat)
    (hd : ∀ a ia, h a = some ia → item_type_directory ia = true) :
    ∀ a ia, list_del h q a = some ia → item_type_directory ia = true := by
  intro a ia ha
  obtain ⟨iy, hy, e⟩ := list_del_some h q a ia ha
  subst e
  exact hd a iy hy

theorem all_dirs_free (h : item_heap) (q : Nat)
    (hd : ∀ a ia, h a = some ia → item_type_directory ia = true) :
    ∀ a ia, heap_free (list_del h q) q a = some ia → item_type_directory ia = true := by
  intro a ia ha
  by_cases haq : a = q
  · subst haq; rw [heap_free_same] at ha; cases ha
  · rw [heap_free_other _ _ _ haq] at ha
    exact all_dirs_list_del h q hd a ia ha

theorem item_put_locked_dirs (fuel : Nat) (h : item_heap) (p : Nat) (h' : item_heap)
    (hd : ∀ a ia, h a = some ia → item_type_directory ia = true)
    (hr : item_put_locked fuel h p = .ok h') :
    ∀ a ia, h' a = some ia → item_type_directory ia = true :=
  item_put_locked_preserves (fun g => ∀ a ia, g a = some ia → item_type_directory ia = true)
    (fun g q it it' hg hq _ hdir => all_dirs_heap_set g q it' hg (by rw [hdir]; exact hg q it hq))
    (fun g q hg => all_dirs_list_del g q hg)
    (fun g q hg => all_dirs_free g q hg) fuel h p h' hd hr

theorem tree_inv_put_cleared (fuel : Nat) (h : item_heap) (p : Nat) (ip : procstat_item)
    (h' : item_heap) (hinv : tree_inv h) (hp : h p = some ip)
    (hr : item_put_locked fuel (heap_set h p { ip with flags := clear_registered ip.flags }) p
      = .ok h') : tree_inv h' := by
  obtain ⟨⟨rk, hwf⟩, hd⟩ := hinv
  refine ⟨⟨rk, item_put_locked_wf rk fuel _ p h'
    (tree_wf_heap_set rk h p ip { ip with flags := clear_registered ip.flags } hwf hp rfl
      (hwf.refcnt_pos p ip hp)) hr⟩, ?_⟩
  exact item_put_locked_dirs fuel _ p h'
    (all_dirs_heap_set h p { ip with flags := clear_registered ip.flags } hd (by
      have := dir_clear_registered ip ip.refcnt
      rw [hd p ip hp] at this; exact this)) hr

theorem tree_inv_put_children (fuel : Nat) (h : item_heap) (p : Nat) (h' : item_heap)
    (hinv : tree_inv h) (hr : item_put_children_locked fuel h p = .ok h') : tree_inv h' := by
  obtain ⟨⟨rk, hwf⟩, hd⟩ := hinv
  unfold item_put_children_locked at hr
  split at hr
  · cases hr
  · rename_i d hdp
    have hP := put_children_loop_preserves
      (fun g => tree_wf rk g ∧ ∀ a ia, g a = some ia → item_type_directory ia = true)
      (fun g q it it' hg hq hc hrf hfl =>
        ⟨tree_wf_heap_set rk g q it it' hg.1 hq hc (by rw [hrf]; exact hg.1.refcnt_pos q it hq),
          all_dirs_heap_set g q it' hg.2 (by
            have := hg.2 q it hq
            simpa [item_type_directory, hfl] using this)⟩)
      (fun g q hg => ⟨⟨tree_shape_list_del rk g q hg.1.shape, fun a ia ha => by
          obtain ⟨iy, hy, e⟩ := list_del_some g q a ia ha
          subst e
          exact hg.1.refcnt_pos a iy hy⟩, all_dirs_list_del g q hg.2⟩)
      (item_put_locked fuel)
      (fun g c g' hg hr' => ⟨item_put_locked_wf rk fuel g c g' hg.1 hr',
        item_put_locked_dirs fuel g c g' hg.2 hr'⟩)
      d.children h h' ⟨hwf, hd⟩ hr
    exact ⟨⟨rk, hP.1⟩, hP.2⟩

theorem tree_inv_create (h : item_heap) (a par : Nat) (d : procstat_item) (name : List Nat)
    (hinv : tree_inv h) (ha : h a = none) (hd : h par = some d) (hpa : par ≠ a) :
    tree_inv (heap_set (heap_set h par { d with children := d.children ++ [a] }) a
      (new_directory name)) := by
  obtain ⟨⟨rk, hwf⟩, hdirs⟩ := hinv
  have hun := unreferenced_of_shape rk h hwf.shape a ha
  have key : ∀ q iq, heap_set (heap_set h par { d with children := d.children ++ [a] }) a
      (new_directory name) q = some iq →
      (q = a ∧ iq = new_directory name) ∨
      (q = par ∧ q ≠ a ∧ iq = { d with children := d.children ++ [a] }) ∨
      (q ≠ a ∧ q ≠ par ∧ h q = some iq) := by
    intro q iq hq
    by_cases hqa : q = a
    · subst hqa; rw [heap_set_same] at hq; cases hq; exact Or.inl ⟨rfl, rfl⟩
    · rw [heap_set_other _ _ _ _ hqa] at hq
      by_cases hqp : q = par
      · subst hqp; rw [heap_set_same] at hq; cases hq; exact Or.inr (Or.inl ⟨rfl, hqa, rfl⟩)
      · rw [heap_set_other _ _ _ _ hqp] at hq; exact Or.inr (Or.inr ⟨hqa, hqp, hq⟩)
  have live : ∀ c ic, h c = some ic → ∃ ic', heap_set (heap_set h par
      { d with children := d.children ++ [a] }) a (new_directory name) c = some ic' := by
    intro c ic hc
    have hca : c ≠ a := by intro e; rw [e, ha] at hc; cases hc
    rw [heap_set_other _ _ _ _ hca]
    by_cases hcp : c = par
    · subst hcp; exact ⟨_, heap_set_same _ _ _⟩
    · exact ⟨ic, by rw [heap_set_other _ _ _ _ hcp]; exact hc⟩
  -- the children of an item of the new heap: those it had, and `a` for the parent
  have kids : ∀ q iq c, heap_set (heap_set h par { d with children := d.children ++ [a] }) a
      (new_directory name) q = some iq → c ∈ iq.children →
      q ≠ a ∧ ((c = a ∧ q = par) ∨ (c ≠ a ∧ ∃ iq0, h q = some iq0 ∧ c ∈ iq0.children)) := by
    intro q iq c hq hc
    rcases key q iq hq with ⟨_, rfl⟩ | ⟨rfl, hqa, rfl⟩ | ⟨hqa, _, hq0⟩
    · simp [new_directory, fresh_directory] at hc
    · refine ⟨hqa, ?_⟩
      rcases List.mem_append.mp hc with hc1 | hc1
      · exact Or.inr ⟨fun e => hun q d hd (e ▸ hc1), d, hd, hc1⟩
      · exact Or.inl ⟨by simpa using hc1, rfl⟩
    · exact ⟨hqa, Or.inr ⟨fun e => hun q iq hq0 (e ▸ hc), iq, hq0, hc⟩⟩
  refine ⟨⟨fun x => if x = a then 0 else rk x + 1, ⟨⟨?_, ?_, ?_, ?_⟩, ?_⟩⟩, ?_⟩
  · intro q iq c hq hc
    rcases (kids q iq c hq hc).2 with ⟨rfl, _⟩ | ⟨_, iq0, hq0, hc0⟩
    · exact ⟨_, heap_set_same _ _ _⟩
    · obtain ⟨ic, hic⟩ := hwf.shape.children_live q iq0 c hq0 hc0
      exact live c ic hic
  · intro q q' iq iq' c hq hq' hc hc'
    rcases (kids q iq c hq hc).2 with ⟨hca, hqp⟩ | ⟨hca, iq0, hq0, hc0⟩
    · rcases (kids q' iq' c hq' hc').2 with ⟨_, hqp'⟩ | ⟨hca', _⟩
      · rw [hqp, hqp']
      · exact absurd hca hca'
    · rcases (kids q' iq' c hq' hc').2 with ⟨hca', _⟩ | ⟨_, iq0', hq0', hc0'⟩
      · exact absurd hca' hca
      · exact hwf.shape.unique_parent q q' iq0 iq0' c hq0 hq0' hc0 hc0'
  · intro q iq c hq hc
    obtain ⟨hqa, hk⟩ := kids q iq c hq hc
    rcases hk with ⟨hca, _⟩ | ⟨hca, iq0, hq0, hc0⟩
    · simp [hca, hqa]
    · simp only [hca, hqa, ↓reduceIte]
      exact Nat.succ_lt_succ (hwf.shape.rank q iq0 c hq0 hc0)
  · intro q iq hq
    rcases key q iq hq with ⟨_, rfl⟩ | ⟨rfl, _, rfl⟩ | ⟨_, _, hq0⟩
    · simp [new_directory, fresh_directory]
    · show (d.children ++ [a]).Nodup
      rw [List.nodup_append]
      refine ⟨hwf.shape.nodup q d hd, by simp, ?_⟩
      intro x hx hx'
      have : x = a := by simpa using hx'
      exact hun q d hd (this ▸ hx)
    · exact hwf.shape.nodup q iq hq0
  · intro q iq hq
    rcases key q iq hq with ⟨_, rfl⟩ | ⟨rfl, _, rfl⟩ | ⟨_, _, hq0⟩
    · simp [new_directory]
    · exact hwf.refcnt_pos q d hd
    · exact hwf.refcnt_pos q iq hq0
  · intro q iq hq
    rcases key q iq hq with ⟨_, rfl⟩ | ⟨rfl, _, rfl⟩ | ⟨_, _, hq0⟩
    · simp [item_type_directory, new_directory, STATS_ENTRY_FLAG_DIR,
        STATS_ENTRY_FLAG_REGISTERED]
    · exact hdirs q d hd
    · exact hdirs q iq hq0

theorem remove_by_name_effect (fuel : Nat) (context : procstat_context) (parent : Option Nat)
    (name : List Nat) (c' : procstat_context) (r : Int)
    (hr : procstat_remove_by_name fuel context parent name = .ok (c', r)) :
    (c' = context ∧ ∀ par item, parent_or_root context parent = .ok (some par) →
      lookup_item_locked context.items par (some name) (string_hash name) ≠ .ok (some item)) ∨
    ∃ par item ip h', parent_or_root context parent = .ok (some par) ∧
      lookup_item_locked context.items par (some name) (string_hash name) = .ok (some item) ∧
      context.items item = some ip ∧ c' = { context with items := h' } ∧
      item_put_locked fuel
        (heap_set context.items item { ip with flags := clear_registered ip.flags }) item
        = .ok h' := by
  unfold procstat_remove_by_name at hr
  split at hr
  · cases hr
  · rename_i hpar
    cases hr
    left
    refine ⟨rfl, ?_⟩
    intro par item hp
    rw [hpar] at hp; cases hp
  · rename_i par hpar
    split at hr
    · cases hr
    · rename_i hl
      cases hr
      left
      refine ⟨rfl, ?_⟩
      intro par' item hp
      rw [hpar] at hp; cases hp
      rw [hl]; intro e; cases e
    · rename_i item hl
      split at hr
      · cases hr
      · rename_i ip hip
        simp only at hr
        split at hr
        · cases hr
        · rename_i h' hput
          cases hr
          exact Or.inr ⟨par, item, ip, h', hpar, hl, hip, rfl, hput⟩

theorem remove_effect (fuel : Nat) (context : procstat_context) (p : Nat)
    (c' : procstat_context) (hr : procstat_remove fuel context p = .ok c')
    (hd : ∀ a ia, context.items a = some ia → item_type_directory ia = true) :
    ∃ ip h', context.items p = some ip ∧ c' = { context with items := h' } ∧
      ((context.root = p ∧ item_put_children_locked fuel context.items p = .ok h') ∨
       (context.root ≠ p ∧ item_put_locked fuel
          (heap_set context.items p { ip with flags := clear_registered ip.flags }) p
          = .ok h')) := by
  unfold procstat_remove at hr
  split at hr
  · cases hr
  · rename_i ip hip
    by_cases hroot : context.root = p
    · have : (item_type_directory ip && root_directory context p) = true := by
        simp [hd p ip hip, root_directory, hroot]
      simp only [this, ↓reduceIte] at hr
      split at hr
      · cases hr
      · rename_i h' hput
        cases hr
        exact ⟨ip, h', hip, rfl, Or.inl ⟨hroot, hput⟩⟩
    · have : (item_type_directory ip && root_directory context p) = false := by
        simp [root_directory, hroot]
      simp only [this, Bool.false_eq_true, ↓reduceIte] at hr
      split at hr
      · cases hr
      · rename_i h' hput
        cases hr
        exact ⟨ip, h', hip, rfl, Or.inr ⟨hroot, hput⟩⟩

theorem step_root (fuel : Nat) (context : procstat_context) (o : op) (c' : procstat_context)
    (hd : ∀ a ia, context.items a = some ia → item_type_directory ia = true)
    (hfresh : alloc_fresh context o)
    (hun : ∀ a, context.items a = none → unreferenced context.items a)
    (hstep : step fuel context o = .ok c') : c'.root = context.root := by
  cases o with
  | create_directory parent name calloc =>
    simp only [step, Except.map] at hstep
    split at hstep
    · cases hstep
    · rename_i res hres
      cases hstep
      obtain ⟨c1, r⟩ := res
      rcases create_directory_effect context parent name calloc c1 r hres
        (by intro a e; subst e; exact hfresh) hun with e | ⟨_, _, _, _, _, _, _, _, e, _⟩
      · rw [e]
      · rw [e]
  | remove item =>
    obtain ⟨_, _, _, e, _⟩ := remove_effect fuel context item c' hstep hd
    rw [e]
  | remove_by_name parent name =>
    simp only [step, Except.map] at hstep
    split at hstep
    · cases hstep
    · rename_i res hres
      cases hstep
      obtain ⟨c1, r⟩ := res
      rcases remove_by_name_effect fuel context parent name c1 r hres with
        ⟨e, _⟩ | ⟨_, _, _, _, _, _, _, e, _⟩
      · rw [e]
      · rw [e]
  | lookup parent_inode name =>
    simp only [step, Except.map] at hstep
    split at hstep
    · cases hstep
    · rename_i res hres
      cases hstep
      obtain ⟨c1, r⟩ := res
      rcases fuse_lookup_effect context parent_inode name c1 r hres with e | ⟨_, _, _, e⟩
      · rw [e]
      · rw [e]
  | forget ino nlookup =>
    simp only [step, Except.map] at hstep
    split at hstep
    · cases hstep
    · rename_i res hres
      cases hstep
      obtain ⟨c1, r⟩ := res
      obtain ⟨_, _, _, _, e, _⟩ := fuse_forget_effect context ino nlookup c1 r hres
      rw [e]
  | getattr ino =>
    simp only [step, Except.map] at hstep
    split at hstep
    · cases hstep
    · rename_i res hres
      cases hstep
      obtain ⟨c1, r⟩ := res
      rw [fuse_getattr_effect context ino c1 r hres]
  | opendir ino =>
    simp only [step, Except.map] at hstep
    split at hstep
    · cases hstep
    · rename_i res hres
      cases hstep
      obtain ⟨c1, r⟩ := res
      rw [fuse_opendir_effect context ino c1 r hres]
  | readdir ino size off =>
    simp only [step, Except.map] at hstep
    split at hstep
    · cases hstep
    · rename_i res hres
      cases hstep
      obtain ⟨c1, r⟩ := res
      rw [fuse_readdir_effect context _ ino size off c1 r hres]

theorem tree_inv_unreferenced (h : item_heap) (hinv : tree_inv h) (a : Nat) (ha : h a = none) :
    unreferenced h a := by
  obtain ⟨⟨rk, hwf⟩, _⟩ := hinv
  exact unreferenced_of_shape rk h hwf.shape a ha

/-- Every call that returns keeps the invariant. -/
theorem step_invariant (fuel : Nat) (context : procstat_context) (o : op)
    (c' : procstat_context) (hinv : tree_inv context.items) (hfresh : alloc_fresh context o)
    (hstep : step fuel context o = .ok c') : tree_inv c'.items := by
  cases o with
  | create_directory parent name calloc =>
    simp only [step, Except.map] at hstep
    split at hstep
    · cases hstep
    · rename_i res hres
      cases hstep
      obtain ⟨c1, r⟩ := res
      rcases create_directory_effect context parent name calloc c1 r hres
        (by intro a e; subst e; exact hfresh) (tree_inv_unreferenced _ hinv) with
        e | ⟨a, par, d, h', _, ha, hd, hpa, e, eh⟩
      · rw [e]; exact hinv
      · rw [e, eh]
        exact tree_inv_create context.items a par d name hinv ha hd hpa
  | remove item =>
    obtain ⟨ip, h', hip, e, hcase⟩ := remove_effect fuel context item c' hstep hinv.2
    rw [e]
    rcases hcase with ⟨_, hput⟩ | ⟨_, hput⟩
    · exact tree_inv_put_children fuel _ item h' hinv hput
    · exact tree_inv_put_cleared fuel _ item ip h' hinv hip hput
  | remove_by_name parent name =>
    simp only [step, Except.map] at hstep
    split at hstep
    · cases hstep
    · rename_i res hres
      cases hstep
      obtain ⟨c1, r⟩ := res
      rcases remove_by_name_effect fuel context parent name c1 r hres with
        ⟨e, _⟩ | ⟨_, item, ip, h', _, _, hip, e, hput⟩
      · rw [e]; exact hinv
      · rw [e]
        exact tree_inv_put_cleared fuel _ item ip h' hinv hip hput
  | lookup parent_inode name =>
    simp only [step, Except.map] at hstep
    split at hstep
    · cases hstep
    · rename_i res hres
      cases hstep
      obtain ⟨c1, r⟩ := res
      rcases fuse_lookup_effect context parent_inode name c1 r hres with e | ⟨x, ix, hx, e⟩
      · rw [e]; exact hinv
      · rw [e]
        obtain ⟨⟨rk, hwf⟩, hd⟩ := hinv
        refine ⟨⟨rk, tree_wf_heap_set rk _ x ix { ix with refcnt := ix.refcnt + 1 } hwf hx rfl
          (by have := hwf.refcnt_pos x ix hx; show 1 ≤ ix.refcnt + 1; omega)⟩, ?_⟩
        exact all_dirs_heap_set _ x { ix with refcnt := ix.refcnt + 1 } hd (hd x ix hx)
  | forget ino nlookup =>
    simp only [step, Except.map] at hstep
    split at hstep
    · cases hstep
    · rename_i res hres
      cases hstep
      obtain ⟨c1, r⟩ := res
      obtain ⟨it, h', hit, hle, e, hcase⟩ := fuse_forget_effect context ino nlookup c1 r hres
      rw [e]
      obtain ⟨⟨rk, hwf⟩, hd⟩ := hinv
      rcases hcase with ⟨hz, eh⟩ | ⟨_, eh⟩
      · rw [eh]
        refine ⟨⟨rk, tree_wf_heap_set rk _ _ it { it with refcnt := it.refcnt - nlookup } hwf hit
          rfl (by show 1 ≤ it.refcnt - nlookup; omega)⟩, ?_⟩
        exact all_dirs_heap_set _ _ { it with refcnt := it.refcnt - nlookup } hd (hd _ it hit)
      · rw [eh]
        refine ⟨⟨rk, tree_wf_free_set rk _ _ it { it with refcnt := it.refcnt - nlookup } hwf hit
          rfl⟩, ?_⟩
        exact all_dirs_free _ _
          (all_dirs_heap_set _ _ { it with refcnt := it.refcnt - nlookup } hd (hd _ it hit))
  | getattr ino =>
    simp only [step, Except.map] at hstep
    split at hstep
    · cases hstep
    · rename_i res hres
      cases hstep
      obtain ⟨c1, r⟩ := res
      rw [fuse_getattr_effect context ino c1 r hres]; exact hinv
  | opendir ino =>
    simp only [step, Except.map] at hstep
    split at hstep
    · cases hstep
    · rename_i res hres
      cases hstep
      obtain ⟨c1, r⟩ := res
      rw [fuse_opendir_effect context ino c1 r hres]; exact hinv
  | readdir ino size off =>
    simp only [step, Except.map] at hstep
    split at hstep
    · cases hstep
    · rename_i res hres
      cases hstep
      obtain ⟨c1, r⟩ := res
      rw [fuse_readdir_effect context _ ino size off c1 r hres]; exact hinv

theorem run_invariant (fuel : Nat) (ops : List op) :
    ∀ (context c' : procstat_context), tree_inv context.items → allocs_fresh fuel context ops →
      run fuel context ops = .ok c' → tree_inv c'.items := by
  induction ops with
  | nil => intro context c' hinv _ hr; cases hr; exact hinv
  | cons o rest ih =>
    intro context c' hinv hf hr
    simp only [run] at hr
    simp only [allocs_fresh] at hf
    split at hr
    · cases hr
    · rename_i c1 hc1
      rw [hc1] at hf
      exact ih c1 c' (step_invariant fuel context o c1 hinv hf.1 hc1) hf.2 hr

theorem procstat_create_inv (addr uid gid : Nat) (c0 : procstat_context)
    (h0 : procstat_create addr uid gid = .ok c0) : tree_inv c0.items := by
  have e : c0.items = heap_set (heap_set (fun _ => none) addr zeroed_item) addr
      (new_directory ROOT_DIR_NAME) := by
    simp only [procstat_create, init_directory_zeroed, register_item, heap_set_same] at h0
    cases h0
    funext q
    by_cases hqa : q = addr
    · subst hqa; simp only [heap_set_same]; rfl
    · simp [heap_set, hqa]
  have key : ∀ q iq, c0.items q = some iq → iq = new_directory ROOT_DIR_NAME := by
    intro q iq hq
    rw [e] at hq
    by_cases hqa : q = addr
    · subst hqa; simp only [heap_set_same] at hq; cases hq; rfl
    · simp [heap_set, hqa] at hq
  refine ⟨⟨fun _ => 0, ⟨⟨?_, ?_, ?_, ?_⟩, ?_⟩⟩, ?_⟩
  · intro q iq c hq hc; rw [key q iq hq] at hc; simp [new_directory, fresh_directory] at hc
  · intro q _ iq _ c hq _ hc; rw [key q iq hq] at hc; simp [new_directory, fresh_directory] at hc
  · intro q iq c hq hc; rw [key q iq hq] at hc; simp [new_directory, fresh_directory] at hc
  · intro q iq hq; rw [key q iq hq]; simp [new_directory, fresh_directory]
  · intro q iq hq; rw [key q iq hq]; simp [new_directory]
  · intro q iq hq; rw [key q iq hq]
    simp [item_type_directory, new_directory, STATS_ENTRY_FLAG_DIR, STATS_ENTRY_FLAG_REGISTERED]

theorem reachable_inv (context : procstat_context) (hr : reachable context) :
    tree_inv context.items := by
  obtain ⟨fuel, addr, uid, gid, ops, c0, h0, hf, hrun⟩ := hr
  exact run_invariant fuel ops c0 context (procstat_create_inv addr uid gid c0 h0) hf hrun

/-! ## Which items a release frees -/

theorem put_result_none (ia : procstat_item) : put_result ia = none ↔ ia.refcnt = 1 := by
  unfold put_result
  split <;> simp_all

theorem put_result_some (ia ia' : procstat_item) (h : put_result ia = some ia') :
    ia'.refcnt = ia.refcnt - 1 := by
  unfold put_result at h
  split at h
  · cases h
  · cases h; rfl

/-- The items `item_put_locked` frees, when called as the removals call it (after the
registered flag is cleared): those it releases and that held one reference. -/
theorem put_cleared_effect (rk : Nat → Nat) (fuel : Nat) (h : item_heap) (p : Nat)
    (ip : procstat_item) (h' : item_heap) (hwf : tree_wf rk h) (hp : h p = some ip)
    (hr : item_put_locked fuel (heap_set h p { ip with flags := clear_registered ip.flags }) p
      = .ok h') :
    ∀ a ia, h a = some ia →
      (h' a = none ↔ put_released h p a ∧ ia.refcnt = 1) ∧
      (∀ ia', h' a = some ia' → put_released h p a → ia'.refcnt = ia.refcnt - 1) := by
  have hpos : 1 ≤ ip.refcnt := hwf.refcnt_pos p ip hp
  by_cases hr1 : ip.refcnt = 1
  · -- the last reference: the cascade
    have hs1 : tree_shape rk (heap_set h p { ip with flags := clear_registered ip.flags }) :=
      tree_shape_heap_set rk _ p ip _ hwf.shape hp rfl
    obtain ⟨h'', he, hfree, hcas, hoth⟩ := put_last_spec_all (fuel + (rk p + 1)) rk _ p
      { ip with flags := clear_registered ip.flags } hs1 (heap_set_same _ _ _) (by omega) hr1
      (by
        intro a ia _ ha
        by_cases hap : a = p
        · subst hap
          rw [heap_set_same] at ha; cases ha
          exact hpos
        · rw [heap_set_other _ _ _ _ hap] at ha
          exact hwf.refcnt_pos a ia ha)
    rw [item_put_locked_mono fuel (rk p + 1) _ p h' hr] at he
    cases he
    intro a ia ha
    by_cases hap : a = p
    · subst hap
      rw [hp] at ha; cases ha
      exact ⟨⟨fun _ => ⟨Or.inl rfl, hr1⟩, fun _ => hfree⟩,
        fun ia' hia' => by rw [hfree] at hia'; cases hia'⟩
    · by_cases hca : cascade h p a
      · have := hcas a ia ((cascade_flags_cleared _ p ip hp a).mpr hca)
          (by rw [heap_set_other _ _ _ _ hap]; exact ha)
        rw [this]
        refine ⟨⟨fun hn => ⟨Or.inr ⟨ip, hp, hr1, hca⟩, (put_result_none ia).mp hn⟩,
          fun hh => (put_result_none ia).mpr hh.2⟩, ?_⟩
        intro ia' hia' _
        exact put_result_some ia ia' hia'
      · have := hoth a hap (fun hh => hca ((cascade_flags_cleared _ p ip hp a).mp hh))
        rw [heap_set_other _ _ _ _ hap, ha] at this
        rw [this]
        refine ⟨⟨(fun hn => by cases hn), ?_⟩, ?_⟩
        · rintro ⟨hrel, _⟩
          rcases hrel with e | ⟨_, _, _, hc⟩
          · exact absurd e hap
          · exact absurd hc hca
        · intro ia' _ hrel
          rcases hrel with e | ⟨_, _, _, hc⟩
          · exact absurd e hap
          · exact absurd hc hca
  · -- further references remain
    cases fuel with
    | zero => cases hr
    | succ f =>
      rw [item_put_locked_more f _ p { ip with flags := clear_registered ip.flags }
        (heap_set_same _ _ _) (by show ip.refcnt ≠ 0; omega) hr1] at hr
      cases hr
      intro a ia ha
      by_cases hap : a = p
      · subst hap
        rw [hp] at ha; cases ha
        rw [heap_set_same]
        refine ⟨⟨(fun hn => by cases hn), fun hh => absurd hh.2 hr1⟩, ?_⟩
        intro ia' hia' _
        cases hia'; rfl
      · rw [heap_set_other _ _ _ _ hap, heap_set_other _ _ _ _ hap, ha]
        have hnr : ¬ put_released h p a := by
          rintro (e | ⟨ip', hp', hr', _⟩)
          · exact hap e
          · rw [hp] at hp'; cases hp'; exact hr1 hr'
        exact ⟨⟨(fun hn => by cases hn), fun hh => absurd hh.1 hnr⟩,
          fun _ _ hrel => absurd hrel hnr⟩

/-- The items the removal of the root frees: those of the cascade from the root that
held one reference. -/
theorem put_children_effect (rk : Nat → Nat) (fuel : Nat) (h : item_heap) (p : Nat)
    (ip : procstat_item) (h' : item_heap) (hwf : tree_wf rk h) (hp : h p = some ip)
    (hdir : item_type_directory ip = true)
    (hr : item_put_children_locked fuel h p = .ok h') :
    ∀ a ia, h a = some ia →
      (h' a = none ↔ cascade h p a ∧ ia.refcnt = 1) ∧
      (∀ ia', h' a = some ia' → cascade h p a → ia'.refcnt = ia.refcnt - 1) := by
  simp only [item_put_children_locked, hp] at hr
  have hr2 := put_children_loop_mono (item_put_locked fuel) (item_put_locked (fuel + rk p))
    (fun g c g' hg => item_put_locked_mono fuel (rk p) g c g' hg) _ _ h' hr
  obtain ⟨H', hH', hH'p, hrel, hoth⟩ := put_children_loop_spec (fuel + rk p)
    (put_last_spec_all _) ip.children rk h p ip hwf.shape hp (fun c hc => hc)
    (hwf.shape.nodup p ip hp) (by omega)
    (fun c _ a ia _ ha => hwf.refcnt_pos a ia ha)
  rw [hr2] at hH'
  cases hH'
  intro a ia ha
  by_cases hca : cascade h p a
  · have hlr := ((cascade_iff_loop_released h p ip hp a).mp hca).2
    rw [hrel a ia hlr ha]
    exact ⟨⟨fun hn => ⟨hca, (put_result_none ia).mp hn⟩, fun hh => (put_result_none ia).mpr hh.2⟩,
      fun ia' hia' _ => put_result_some ia ia' hia'⟩
  · have hnl : ¬ loop_released h ip.children a := fun hlr =>
      hca ((cascade_iff_loop_released h p ip hp a).mpr ⟨hdir, hlr⟩)
    have hsome : ∃ iy, h' a = some iy := by
      by_cases hap : a = p
      · rw [hap, hH'p]; exact ⟨_, rfl⟩
      · rw [hoth a hap hnl, ha]; exact ⟨_, rfl⟩
    obtain ⟨iy, hiy⟩ := hsome
    rw [hiy]
    exact ⟨⟨(fun hn => by cases hn), fun hh => absurd hh.1 hca⟩, fun _ _ hc => absurd hc hca⟩

/-! ## The example trees are reachable -/

theorem ex_fresh_created : procstat_create 1000 0 0 = .ok ex_fresh := by
  simp only [procstat_create, init_directory_zeroed, register_item, heap_set_same]
  simp only [ex_fresh, Except.ok.injEq, procstat_context.mk.injEq, and_true, true_and]
  funext q
  by_cases hq : q = 1000
  · subst hq; simp only [heap_set_same]; rfl
  · simp [heap_set, hq]

theorem ex_one_created :
    procstat_create_directory ex_fresh none [97] (some 2000) = .ok (ex_one, .ok 2000) := by
  rw [create_directory_ok ex_fresh none [97] 2000 (ex_item [46] 1 3 []) rfl rfl rfl
    (by simp [valid_name]) (by intro c hc; simp [ex_item] at hc)]
  simp only [ex_one, Except.ok.injEq, Prod.mk.injEq, procstat_context.mk.injEq, and_true]
  refine ⟨rfl, ?_, rfl, rfl⟩
  funext q
  by_cases h1000 : q = 1000
  · subst h1000; rfl
  · by_cases h2000 : q = 2000
    · subst h2000; rfl
    · simp [heap_set, h1000, h2000, ex_fresh]

theorem ex_tree_created :
    procstat_create_directory ex_one (some 2000) [98] (some 3000) = .ok (ex_tree, .ok 3000) := by
  rw [create_directory_ok ex_one (some 2000) [98] 3000 (ex_item [97] 1 3 []) rfl rfl rfl
    (by simp [valid_name]) (by intro c hc; simp [ex_item] at hc)]
  simp only [ex_tree, Except.ok.injEq, Prod.mk.injEq, procstat_context.mk.injEq, and_true]
  refine ⟨rfl, ?_, rfl, rfl⟩
  funext q
  by_cases h1000 : q = 1000
  · subst h1000; rfl
  · by_cases h2000 : q = 2000
    · subst h2000; rfl
    · by_cases h3000 : q = 3000
      · subst h3000; rfl
      · simp [heap_set, h1000, h2000, h3000, ex_one]

theorem ex_tree_reachable : reachable ex_tree := by
  refine ⟨1, 1000, 0, 0, [op.create_directory none [97] (some 2000),
      op.create_directory (some 2000) [98] (some 3000)], ex_fresh, ex_fresh_created, ?_, ?_⟩
  · simp only [allocs_fresh, alloc_fresh, step, ex_one_created, ex_tree_created, Except.map,
      and_true]
    exact ⟨⟨rfl, by decide⟩, rfl, by decide⟩
  · simp only [run, step, ex_one_created, ex_tree_created, Except.map]

/-! ## Frees and reference counts, call by call -/

/-- For a call that returns on a tree with the invariant: an item that was live is
freed exactly if the references the call releases from it are all it held, and an
item that stays live has lost exactly the references the call releases from it. -/
theorem step_refcounts (fuel : Nat) (context : procstat_context) (o : op)
    (c' : procstat_context) (hinv : tree_inv context.items) (hfresh : alloc_fresh context o)
    (hstep : step fuel context o = .ok c') (a : Nat) (ia : procstat_item)
    (ha : context.items a = some ia) :
    (c'.items a = none ↔ ∃ k, refs_released context o a k ∧ ia.refcnt - k = 0) ∧
    (∀ ia', c'.items a = some ia' → ∀ k, refs_released context o a k →
      ia'.refcnt = ia.refcnt - k) := by
  cases o with
  | create_directory parent name calloc =>
    simp only [step, Except.map] at hstep
    split at hstep
    · cases hstep
    · rename_i res hres
      cases hstep
      obtain ⟨c1, r⟩ := res
      simp only [refs_released, false_and, exists_false, iff_false, false_implies, implies_true,
        and_true]
      rcases create_directory_effect context parent name calloc c1 r hres
        (by intro x e; subst e; exact hfresh) (tree_inv_unreferenced _ hinv) with
        e | ⟨x, par, d, h', _, hx, hd, hpa, e, eh⟩
      · rw [e, ha]; simp
      · rw [e, eh]
        have hax : a ≠ x := by intro e'; rw [e', hx] at ha; cases ha
        show heap_set (heap_set _ _ _) _ _ _ ≠ none
        rw [heap_set_other _ _ _ _ hax]
        by_cases hap : a = par
        · rw [hap, heap_set_same]; simp
        · rw [heap_set_other _ _ _ _ hap, ha]; simp
  | remove item =>
    obtain ⟨ip, h', hip, e, hcase⟩ := remove_effect fuel context item c' hstep hinv.2
    obtain ⟨⟨rk, hwf⟩, hd⟩ := hinv
    rw [e]
    rcases hcase with ⟨hroot, hput⟩ | ⟨hroot, hput⟩
    · obtain ⟨h1, h2⟩ := put_children_effect rk fuel _ item ip h' hwf hip (hd item ip hip) hput
        a ia ha
      simp only [refs_released, hroot, ↓reduceIte]
      constructor
      · rw [h1]
        constructor
        · rintro ⟨hc, hr⟩; exact ⟨1, ⟨rfl, hc⟩, by omega⟩
        · rintro ⟨k, ⟨rfl, hc⟩, hr⟩; exact ⟨hc, by omega⟩
      · rintro ia' hia' k ⟨rfl, hc⟩
        exact h2 ia' hia' hc
    · obtain ⟨h1, h2⟩ := put_cleared_effect rk fuel _ item ip h' hwf hip hput a ia ha
      simp only [refs_released, hroot, ↓reduceIte]
      constructor
      · rw [h1]
        constructor
        · rintro ⟨hc, hr⟩; exact ⟨1, ⟨rfl, hc⟩, by omega⟩
        · rintro ⟨k, ⟨rfl, hc⟩, hr⟩; exact ⟨hc, by omega⟩
      · rintro ia' hia' k ⟨rfl, hc⟩
        exact h2 ia' hia' hc
  | remove_by_name parent name =>
    simp only [step, Except.map] at hstep
    split at hstep
    · cases hstep
    · rename_i res hres
      cases hstep
      obtain ⟨c1, r⟩ := res
      obtain ⟨⟨rk, hwf⟩, _⟩ := hinv
      rcases remove_by_name_effect fuel context parent name c1 r hres with
        ⟨e, hno⟩ | ⟨par, item, ip, h', hpar, hl, hip, e, hput⟩
      · rw [e, ha]
        simp only [refs_released]
        constructor
        · constructor
          · intro hn; cases hn
          · rintro ⟨k, ⟨_, par, item, hp, hl, _⟩, _⟩
            exact absurd hl (hno par item hp)
        · rintro ia' _ k ⟨_, par, item, hp, hl, _⟩
          exact absurd hl (hno par item hp)
      · rw [e]
        obtain ⟨h1, h2⟩ := put_cleared_effect rk fuel _ item ip h' hwf hip hput a ia ha
        simp only [refs_released]
        constructor
        · rw [h1]
          constructor
          · rintro ⟨hc, hr⟩; exact ⟨1, ⟨rfl, par, item, hpar, hl, hc⟩, by omega⟩
          · rintro ⟨k, ⟨rfl, par', item', hp', hl', hc⟩, hr⟩
            rw [hpar] at hp'; cases hp'
            rw [hl] at hl'; cases hl'
            exact ⟨hc, by omega⟩
        · rintro ia' hia' k ⟨rfl, par', item', hp', hl', hc⟩
          rw [hpar] at hp'; cases hp'
          rw [hl] at hl'; cases hl'
          exact h2 ia' hia' hc
  | lookup parent_inode name =>
    simp only [step, Except.map] at hstep
    split at hstep
    · cases hstep
    · rename_i res hres
      cases hstep
      obtain ⟨c1, r⟩ := res
      simp only [refs_released, false_and, exists_false, iff_false, false_implies, implies_true,
        and_true]
      rcases fuse_lookup_effect context parent_inode name c1 r hres with e | ⟨x, ix, hx, e⟩
      · rw [e, ha]; simp
      · rw [e]
        show heap_set _ _ _ _ ≠ none
        by_cases hax : a = x
        · rw [hax, heap_set_same]; simp
        · rw [heap_set_other _ _ _ _ hax, ha]; simp
  | forget ino nlookup =>
    simp only [step, Except.map] at hstep
    split at hstep
    · cases hstep
    · rename_i res hres
      cases hstep
      obtain ⟨c1, r⟩ := res
      obtain ⟨it, h', hit, hle, e, hcase⟩ := fuse_forget_effect context ino nlookup c1 r hres
      rw [e]
      simp only [refs_released]
      rcases hcase with ⟨hz, eh⟩ | ⟨hz, eh⟩
      · rw [eh]
        by_cases hat : a = fuse_inode_to_item context ino
        · rw [hat, heap_set_same]
          rw [hat, hit] at ha; cases ha
          constructor
          · constructor
            · intro hn; cases hn
            · rintro ⟨k, ⟨_, rfl⟩, hk⟩; exact absurd hk hz
          · rintro ia' hia' k ⟨_, rfl⟩
            cases hia'; rfl
        · rw [heap_set_other _ _ _ _ hat, ha]
          constructor
          · constructor
            · intro hn; cases hn
            · rintro ⟨k, ⟨e', _⟩, _⟩; exact absurd e' hat
          · rintro ia' _ k ⟨e', _⟩; exact absurd e' hat
      · rw [eh]
        by_cases hat : a = fuse_inode_to_item context ino
        · rw [hat, heap_free_same]
          rw [hat, hit] at ha; cases ha
          constructor
          · constructor
            · intro _; exact ⟨nlookup, ⟨rfl, rfl⟩, hz⟩
            · intro _; rfl
          · intro ia' hia'; cases hia'
        · rw [heap_free_other _ _ _ hat, list_del_apply, heap_set_other _ _ _ _ hat, ha]
          constructor
          · constructor
            · intro hn; cases hn
            · rintro ⟨k, ⟨e', _⟩, _⟩; exact absurd e' hat
          · rintro ia' _ k ⟨e', _⟩; exact absurd e' hat
  | getattr ino =>
    simp only [step, Except.map] at hstep
    split at hstep
    · cases hstep
    · rename_i res hres
      cases hstep
      obtain ⟨c1, r⟩ := res
      rw [fuse_getattr_effect context ino c1 r hres, ha]
      simp [refs_released]
  | opendir ino =>
    simp only [step, Except.map] at hstep
    split at hstep
    · cases hstep
    · rename_i res hres
      cases hstep
      obtain ⟨c1, r⟩ := res
      rw [fuse_opendir_effect context ino c1 r hres, ha]
      simp [refs_released]
  | readdir ino size off =>
    simp only [step, Except.map] at hstep
    split at hstep
    · cases hstep
    · rename_i res hres
      cases hstep
      obtain ⟨c1, r⟩ := res
      rw [fuse_readdir_effect context _ ino size off c1 r hres, ha]
      simp [refs_released]

theorem fuse_lookup_found (context : procstat_context) (parent_inode : Nat)
    (name : List Nat) (d ic : procstat_item) (pre post : List Nat) (c : Nat)
    (hd : context.items (fuse_inode_to_item context parent_inode) = some d)
    (hdir : item_type_directory d = true)
    (hch : d.children = pre ++ c :: post)
    (hpre : ∀ x ∈ pre, other_name context.items name x)
    (hic : context.items c = some ic)
    (hn : procstat_item_name ic = some name)
    (hh : ic.name_hash = string_hash name)
    (hreg : item_registered ic = true)
    (hmax : ic.refcnt < (INT_MAX : Int)) :
    fuse_lookup context parent_inode name =
      .ok ({ context with items := heap_set context.items c { ic with refcnt := ic.refcnt + 1 } },
        reply.entry c (fill_item_stats context c ic)) := by
  unfold fuse_lookup
  simp only [lookup_item_locked_dir _ _ d _ _ hd hdir]
  rw [hch, lookup_scan_found _ _ _ _ _ ic hpre hic hn hh]
  simp [hic, hreg, fill_item_stats_refcnt, not_le.mpr hmax]

/-- The `++item->refcnt` of `fuse_lookup` on an item that holds `INT_MAX` references
overflows. -/
theorem fuse_lookup_overflow (context : procstat_context) (parent_inode : Nat)
    (name : List Nat) (d ic : procstat_item) (pre post : List Nat) (c : Nat)
    (hd : context.items (fuse_inode_to_item context parent_inode) = some d)
    (hdir : item_type_directory d = true)
    (hch : d.children = pre ++ c :: post)
    (hpre : ∀ x ∈ pre, other_name context.items name x)
    (hic : context.items c = some ic)
    (hn : procstat_item_name ic = some name)
    (hh : ic.name_hash = string_hash name)
    (hreg : item_registered ic = true)
    (hmax : (INT_MAX : Int) ≤ ic.refcnt) :
    fuse_lookup context parent_inode name = .error .overflow := by
  unfold fuse_lookup
  simp only [lookup_item_locked_dir _ _ d _ _ hd hdir]
  rw [hch, lookup_scan_found _ _ _ _ _ ic hpre hic hn hh]
  simp [hic, hreg, hmax]

theorem ex_state_ext (c : procstat_context) (ra : Int) (fa : Nat) (rb : Int)
    (hroot : c.root = 1000) (huid : c.uid = 0) (hgid : c.gid = 0)
    (h1 : c.items 1000 = some (ex_item [46] 1 3 [2000]))
    (h2 : c.items 2000 = some (ex_item [97] ra fa [3000]))
    (h3 : c.items 3000 = some (ex_item [98] rb 3 []))
    (h4 : ∀ q, q ≠ 1000 → q ≠ 2000 → q ≠ 3000 → c.items q = none) :
    c = ex_state ra fa rb := by
  cases c with
  | mk root items uid gid =>
    simp only at hroot huid hgid h1 h2 h3 h4
    subst hroot; subst huid; subst hgid
    simp only [ex_state, procstat_context.mk.injEq, true_and, and_true]
    funext q
    by_cases h1000 : q = 1000
    · subst h1000; simp [h1]
    · by_cases h2000 : q = 2000
      · subst h2000; simp [h2]
      · by_cases h3000 : q = 3000
        · subst h3000; simp [h3]
        · simp [h1000, h2000, h3000, h4 q h1000 h2000 h3000]

theorem ex_item_registered (name : List Nat) (r : Int) (cs : List Nat) :
    item_registered (ex_item name r 3 cs) = true := by
  simp [item_registered, ex_item, STATS_ENTRY_FLAG_REGISTERED]

theorem ex_step_create_a :
    step 1 ex_fresh (op.create_directory none [97] (some 2000)) = .ok ex_one := by
  simp only [step, ex_one_created]; rfl

theorem ex_step_create_b :
    step 1 ex_one (op.create_directory (some 2000) [98] (some 3000)) = .ok (ex_state 1 3 1) := by
  simp only [step, ex_tree_created]; rfl

theorem ex_step_lookup_a (ra rb : Int) (hra : ra < (INT_MAX : Int)) :
    step 1 (ex_state ra 3 rb) (op.lookup FUSE_ROOT_ID [97]) = .ok (ex_state (ra + 1) 3 rb) := by
  simp only [step]
  rw [fuse_lookup_found (ex_state ra 3 rb) FUSE_ROOT_ID [97] (ex_item [46] 1 3 [2000])
    (ex_item [97] ra 3 [3000]) [] [] 2000 rfl rfl rfl (by simp) rfl rfl rfl
    (ex_item_registered _ _ _) hra]
  simp only [Except.map, Except.ok.injEq]
  apply ex_state_ext <;> try rfl
  intro q h1 h2 h3
  simp [heap_set, ex_state, h1, h2, h3]

theorem ex_step_lookup_b (ra : Int) (fa : Nat) (rb : Int) (hfa : fa &&& 2 ≠ 0)
    (hrb : rb < (INT_MAX : Int)) :
    step 1 (ex_state ra fa rb) (op.lookup 2000 [98]) = .ok (ex_state ra fa (rb + 1)) := by
  simp only [step]
  rw [fuse_lookup_found (ex_state ra fa rb) 2000 [98] (ex_item [97] ra fa [3000])
    (ex_item [98] rb 3 []) [] [] 3000 rfl
    (by simpa [item_type_directory, ex_item, STATS_ENTRY_FLAG_DIR] using hfa)
    rfl (by simp) rfl rfl rfl (ex_item_registered _ _ _) hrb]
  simp only [Except.map, Except.ok.injEq]
  apply ex_state_ext <;> try rfl
  intro q h1 h2 h3
  simp [heap_set, ex_state, h1, h2, h3]

theorem ex_step_remove_a (ra rb : Int) (h0 : ra ≠ 0) (h1 : ra ≠ 1) :
    step 1 (ex_state ra 3 rb) (op.remove 2000) = .ok (ex_state (ra - 1) 2 rb) := by
  simp only [step]
  rw [remove_not_root 1 (ex_state ra 3 rb) 2000 (ex_item [97] ra 3 [3000]) rfl
    (by simp [ex_state]),
    item_put_locked_more 0 _ 2000 _ (heap_set_same _ _ _) h0 h1]
  simp only [Except.map, Except.ok.injEq]
  apply ex_state_ext
  · rfl
  · rfl
  · rfl
  · rfl
  · simp only [heap_set_same, Option.some.injEq]
    have : clear_registered 3 = 2 := by decide
    simp [ex_item, this]
  · rfl
  · intro q h1 h2 h3
    simp [heap_set, ex_state, h1, h2, h3]

theorem ex_tree_eq : ex_tree = ex_state 1 3 1 := rfl

theorem ex_held_eq : ex_held = ex_state 1 2 1 := rfl

theorem ex_held_twice_eq : ex_held_twice = ex_state 2 2 1 := rfl

theorem ex_held_reachable : reachable ex_held := by
  refine ⟨1, 1000, 0, 0, ex_calls, ex_fresh, ex_fresh_created, ?_, ?_⟩
  · simp only [ex_calls, allocs_fresh, alloc_fresh, ex_step_create_a, ex_step_create_b,
      ex_step_lookup_a 1 1 (by decide), and_true, true_and]
    refine ⟨⟨rfl, by decide⟩, ⟨rfl, by decide⟩, ?_⟩
    split <;> trivial
  · simp only [ex_calls, run, ex_step_create_a, ex_step_create_b,
      ex_step_lookup_a 1 1 (by decide), Int.reduceAdd]
    rw [ex_step_remove_a 2 1 (by decide) (by decide)]
    rfl

theorem ex_held_twice_reachable : reachable ex_held_twice := by
  refine ⟨1, 1000, 0, 0, [op.create_directory none [97] (some 2000),
    op.create_directory (some 2000) [98] (some 3000), op.lookup FUSE_ROOT_ID [97],
    op.lookup FUSE_ROOT_ID [97], op.remove 2000], ex_fresh, ex_fresh_created, ?_, ?_⟩
  · simp only [allocs_fresh, alloc_fresh, ex_step_create_a, ex_step_create_b,
      ex_step_lookup_a 1 1 (by decide), ex_step_lookup_a 2 1 (by decide), Int.reduceAdd,
      and_true, true_and]
    refine ⟨⟨rfl, by decide⟩, ⟨rfl, by decide⟩, ?_⟩
    split <;> trivial
  · simp only [run, ex_step_create_a, ex_step_create_b, ex_step_lookup_a 1 1 (by decide),
      ex_step_lookup_a 2 1 (by decide), Int.reduceAdd]
    rw [ex_step_remove_a 3 1 (by decide) (by decide)]
    rfl

theorem ex_looked_reachable : reachable ex_looked := by
  refine ⟨1, 1000, 0, 0, [op.create_directory none [97] (some 2000),
    op.create_directory (some 2000) [98] (some 3000), op.lookup 2000 [98]],
    ex_fresh, ex_fresh_created, ?_, ?_⟩
  · simp only [allocs_fresh, alloc_fresh, ex_step_create_a, ex_step_create_b, and_true,
      true_and]
    refine ⟨⟨rfl, by decide⟩, ⟨rfl, by decide⟩, ?_⟩
    split <;> trivial
  · simp only [run, ex_step_create_a, ex_step_create_b]
    rw [ex_step_lookup_b 1 3 1 (by decide) (by decide)]
    rfl

/-! ## Enough fuel -/

theorem lookup_scan_fuel (h : item_heap) (name : Option (List Nat)) (hash : Nat) (cs : List Nat) :
    lookup_scan h name hash cs ≠ .error .out_of_fuel := by
  induction cs with
  | nil => simp [lookup_scan]
  | cons c rest ih =>
    simp only [lookup_scan]
    split
    · simp
    · split
      · exact ih
      · split
        · split
          · simp
          · exact ih
        · simp

theorem lookup_item_locked_fuel (h : item_heap) (parent : Nat) (name : Option (List Nat))
    (hash : Nat) : lookup_item_locked h parent name hash ≠ .error .out_of_fuel := by
  unfold lookup_item_locked
  split
  · simp
  · split
    · exact lookup_scan_fuel _ _ _ _
    · simp

theorem free_item_fuel (h : item_heap) (p : Nat) : free_item h p ≠ .error .out_of_fuel := by
  unfold free_item
  split
  · simp
  · simp only
    split
    · simp
    · split <;> simp

theorem register_item_fuel (h : item_heap) (item : Nat) (parent : Option Nat) :
    register_item h item parent ≠ .error .out_of_fuel := by
  unfold register_item
  split
  · simp
  · split
    · simp
    · have := lookup_item_locked_fuel h ‹Nat› (procstat_item_name ‹procstat_item›)
        (procstat_item.name_hash ‹procstat_item›)
      split
      · rename_i e he
        intro hh; cases hh
        exact this he
      · simp
      · simp only
        split <;> simp

theorem create_directory_fuel (context : procstat_context) (parent : Option Nat)
    (name : List Nat) (calloc : Option Nat) :
    procstat_create_directory context parent name calloc ≠ .error .out_of_fuel := by
  unfold procstat_create_directory
  split
  · rename_i e he
    intro hh; cases hh
    unfold parent_or_root at he
    split at he
    · cases he
    · split at he
      · cases he
      · split at he <;> cases he
  · simp
  · split
    · simp
    · rename_i a
      simp only
      split
      · rename_i e he
        intro hh; cases hh
        unfold init_directory at he
        split at he
        · cases he
        · exact register_item_fuel _ _ _ he
      · split
        · split
          · rename_i e he
            intro hh; cases hh
            exact free_item_fuel _ _ he
          · simp
        · simp

theorem fuse_lookup_fuel (context : procstat_context) (parent_inode : Nat) (name : List Nat) :
    fuse_lookup context parent_inode name ≠ .error .out_of_fuel := by
  unfold fuse_lookup
  simp only
  split
  · rename_i e he
    intro hh; cases hh
    exact lookup_item_locked_fuel _ _ _ _ he
  · simp
  · split
    · simp
    · split
      · simp
      · split <;> simp

theorem fuse_forget_fuel (context : procstat_context) (ino nlookup : Nat) :
    fuse_forget context ino nlookup ≠ .error .out_of_fuel := by
  unfold fuse_forget
  simp only
  split
  · simp
  · split
    · simp
    · split
      · split
        · rename_i e he
          intro hh; cases hh
          exact free_item_fuel _ _ he
        · simp
      · simp

theorem fuse_getattr_fuel (context : procstat_context) (ino : Nat) :
    fuse_getattr context ino ≠ .error .out_of_fuel := by
  unfold fuse_getattr
  simp only
  split
  · simp
  · split <;> simp

theorem fuse_opendir_fuel (context : procstat_context) (ino : Nat) :
    fuse_opendir context ino ≠ .error .out_of_fuel := by
  unfold fuse_opendir
  simp only
  split
  · simp
  · split <;> simp

theorem readdir_loop_fuel (context : procstat_context) (ok : Nat → Bool) (cs : List Nat) :
    ∀ s, readdir_loop context ok cs s ≠ .error .out_of_fuel := by
  induction cs with
  | nil => intro s; simp [readdir_loop]
  | cons c rest ih =>
    intro s
    simp only [readdir_loop]
    split
    · simp
    · split
      · simp
      · split
        · split
          · simp
          · split
            · split
              · simp
              · exact ih _
            · simp
        · exact ih _

theorem fuse_readdir_fuel (context : procstat_context) (ok : Nat → Bool) (ino size off : Nat) :
    fuse_readdir context ok ino size off ≠ .error .out_of_fuel := by
  unfold fuse_readdir
  simp only
  split
  · simp
  · split
    · simp
    · split
      · simp
      · split
        · rename_i e he
          intro hh; cases hh
          exact readdir_loop_fuel _ _ _ _ he
        · simp
        · split <;> simp

theorem map_fst_fuel {α β : Type} (r : Except fault (α × β)) (h : r ≠ .error .out_of_fuel) :
    r.map Prod.fst ≠ .error .out_of_fuel := by
  cases r with
  | error e => intro hh; simp only [Except.map, Except.error.injEq] at hh; exact h (by rw [hh])
  | ok v => simp [Except.map]

/-- With fuel above the rank of the item, `item_put_locked` on a live item of a
well-formed tree returns. -/
theorem item_put_locked_returns (rk : Nat → Nat) (fuel : Nat) (h : item_heap) (p : Nat)
    (ip : procstat_item) (hs : tree_shape rk h) (hp : h p = some ip) (hfuel : rk p < fuel)
    (hpos : ∀ a ia, h a = some ia → 1 ≤ ia.refcnt) :
    ∃ h', item_put_locked fuel h p = .ok h' := by
  by_cases hr : ip.refcnt = 1
  · obtain ⟨h', he, _⟩ := put_last_spec_all fuel rk h p ip hs hp hfuel hr
      (fun a ia _ ha => hpos a ia ha)
    exact ⟨h', he⟩
  · obtain ⟨f, rfl⟩ : ∃ f, fuel = f + 1 := ⟨fuel - 1, by omega⟩
    have := hpos p ip hp
    exact ⟨_, item_put_locked_more f h p ip hp (by omega) hr⟩

theorem put_cleared_returns (rk : Nat → Nat) (fuel : Nat) (h : item_heap) (p : Nat)
    (ip : procstat_item) (hwf : tree_wf rk h) (hp : h p = some ip) (hfuel : rk p < fuel) :
    ∃ h', item_put_locked fuel
      (heap_set h p { ip with flags := clear_registered ip.flags }) p = .ok h' := by
  have hwf1 := tree_wf_heap_set rk h p ip { ip with flags := clear_registered ip.flags }
    hwf hp rfl (hwf.refcnt_pos p ip hp)
  exact item_put_locked_returns rk fuel _ p _ hwf1.shape (heap_set_same _ _ _) hfuel
    hwf1.refcnt_pos

/-- On a tree with the invariant, every call has a fuel from which on the model does
not run out of it. -/
theorem step_fuel_enough (context : procstat_context) (hinv : tree_inv context.items)
    (o : op) : ∃ N, ∀ fuel, N ≤ fuel → step fuel context o ≠ .error .out_of_fuel := by
  obtain ⟨⟨rk, hwf⟩, hd⟩ := hinv
  cases o with
  | create_directory parent name calloc =>
    exact ⟨0, fun fuel _ => map_fst_fuel _ (create_directory_fuel _ _ _ _)⟩
  | lookup parent_inode name =>
    exact ⟨0, fun fuel _ => map_fst_fuel _ (fuse_lookup_fuel _ _ _)⟩
  | forget ino nlookup =>
    exact ⟨0, fun fuel _ => map_fst_fuel _ (fuse_forget_fuel _ _ _)⟩
  | getattr ino =>
    exact ⟨0, fun fuel _ => map_fst_fuel _ (fuse_getattr_fuel _ _)⟩
  | opendir ino =>
    exact ⟨0, fun fuel _ => map_fst_fuel _ (fuse_opendir_fuel _ _)⟩
  | readdir ino size off =>
    exact ⟨0, fun fuel _ => map_fst_fuel _ (fuse_readdir_fuel _ _ _ _ _)⟩
  | remove item =>
    refine ⟨rk item + 1, fun fuel hfuel => ?_⟩
    simp only [step]
    cases hip : context.items item with
    | none => simp [procstat_remove, hip]
    | some ip =>
      by_cases hroot : context.root = item
      · obtain ⟨H', hH', _⟩ := put_children_loop_spec fuel (put_last_spec_all fuel) ip.children
          rk context.items item ip hwf.shape hip (fun c hc => hc) (hwf.shape.nodup item ip hip)
          (by omega) (fun c _ a ia _ ha => hwf.refcnt_pos a ia ha)
        simp [procstat_remove, hip, hd item ip hip, root_directory, hroot,
          item_put_children_locked, hH']
      · obtain ⟨h', he⟩ := put_cleared_returns rk fuel _ item ip hwf hip (by omega)
        rw [remove_not_root fuel context item ip hip (Ne.symm hroot), he]
        simp [Except.map]
  | remove_by_name parent name =>
    cases hpar : parent_or_root context parent with
    | error e =>
      refine ⟨0, fun fuel _ => ?_⟩
      simp only [step, procstat_remove_by_name, hpar, Except.map]
      intro hh
      simp only [Except.error.injEq] at hh
      subst hh
      unfold parent_or_root at hpar
      split at hpar
      · cases hpar
      · split at hpar
        · cases hpar
        · split at hpar <;> cases hpar
    | ok par? =>
      cases par? with
      | none =>
        exact ⟨0, fun fuel _ => by simp [step, procstat_remove_by_name, hpar, Except.map]⟩
      | some par =>
        cases hl : lookup_item_locked context.items par (some name) (string_hash name) with
        | error e =>
          refine ⟨0, fun fuel _ => ?_⟩
          simp only [step, procstat_remove_by_name, hpar, hl, Except.map]
          intro hh
          simp only [Except.error.injEq] at hh
          subst hh
          exact lookup_item_locked_fuel _ _ _ _ hl
        | ok found =>
          cases found with
          | none =>
            exact ⟨0, fun fuel _ => by simp [step, procstat_remove_by_name, hpar, hl, Except.map]⟩
          | some item =>
            refine ⟨rk item + 1, fun fuel hfuel => ?_⟩
            cases hip : context.items item with
            | none => simp [step, procstat_remove_by_name, hpar, hl, hip, Except.map]
            | some ip =>
              obtain ⟨h', he⟩ := put_cleared_returns rk fuel _ item ip hwf hip (by omega)
              simp [step, procstat_remove_by_name, hpar, hl, hip, he, Except.map]

/-! ## The name hash -/

theorem foldl_hash_append (s : List Nat) (b : Nat) (acc : Nat) :
    (s ++ [b]).foldl (fun hash i => (31 * hash + i) % 2 ^ 32) acc =
      (31 * s.foldl (fun hash i => (31 * hash + i) % 2 ^ 32) acc + b) % 2 ^ 32 := by
  rw [List.foldl_append]; rfl

theorem string_hash_take (name : List Nat) :
    ∀ i, i ≤ name.length → string_hash (name.take i) = polynomial_hash name i := by
  intro i
  induction i with
  | zero => intro _; rfl
  | succ i ih =>
    intro hi
    have hlt : i < name.length := hi
    rw [List.take_succ, List.getElem?_eq_getElem hlt]
    simp only [Option.toList_some, polynomial_hash]
    unfold string_hash at *
    rw [foldl_hash_append, ih (Nat.le_of_lt hlt)]
    simp [List.getD, List.getElem?_eq_getElem hlt]

theorem foldl_hash_value (s : List Nat) :
    ∀ acc, s.foldl (fun hash i => (31 * hash + i) % 2 ^ 32) acc % 2 ^ 32 =
      (acc * 31 ^ s.length + polynomial_value s) % 2 ^ 32 := by
  induction s with
  | nil => intro acc; simp [polynomial_value]
  | cons b rest ih =>
    intro acc
    simp only [List.foldl_cons, List.length_cons, polynomial_value]
    rw [ih]
    rw [Nat.add_mod, Nat.mul_mod, Nat.mod_mod, ← Nat.mul_mod, ← Nat.add_mod]
    congr 1
    ring

theorem foldl_hash_lt (s : List Nat) :
    ∀ acc, acc < 2 ^ 32 → s.foldl (fun hash i => (31 * hash + i) % 2 ^ 32) acc < 2 ^ 32 := by
  induction s with
  | nil => intro acc h; exact h
  | cons b rest ih =>
    intro acc _
    exact ih _ (Nat.mod_lt _ (by decide))

theorem string_hash_value (name : List Nat) :
    string_hash name = polynomial_value name % 2 ^ 32 := by
  have h1 := foldl_hash_value name 0
  have h2 := foldl_hash_lt name 0 (by decide)
  unfold string_hash
  rw [Nat.mod_eq_of_lt h2] at h1
  simpa using h1

/-! ## Stored names, and a forget that leaves references -/

theorem heap_set_self (h : item_heap) (p : Nat) (it : procstat_item) (hp : h p = some it) :
    heap_set h p it = h := by
  funext a
  by_cases ha : a = p
  · subst ha; rw [heap_set_same, hp]
  · rw [heap_set_other _ _ _ _ ha]

theorem fuse_forget_more (context : procstat_context) (ino nlookup : Nat) (it : procstat_item)
    (hit : context.items (fuse_inode_to_item context ino) = some it)
    (hle : (nlookup : Int) ≤ it.refcnt) (hne : it.refcnt - nlookup ≠ 0) :
    fuse_forget context ino nlookup =
      .ok ({ context with
             items := heap_set context.items (fuse_inode_to_item context ino)
                        { it with refcnt := it.refcnt - nlookup } }, reply.none) := by
  unfold fuse_forget
  simp only [hit]
  rw [if_neg (by omega), if_neg hne]

/-! ## Removal of a directory the kernel still holds, of the root, and by name -/

theorem other_name_same_name (h : item_heap) (name : List Nat) (a c : Nat)
    (it it' : procstat_item) (ha : h a = some it)
    (hn : procstat_item_name it' = procstat_item_name it)
    (ho : other_name h name c) : other_name (heap_set h a it') name c := by
  obtain ⟨ic, n, hc, hcn, hne⟩ := ho
  by_cases hca : c = a
  · subst hca
    rw [ha] at hc; cases hc
    exact ⟨it', n, heap_set_same _ _ _, by rw [hn]; exact hcn, hne⟩
  · exact ⟨ic, n, by rw [heap_set_other _ _ _ _ hca]; exact hc, hcn, hne⟩

theorem name_clear_registered (it : procstat_item) (r : Int) :
    procstat_item_name { it with refcnt := r, flags := clear_registered it.flags } =
      procstat_item_name it := rfl

/-- The effect of `procstat_remove` on a non-root item that holds more than one
reference. -/
theorem remove_more (fuel : Nat) (context : procstat_context) (p : Nat) (ip : procstat_item)
    (hp : context.items p = some ip) (hroot : p ≠ context.root) (href : 2 ≤ ip.refcnt) :
    procstat_remove (fuel + 1) context p =
      .ok { context with
            items := heap_set context.items p
                       { ip with refcnt := ip.refcnt - 1, flags := clear_registered ip.flags } } := by
  rw [remove_not_root (fuel + 1) context p ip hp hroot,
    item_put_locked_more fuel _ p { ip with flags := clear_registered ip.flags }
      (heap_set_same _ _ _) (by show ip.refcnt ≠ 0; omega) (by show ip.refcnt ≠ 1; omega),
    heap_set_idem]
  rfl

/-- The effect of `procstat_remove` on the root. -/
theorem remove_root (rk : Nat → Nat) (fuel : Nat) (context : procstat_context)
    (ir : procstat_item) (hwf : tree_wf rk context.items)
    (hr : context.items context.root = some ir) (hdir : item_type_directory ir = true)
    (hfuel : rk context.root ≤ fuel) :
    ∃ h', procstat_remove fuel context context.root = .ok { context with items := h' } ∧
      h' context.root = some { ir with children := [] } ∧
      (∀ a ia, cascade context.items context.root a → context.items a = some ia →
        h' a = put_result ia) ∧
      (∀ a, a ≠ context.root → ¬ cascade context.items context.root a →
        h' a = context.items a) := by
  obtain ⟨H', hH', hH'p, hrel, hoth⟩ := put_children_loop_spec fuel
    (put_last_spec_all _) ir.children rk context.items context.root ir hwf.shape hr
    (fun c hc => hc) (hwf.shape.nodup _ ir hr) hfuel
    (fun c _ a ia _ ha => hwf.refcnt_pos a ia ha)
  refine ⟨H', ?_, ?_, ?_, ?_⟩
  · have : (item_type_directory ir && root_directory context context.root) = true := by
      simp [hdir, root_directory]
    simp only [procstat_remove, hr, this, ↓reduceIte, item_put_children_locked, hH']
  · rw [hH'p, filter_not_mem_self]
  · intro a ia hca ha
    exact hrel a ia ((cascade_iff_loop_released _ _ ir hr a).mp hca).2 ha
  · intro a har hnc
    exact hoth a har (fun hlr => hnc ((cascade_iff_loop_released _ _ ir hr a).mpr ⟨hdir, hlr⟩))

theorem ex_state_wf (ra : Int) (fa : Nat) (rb : Int) (hra : 1 ≤ ra) (hrb : 1 ≤ rb) :
    tree_wf ex_rank (ex_state ra fa rb).items := by
  have key : ∀ p ip, (ex_state ra fa rb).items p = some ip →
      (p = 1000 ∧ ip = ex_item [46] 1 3 [2000]) ∨ (p = 2000 ∧ ip = ex_item [97] ra fa [3000]) ∨
      (p = 3000 ∧ ip = ex_item [98] rb 3 []) := by
    intro p ip hp
    simp only [ex_state] at hp
    split_ifs at hp with h1 h2 h3
    · cases hp; exact Or.inl ⟨h1, rfl⟩
    · cases hp; exact Or.inr (Or.inl ⟨h2, rfl⟩)
    · cases hp; exact Or.inr (Or.inr ⟨h3, rfl⟩)
  refine ⟨⟨?_, ?_, ?_, ?_⟩, ?_⟩
  · intro p ip c hp hc
    rcases key p ip hp with ⟨_, rfl⟩ | ⟨_, rfl⟩ | ⟨_, rfl⟩
    · have : c = 2000 := by simpa [ex_item] using hc
      subst this; exact ⟨_, rfl⟩
    · have : c = 3000 := by simpa [ex_item] using hc
      subst this; exact ⟨_, rfl⟩
    · simp [ex_item] at hc
  · intro p q ip iq c hp hq hc hc'
    rcases key p ip hp with ⟨rfl, rfl⟩ | ⟨rfl, rfl⟩ | ⟨rfl, rfl⟩ <;>
    rcases key q iq hq with ⟨rfl, rfl⟩ | ⟨rfl, rfl⟩ | ⟨rfl, rfl⟩ <;>
    simp [ex_item] at hc hc' <;> omega
  · intro p ip c hp hc
    rcases key p ip hp with ⟨rfl, rfl⟩ | ⟨rfl, rfl⟩ | ⟨rfl, rfl⟩ <;>
    simp [ex_item] at hc <;> subst hc <;> decide
  · intro p ip hp
    rcases key p ip hp with ⟨_, rfl⟩ | ⟨_, rfl⟩ | ⟨_, rfl⟩ <;> simp [ex_item]
  · intro p ip hp
    rcases key p ip hp with ⟨_, rfl⟩ | ⟨_, rfl⟩ | ⟨_, rfl⟩ <;> simp [ex_item, hra, hrb]

theorem names_kept_refl (h : item_heap) : names_kept h h :=
  fun _ i' hc => ⟨i', hc, rfl, rfl, fun _ hx => hx⟩

theorem names_kept_trans (h1 h2 h3 : item_heap) (h12 : names_kept h1 h2)
    (h23 : names_kept h2 h3) : names_kept h1 h3 := by
  intro c i3 hc
  obtain ⟨i2, hc2, hn2, hh2, hs2⟩ := h23 c i3 hc
  obtain ⟨i1, hc1, hn1, hh1, hs1⟩ := h12 c i2 hc2
  exact ⟨i1, hc1, hn2.trans hn1, hh2.trans hh1, fun x hx => hs1 x (hs2 x hx)⟩

theorem names_kept_heap_set (h : item_heap) (q : Nat) (it : procstat_item) (par : Option Nat)
    (r : Int) (f : Nat) (hq : h q = some it) :
    names_kept h (heap_set h q { it with parent := par, refcnt := r, flags := f }) := by
  intro c i' hc
  by_cases hcq : c = q
  · subst hcq
    rw [heap_set_same] at hc
    cases hc
    exact ⟨it, hq, rfl, rfl, fun _ hx => hx⟩
  · rw [heap_set_other _ _ _ _ hcq] at hc
    exact ⟨i', hc, rfl, rfl, fun _ hx => hx⟩

theorem names_kept_list_del (h : item_heap) (q : Nat) : names_kept h (list_del h q) := by
  intro c i' hc
  obtain ⟨iy, hy, e⟩ := list_del_some h q c i' hc
  subst e
  exact ⟨iy, hy, rfl, rfl, fun x hx => ((mem_unlink q x iy).mp hx).1⟩

theorem names_kept_free (h : item_heap) (q : Nat) :
    names_kept h (heap_free (list_del h q) q) := by
  intro c i' hc
  by_cases hcq : c = q
  · subst hcq; rw [heap_free_same] at hc; cases hc
  · rw [heap_free_other _ _ _ hcq] at hc
    exact names_kept_list_del h q c i' hc

/-- Whatever holds of a heap and survives a change of the parent link, the reference
count and the flags of an item, an unlinking and a free, holds after the loop of
`item_put_children_locked` when it holds after every release of the loop. -/
theorem put_children_loop_writes (P : item_heap → Prop)
    (hset : ∀ h q it par r f, P h → h q = some it →
      P (heap_set h q { it with parent := par, refcnt := r, flags := f }))
    (hdel : ∀ h q, P h → P (list_del h q))
    (put : item_heap → Nat → Except fault item_heap)
    (hput : ∀ h c h', P h → put h c = .ok h' → P h') :
    ∀ cs h h', P h → item_put_children_loop put cs h = .ok h' → P h' := by
  intro cs
  induction cs with
  | nil => intro h h' hP hr; cases hr; exact hP
  | cons c rest ihc =>
    intro h h' hP hr
    simp only [item_put_children_loop] at hr
    split at hr
    · cases hr
    · rename_i ic hic
      split at hr
      · cases hr
      · rename_i h1 h1eq
        exact ihc h1 h' (hput _ c h1
          (hdel _ _ (hset h c ic none ic.refcnt ic.flags hP hic)) h1eq) hr

/-- The same for `item_put_locked`. -/
theorem item_put_locked_writes (P : item_heap → Prop)
    (hset : ∀ h q it par r f, P h → h q = some it →
      P (heap_set h q { it with parent := par, refcnt := r, flags := f }))
    (hdel : ∀ h q, P h → P (list_del h q))
    (hfree : ∀ h q, P h → P (heap_free (list_del h q) q)) :
    ∀ fuel h p h', P h → item_put_locked fuel h p = .ok h' → P h' := by
  intro fuel
  induction fuel with
  | zero => intro h p h' _ hr; cases hr
  | succ fuel ih =>
    have loop := put_children_loop_writes P hset hdel (item_put_locked fuel) ih
    intro h p h' hP hr
    simp only [item_put_locked] at hr
    split at hr
    · cases hr
    · rename_i it hit
      split at hr
      · cases hr
      · split at hr
        · cases hr; exact hset h p it it.parent (it.refcnt - 1) it.flags hP hit
        · have hP1 : P (heap_set h p
              { it with refcnt := it.refcnt - 1, flags := clear_registered it.flags }) :=
            hset h p it it.parent (it.refcnt - 1) (clear_registered it.flags) hP hit
          split at hr
          · split at hr
            · cases hr
            · rename_i h2 h2eq
              have hP2 := loop _ _ h2 hP1 h2eq
              rw [free_item_ok _ _ _ hr]
              exact hfree _ _ hP2
          · rw [free_item_ok _ _ _ hr]
            exact hfree _ _ hP1

theorem names_kept_writes (h0 : item_heap) :
    (∀ h q it par r f, names_kept h0 h → h q = some it →
      names_kept h0 (heap_set h q { it with parent := par, refcnt := r, flags := f })) ∧
    (∀ h q, names_kept h0 h → names_kept h0 (list_del h q)) ∧
    (∀ h q, names_kept h0 h → names_kept h0 (heap_free (list_del h q) q)) :=
  ⟨fun h q it par r f hk hq =>
      names_kept_trans h0 h _ hk (names_kept_heap_set h q it par r f hq),
    fun h q hk => names_kept_trans h0 h _ hk (names_kept_list_del h q),
    fun h q hk => names_kept_trans h0 h _ hk (names_kept_free h q)⟩

theorem item_put_locked_names_kept (fuel : Nat) (h : item_heap) (p : Nat) (h' : item_heap)
    (hr : item_put_locked fuel h p = .ok h') : names_kept h h' :=
  item_put_locked_writes (names_kept h) (names_kept_writes h).1 (names_kept_writes h).2.1
    (names_kept_writes h).2.2 fuel h p h' (names_kept_refl h) hr

theorem put_children_names_kept (fuel : Nat) (h : item_heap) (p : Nat) (h' : item_heap)
    (hr : item_put_children_locked fuel h p = .ok h') : names_kept h h' := by
  unfold item_put_children_locked at hr
  split at hr
  · cases hr
  · exact put_children_loop_writes (names_kept h) (names_kept_writes h).1
      (names_kept_writes h).2.1 (item_put_locked fuel)
      (fun g c g' hg hput => names_kept_trans h g g' hg
        (item_put_locked_names_kept fuel g c g' hput)) _ h h' (names_kept_refl h) hr

theorem put_cleared_names_kept (fuel : Nat) (h : item_heap) (p : Nat) (ip : procstat_item)
    (h' : item_heap) (hp : h p = some ip)
    (hr : item_put_locked fuel (heap_set h p { ip with flags := clear_registered ip.flags }) p
      = .ok h') : names_kept h h' :=
  names_kept_trans h _ h'
    (names_kept_heap_set h p ip ip.parent ip.refcnt (clear_registered ip.flags) hp)
    (item_put_locked_names_kept fuel _ p h' hr)

/-- A call that returns and is not a creation that succeeded keeps the names: every item
afterwards is an item before, with its name, its hash and no new child. -/
theorem step_names_kept (fuel : Nat) (context : procstat_context) (o : op)
    (c' : procstat_context)
    (hd : ∀ a ia, context.items a = some ia → item_type_directory ia = true)
    (ho : ∀ parent name calloc, o ≠ op.create_directory parent name calloc)
    (hstep : step fuel context o = .ok c') : names_kept context.items c'.items := by
  cases o with
  | create_directory parent name calloc => exact absurd rfl (ho parent name calloc)
  | remove item =>
    obtain ⟨ip, h', hip, e, hcase⟩ := remove_effect fuel context item c' hstep hd
    rw [e]
    rcases hcase with ⟨_, hput⟩ | ⟨_, hput⟩
    · exact put_children_names_kept fuel _ item h' hput
    · exact put_cleared_names_kept fuel _ item ip h' hip hput
  | remove_by_name parent name =>
    simp only [step, Except.map] at hstep
    split at hstep
    · cases hstep
    · rename_i res hres
      cases hstep
      obtain ⟨c1, r⟩ := res
      rcases remove_by_name_effect fuel context parent name c1 r hres with
        ⟨e, _⟩ | ⟨_, item, ip, h', _, _, hip, e, hput⟩
      · rw [e]; exact names_kept_refl _
      · rw [e]
        exact put_cleared_names_kept fuel _ item ip h' hip hput
  | lookup parent_inode name =>
    simp only [step, Except.map] at hstep
    split at hstep
    · cases hstep
    · rename_i res hres
      cases hstep
      obtain ⟨c1, r⟩ := res
      rcases fuse_lookup_effect context parent_inode name c1 r hres with e | ⟨x, ix, hx, e⟩
      · rw [e]; exact names_kept_refl _
      · rw [e]
        exact names_kept_heap_set _ x ix ix.parent (ix.refcnt + 1) ix.flags hx
  | forget ino nlookup =>
    simp only [step, Except.map] at hstep
    split at hstep
    · cases hstep
    · rename_i res hres
      cases hstep
      obtain ⟨c1, r⟩ := res
      obtain ⟨it, h', hit, hle, e, hcase⟩ := fuse_forget_effect context ino nlookup c1 r hres
      rw [e]
      rcases hcase with ⟨hz, eh⟩ | ⟨_, eh⟩
      · rw [eh]
        exact names_kept_heap_set _ _ it it.parent (it.refcnt - nlookup) it.flags hit
      · rw [eh]
        exact names_kept_trans _ _ _
          (names_kept_heap_set _ _ it it.parent (it.refcnt - nlookup) it.flags hit)
          (names_kept_free _ _)
  | getattr ino =>
    simp only [step, Except.map] at hstep
    split at hstep
    · cases hstep
    · rename_i res hres
      cases hstep
      obtain ⟨c1, r⟩ := res
      rw [fuse_getattr_effect context ino c1 r hres]; exact names_kept_refl _
  | opendir ino =>
    simp only [step, Except.map] at hstep
    split at hstep
    · cases hstep
    · rename_i res hres
      cases hstep
      obtain ⟨c1, r⟩ := res
      rw [fuse_opendir_effect context ino c1 r hres]; exact names_kept_refl _
  | readdir ino size off =>
    simp only [step, Except.map] at hstep
    split at hstep
    · cases hstep
    · rename_i res hres
      cases hstep
      obtain ⟨c1, r⟩ := res
      rw [fuse_readdir_effect context _ ino size off c1 r hres]; exact names_kept_refl _

theorem names_inv_of_kept (h h' : item_heap) (hinv : names_inv h) (hk : names_kept h h') :
    names_inv h' := by
  constructor
  · intro a ia ha
    obtain ⟨i, hi, hn, hh, _⟩ := hk a ia ha
    rw [hh, hn]; exact hinv.hash a i hi
  · intro p ip c1 c2 i1 i2 hp hc1 hc2 hne h1 h2
    obtain ⟨jp, hjp, _, _, hsub⟩ := hk p ip hp
    obtain ⟨j1, hj1, hn1, _, _⟩ := hk c1 i1 h1
    obtain ⟨j2, hj2, hn2, _, _⟩ := hk c2 i2 h2
    rw [hn1, hn2]
    exact hinv.unique p jp c1 c2 j1 j2 hjp (hsub c1 hc1) (hsub c2 hc2) hne hj1 hj2

theorem unreferenced_of_kept (h h' : item_heap) (r : Nat) (hun : unreferenced h r)
    (hk : names_kept h h') : unreferenced h' r := by
  intro q iq hq hm
  obtain ⟨j, hj, _, _, hsub⟩ := hk q iq hq
  exact hun q j hj (hsub r hm)

/-- A scan that ends without a match has met only live children whose hash or name
differs from the one looked for. -/
theorem lookup_scan_none_inv (h : item_heap) (nm : Option (List Nat)) (hash : Nat) :
    ∀ cs, lookup_scan h nm hash cs = .ok none →
      ∀ c ∈ cs, ∃ ic, h c = some ic ∧ (ic.name_hash ≠ hash ∨ procstat_item_name ic ≠ nm) := by
  intro cs
  induction cs with
  | nil => intro _ c hc; cases hc
  | cons x rest ih =>
    intro hs c hc
    simp only [lookup_scan] at hs
    split at hs
    · cases hs
    · rename_i it hit
      split at hs
      · rename_i hne
        rcases List.mem_cons.mp hc with e | hm
        · subst e; exact ⟨it, hit, Or.inl hne⟩
        · exact ih hs c hm
      · split at hs
        · rename_i s n hn1
          split at hs
          · cases hs
          · rename_i hsn
            rcases List.mem_cons.mp hc with e | hm
            · subst e
              refine ⟨it, hit, Or.inr ?_⟩
              rw [hn1]
              intro e; cases e; exact hsn rfl
            · exact ih hs c hm
        · cases hs

/-- What `procstat_create_directory` does when it returns: nothing, or it links a new
directory, after a scan of the parent's children that found no match. -/
theorem create_directory_cases (context : procstat_context) (parent : Option Nat)
    (name : List Nat) (calloc : Option Nat) (c' : procstat_context) (r : Except Nat Nat)
    (hr : procstat_create_directory context parent name calloc = .ok (c', r))
    (hfresh : ∀ a, calloc = some a → context.items a = none ∧ a ≠ context.root)
    (hunref : ∀ a, context.items a = none → unreferenced context.items a) :
    c' = context ∨ ∃ a par d h', calloc = some a ∧ context.items a = none ∧
      context.items par = some d ∧ par ≠ a ∧ c' = { context with items := h' } ∧
      h' = heap_set (heap_set context.items par { d with children := d.children ++ [a] }) a
        (new_directory name) ∧
      lookup_scan (heap_set (heap_set context.items a zeroed_item) a (fresh_directory name))
        (procstat_item_name (fresh_directory name)) (fresh_directory name).name_hash
        d.children = .ok none := by
  unfold procstat_create_directory at hr
  split at hr
  · cases hr
  · cases hr; exact Or.inl rfl
  · rename_i par hpar
    split at hr
    · cases hr; exact Or.inl rfl
    · rename_i a
      obtain ⟨hfa, hroot⟩ := hfresh a rfl
      have hpa : par ≠ a := by
        cases parent with
        | none =>
          simp only [parent_or_root, Except.ok.injEq, Option.some.injEq] at hpar
          rw [← hpar]; exact Ne.symm hroot
        | some p =>
          simp only [parent_or_root] at hpar
          split at hpar
          · cases hpar
          · rename_i ip hip
            split at hpar
            · cases hpar
              intro e; rw [e, hfa] at hip; cases hip
            · cases hpar
      simp only [init_directory_zeroed] at hr
      cases hd : context.items par with
      | none =>
        simp [register_item, lookup_item_locked, heap_set_other _ _ _ _ hpa, hd] at hr
      | some d =>
        cases hdir : item_type_directory d with
        | false =>
          simp [register_item, lookup_item_locked, heap_set_other _ _ _ _ hpa, hd, hdir] at hr
        | true =>
          cases hscan : lookup_scan
              (heap_set (heap_set context.items a zeroed_item) a (fresh_directory name))
              (procstat_item_name (fresh_directory name)) (fresh_directory name).name_hash
              d.children with
          | error e =>
            simp [register_item, lookup_item_locked, heap_set_other _ _ _ _ hpa, hd, hdir,
              hscan] at hr
          | ok found =>
            cases found with
            | some c =>
              rw [register_item_dup _ a par c (fresh_directory name) d (heap_set_same _ _ _)
                (by rw [heap_set_other _ _ _ _ hpa, heap_set_other _ _ _ _ hpa]; exact hd)
                hdir hscan] at hr
              simp only [EEXIST, ne_eq, OfNat.ofNat_ne_zero, not_false_eq_true, ↓reduceIte,
                free_fresh_directory _ a name hfa (hunref a hfa)] at hr
              cases hr
              exact Or.inl rfl
            | none =>
              rw [register_item_new _ a par (fresh_directory name) d (heap_set_same _ _ _)
                (by rw [heap_set_other _ _ _ _ hpa, heap_set_other _ _ _ _ hpa]; exact hd)
                hdir hpa.symm hscan] at hr
              simp only [ne_eq, not_true_eq_false, ↓reduceIte, Except.ok.injEq,
                Prod.mk.injEq] at hr
              right
              refine ⟨a, par, d, _, rfl, hfa, hd, hpa, hr.1.symm, ?_, hscan⟩
              funext q
              by_cases hqa : q = a
              · subst hqa; simp only [heap_set_same]; rfl
              · by_cases hqp : q = par
                · simp [heap_set, hqp, hpa]
                · simp [heap_set, hqa, hqp]

theorem name_new_directory (name : List Nat) :
    procstat_item_name (new_directory name) = procstat_item_name (fresh_directory name) := rfl

/-- The hash a new directory stores is the hash of the name it reads. -/
theorem hash_fresh_directory (name : List Nat) (hs : c_string name) :
    (fresh_directory name).name_hash =
      string_hash ((procstat_item_name (fresh_directory name)).getD []) := by
  rw [name_hash_fresh_directory]
  cases name with
  | nil => rfl
  | cons b bs =>
    rw [name_fresh_directory (b :: bs) ⟨by simp, fun x hx => (hs x hx).1⟩]
    rfl

theorem names_inv_create (h : item_heap) (a par : Nat) (d : procstat_item) (name : List Nat)
    (hinv : names_inv h) (ha : h a = none) (hun : unreferenced h a) (hd : h par = some d)
    (hpa : par ≠ a) (hs : c_string name)
    (hscan : lookup_scan (heap_set (heap_set h a zeroed_item) a (fresh_directory name))
      (procstat_item_name (fresh_directory name)) (fresh_directory name).name_hash
      d.children = .ok none) :
    names_inv (heap_set (heap_set h par { d with children := d.children ++ [a] }) a
      (new_directory name)) := by
  have key : ∀ q iq, heap_set (heap_set h par { d with children := d.children ++ [a] }) a
      (new_directory name) q = some iq →
      (q = a ∧ iq = new_directory name) ∨
      (q ≠ a ∧ ∃ j, h q = some j ∧ procstat_item_name iq = procstat_item_name j ∧
        iq.name_hash = j.name_hash ∧ (∀ x ∈ iq.children, x ≠ a → x ∈ j.children) ∧
        (q ≠ par → iq.children = j.children)) := by
    intro q iq hq
    by_cases hqa : q = a
    · subst hqa; rw [heap_set_same] at hq; cases hq; exact Or.inl ⟨rfl, rfl⟩
    · rw [heap_set_other _ _ _ _ hqa] at hq
      right
      refine ⟨hqa, ?_⟩
      by_cases hqp : q = par
      · subst hqp; rw [heap_set_same] at hq; cases hq
        refine ⟨d, hd, rfl, rfl, ?_, fun hne => absurd rfl hne⟩
        intro x hx hxa
        rcases List.mem_append.mp hx with hm | hm
        · exact hm
        · exact absurd (List.mem_singleton.mp hm) hxa
      · rw [heap_set_other _ _ _ _ hqp] at hq
        exact ⟨iq, hq, rfl, rfl, fun x hx _ => hx, fun _ => rfl⟩
  have hnew : ∀ c j, c ∈ d.children → h c = some j →
      procstat_item_name j ≠ procstat_item_name (new_directory name) := by
    intro c j hc hj hname
    have hca : c ≠ a := fun e => hun par d hd (e ▸ hc)
    obtain ⟨ic, hic, hdiff⟩ := lookup_scan_none_inv _ _ _ _ hscan c hc
    rw [heap_set_other _ _ _ _ hca, heap_set_other _ _ _ _ hca, hj] at hic
    cases hic
    rw [name_new_directory] at hname
    rcases hdiff with hh | hn
    · apply hh
      rw [hinv.hash c j hj, hname, ← hash_fresh_directory name hs]
    · exact hn hname
  constructor
  · intro q iq hq
    rcases key q iq hq with ⟨_, rfl⟩ | ⟨_, j, hj, hn, hh, _, _⟩
    · rw [name_new_directory]; exact hash_fresh_directory name hs
    · rw [hh, hn]; exact hinv.hash q j hj
  · intro p ip c1 c2 i1 i2 hp hc1 hc2 hne h1 h2
    rcases key p ip hp with ⟨_, rfl⟩ | ⟨hpa', jp, hjp, _, _, hsub, hsame⟩
    · simp [new_directory, fresh_directory] at hc1
    · rcases key c1 i1 h1 with ⟨e1, rfl⟩ | ⟨hc1a, j1, hj1, hn1, _, _, _⟩
      · rcases key c2 i2 h2 with ⟨e2, rfl⟩ | ⟨hc2a, j2, hj2, hn2, _, _, _⟩
        · exact absurd (e1.trans e2.symm) hne
        · have hpp : p = par := by
            by_contra hpp
            rw [hsame hpp] at hc1
            exact hun p jp hjp (e1 ▸ hc1)
          subst hpp
          rw [hjp] at hd; cases hd
          rw [hn2]
          exact fun e => hnew c2 j2 (hsub c2 hc2 hc2a) hj2 e.symm
      · rcases key c2 i2 h2 with ⟨e2, rfl⟩ | ⟨hc2a, j2, hj2, hn2, _, _, _⟩
        · have hpp : p = par := by
            by_contra hpp
            rw [hsame hpp] at hc2
            exact hun p jp hjp (e2 ▸ hc2)
          subst hpp
          rw [hjp] at hd; cases hd
          rw [hn1]
          exact hnew c1 j1 (hsub c1 hc1 hc1a) hj1
        · rw [hn1, hn2]
          exact hinv.unique p jp c1 c2 j1 j2 hjp (hsub c1 hc1 hc1a) (hsub c2 hc2 hc2a) hne
            hj1 hj2

/-! ## The names in the reachable trees -/

/-- Every call that returns and passes C strings keeps the names invariant. -/
theorem step_names_inv (fuel : Nat) (context : procstat_context) (o : op)
    (c' : procstat_context) (hinv : tree_inv context.items) (hn : names_inv context.items)
    (hfresh : alloc_fresh context o) (hs : op_strings o)
    (hstep : step fuel context o = .ok c') : names_inv c'.items := by
  by_cases ho : ∀ parent name calloc, o ≠ op.create_directory parent name calloc
  · exact names_inv_of_kept _ _ hn (step_names_kept fuel context o c' hinv.2 ho hstep)
  · push_neg at ho
    obtain ⟨parent, name, calloc, rfl⟩ := ho
    simp only [step, Except.map] at hstep
    split at hstep
    · cases hstep
    · rename_i res hres
      cases hstep
      obtain ⟨c1, r⟩ := res
      rcases create_directory_cases context parent name calloc c1 r hres
        (by intro a e; subst e; exact hfresh) (tree_inv_unreferenced _ hinv) with
        e | ⟨a, par, d, h', _, ha, hd, hpa, e, eh, hscan⟩
      · rw [e]; exact hn
      · rw [e, eh]
        exact names_inv_create context.items a par d name hn ha
          (tree_inv_unreferenced _ hinv a ha) hd hpa hs hscan

/-- Every call that returns leaves the root in no child list. -/
theorem step_root_unreferenced (fuel : Nat) (context : procstat_context) (o : op)
    (c' : procstat_context) (hinv : tree_inv context.items)
    (hun : unreferenced context.items context.root)
    (hfresh : alloc_fresh context o)
    (hstep : step fuel context o = .ok c') : unreferenced c'.items c'.root := by
  rw [step_root fuel context o c' hinv.2 hfresh (tree_inv_unreferenced _ hinv) hstep]
  by_cases ho : ∀ parent name calloc, o ≠ op.create_directory parent name calloc
  · exact unreferenced_of_kept _ _ _ hun (step_names_kept fuel context o c' hinv.2 ho hstep)
  · push_neg at ho
    obtain ⟨parent, name, calloc, rfl⟩ := ho
    simp only [step, Except.map] at hstep
    split at hstep
    · cases hstep
    · rename_i res hres
      cases hstep
      obtain ⟨c1, r⟩ := res
      rcases create_directory_effect context parent name calloc c1 r hres
        (by intro a e; subst e; exact hfresh) (tree_inv_unreferenced _ hinv) with
        e | ⟨a, par, d, h', hca, ha, hd, hpa, e, eh⟩
      · rw [e]; exact hun
      · rw [e, eh]
        subst hca
        have hroot : a ≠ context.root := hfresh.2
        show unreferenced (heap_set (heap_set context.items par
          { d with children := d.children ++ [a] }) a (new_directory name)) context.root
        intro q iq hq hm
        by_cases hqa : q = a
        · subst hqa; rw [heap_set_same] at hq; cases hq
          simp [new_directory, fresh_directory] at hm
        · rw [heap_set_other _ _ _ _ hqa] at hq
          by_cases hqp : q = par
          · subst hqp; rw [heap_set_same] at hq; cases hq
            rcases List.mem_append.mp hm with h1 | h1
            · exact hun q d hd h1
            · exact hroot (List.mem_singleton.mp h1).symm
          · rw [heap_set_other _ _ _ _ hqp] at hq
            exact hun q iq hq hm

theorem run_names_inv (fuel : Nat) (ops : List op) :
    ∀ (context c' : procstat_context), tree_inv context.items → names_inv context.items →
      allocs_fresh fuel context ops → (∀ o ∈ ops, op_strings o) →
      run fuel context ops = .ok c' → names_inv c'.items := by
  induction ops with
  | nil => intro context c' _ hn _ _ hr; cases hr; exact hn
  | cons o rest ih =>
    intro context c' hinv hn hf hs hr
    simp only [run] at hr
    simp only [allocs_fresh] at hf
    split at hr
    · cases hr
    · rename_i c1 hc1
      rw [hc1] at hf
      exact ih c1 c' (step_invariant fuel context o c1 hinv hf.1 hc1)
        (step_names_inv fuel context o c1 hinv hn hf.1 (hs o (by simp)) hc1) hf.2
        (fun x hx => hs x (by simp [hx])) hr

theorem run_root_unreferenced (fuel : Nat) (ops : List op) :
    ∀ (context c' : procstat_context), tree_inv context.items →
      unreferenced context.items context.root → allocs_fresh fuel context ops →
      run fuel context ops = .ok c' → unreferenced c'.items c'.root := by
  induction ops with
  | nil => intro context c' _ hn _ hr; cases hr; exact hn
  | cons o rest ih =>
    intro context c' hinv hn hf hr
    simp only [run] at hr
    simp only [allocs_fresh] at hf
    split at hr
    · cases hr
    · rename_i c1 hc1
      rw [hc1] at hf
      exact ih c1 c' (step_invariant fuel context o c1 hinv hf.1 hc1)
        (step_root_unreferenced fuel context o c1 hinv hn hf.1 hc1) hf.2 hr

theorem procstat_create_items (addr uid gid : Nat) (c0 : procstat_context)
    (h0 : procstat_create addr uid gid = .ok c0) :
    ∀ q iq, c0.items q = some iq → iq = new_directory ROOT_DIR_NAME := by
  have e : c0.items = heap_set (heap_set (fun _ => none) addr zeroed_item) addr
      (new_directory ROOT_DIR_NAME) := by
    simp only [procstat_create, init_directory_zeroed, register_item, heap_set_same] at h0
    cases h0
    funext q
    by_cases hqa : q = addr
    · subst hqa; simp only [heap_set_same]; rfl
    · simp [heap_set, hqa]
  intro q iq hq
  rw [e] at hq
  by_cases hqa : q = addr
  · subst hqa; simp only [heap_set_same] at hq; cases hq; rfl
  · simp [heap_set, hqa] at hq

theorem procstat_create_names (addr uid gid : Nat) (c0 : procstat_context)
    (h0 : procstat_create addr uid gid = .ok c0) :
    names_inv c0.items ∧ unreferenced c0.items c0.root := by
  have key := procstat_create_items addr uid gid c0 h0
  refine ⟨⟨?_, ?_⟩, ?_⟩
  · intro q iq hq; rw [key q iq hq]; rfl
  · intro p ip c1 c2 i1 i2 hp hc1
    rw [key p ip hp] at hc1
    simp [new_directory, fresh_directory] at hc1
  · intro q iq hq hm
    rw [key q iq hq] at hm
    simp [new_directory, fresh_directory] at hm

theorem reachable_of_strings (context : procstat_context) (hr : reachable_by_strings context) :
    reachable context := by
  obtain ⟨fuel, addr, uid, gid, ops, c0, h0, hf, _, hrun⟩ := hr
  exact ⟨fuel, addr, uid, gid, ops, c0, h0, hf, hrun⟩

theorem reachable_names_inv (context : procstat_context) (hr : reachable_by_strings context) :
    names_inv context.items := by
  obtain ⟨fuel, addr, uid, gid, ops, c0, h0, hf, hs, hrun⟩ := hr
  exact run_names_inv fuel ops c0 context (procstat_create_inv addr uid gid c0 h0)
    (procstat_create_names addr uid gid c0 h0).1 hf hs hrun

theorem reachable_root_unreferenced (context : procstat_context) (hr : reachable context) :
    unreferenced context.items context.root := by
  obtain ⟨fuel, addr, uid, gid, ops, c0, h0, hf, hrun⟩ := hr
  exact run_root_unreferenced fuel ops c0 context (procstat_create_inv addr uid gid c0 h0)
    (procstat_create_names addr uid gid c0 h0).2 hf hrun

/-! ## Two directories under the root -/

theorem ex_pair_created :
    procstat_create_directory ex_one none [98] (some 3000) = .ok (ex_pair, .ok 3000) := by
  rw [create_directory_ok ex_one none [98] 3000 (ex_item [46] 1 3 [2000]) rfl rfl rfl
    (by simp [valid_name])
    (by intro c hc
        have : c = 2000 := by simpa [ex_item] using hc
        subst this
        exact ⟨ex_item [97] 1 3 [], [97], rfl, rfl, by decide⟩)]
  simp only [ex_pair, Except.ok.injEq, Prod.mk.injEq, procstat_context.mk.injEq, and_true]
  refine ⟨rfl, ?_, rfl, rfl⟩
  funext q
  by_cases h1000 : q = 1000
  · subst h1000; rfl
  · by_cases h2000 : q = 2000
    · subst h2000; rfl
    · by_cases h3000 : q = 3000
      · subst h3000; rfl
      · simp [heap_set, h1000, h2000, h3000, ex_one]

theorem ex_pair_reachable : reachable_by_strings ex_pair := by
  refine ⟨1, 1000, 0, 0, [op.create_directory none [97] (some 2000),
      op.create_directory none [98] (some 3000)], ex_fresh, ex_fresh_created, ?_, ?_, ?_⟩
  · simp only [allocs_fresh, alloc_fresh, step, ex_one_created, ex_pair_created, Except.map,
      and_true]
    exact ⟨⟨rfl, by decide⟩, rfl, by decide⟩
  · intro o ho
    simp only [List.mem_cons, List.mem_singleton, List.not_mem_nil, or_false] at ho
    rcases ho with rfl | rfl <;> simp [op_strings, c_string]
  · simp only [run, step, ex_one_created, ex_pair_created, Except.map]

/-! ## The listing of a directory -/

theorem le_bytes_length (n v : Nat) : (le_bytes n v).length = n := by
  induction n generalizing v with
  | zero => rfl
  | succ n ih => simp [le_bytes, ih]

theorem fuse_dirent_size_ge (namelen : Nat) : 24 + namelen ≤ fuse_dirent_size namelen := by
  unfold fuse_dirent_size
  omega

theorem fuse_add_direntry_length (name : List Nat) (st : stat) (off : Nat) :
    (fuse_add_direntry name st off).length = fuse_dirent_size name.length := by
  have := fuse_dirent_size_ge name.length
  simp only [fuse_add_direntry, List.length_append, le_bytes_length, List.length_replicate]
  omega

theorem listing_cons (context : procstat_context) (c : Nat) (rest : List Nat) (offset : Nat)
    (ic : procstat_item) (n : List Nat) (hic : context.items c = some ic)
    (hn : procstat_item_name ic = some n) :
    listing context (c :: rest) offset =
      fuse_add_direntry n (fill_item_stats context c ic) (offset + fuse_dirent_size n.length) ++
        listing context rest (offset + fuse_dirent_size n.length) := by
  simp only [listing, hic, hn, Option.getD_some]

/-- The loop of `fuse_readdir` when every record is at most `DEFAULT_BUFER_SIZE` bytes,
the listing stays below `2^30` bytes and every `realloc` succeeds: each record fits the
buffer as grown, no capacity overflows the `int`, and the loop appends the listing of
the children to the bytes written before. -/
theorem readdir_loop_listing (context : procstat_context) :
    ∀ (cs : List Nat) (s : readdir_state),
      (∀ c ∈ cs, ∃ ic n, context.items c = some ic ∧ procstat_item_name ic = some n ∧
        fuse_dirent_size n.length ≤ DEFAULT_BUFER_SIZE) →
      s.reply_buffer.length + (listing context cs s.reply_buffer.length).length < 2 ^ 30 →
      s.reply_buffer.length ≤ s.bufsize →
      (s.alloc_factor = 0 ∧ s.bufsize = 0 ∨
        1 ≤ s.alloc_factor ∧ 2 * s.bufsize = DEFAULT_BUFER_SIZE * 2 ^ s.alloc_factor) →
      ∃ s', readdir_loop context (fun _ => true) cs s = .ok (.filled s') ∧
        s'.reply_buffer = s.reply_buffer ++ listing context cs s.reply_buffer.length := by
  intro cs
  induction cs with
  | nil => intro s _ _ _ _; exact ⟨s, rfl, by simp [listing]⟩
  | cons c rest ih =>
    intro s hch htot hoff hcap
    obtain ⟨ic, n, hic, hn, hsz⟩ := hch c (by simp)
    have hrest : ∀ x ∈ rest, ∃ ix m, context.items x = some ix ∧
        procstat_item_name ix = some m ∧ fuse_dirent_size m.length ≤ DEFAULT_BUFER_SIZE :=
      fun x hx => hch x (by simp [hx])
    have hlen := fuse_add_direntry_length n (fill_item_stats context c ic)
      (s.reply_buffer.length + fuse_dirent_size n.length)
    rw [listing_cons context c rest _ ic n hic hn, List.length_append, hlen] at htot
    rw [listing_cons context c rest _ ic n hic hn]
    simp only [readdir_loop, hic, hn, fuse_add_direntry_size]
    have hpow : 2 ^ (s.alloc_factor + 1) = 2 * 2 ^ s.alloc_factor := by
      rw [Nat.pow_succ, Nat.mul_comm]
    have hpos : 1 ≤ 2 ^ s.alloc_factor := Nat.one_le_two_pow
    have hP1 : s.alloc_factor = 0 → 2 ^ s.alloc_factor = 1 := by
      intro h0; rw [h0]; rfl
    have hP2 : 1 ≤ s.alloc_factor → 2 ≤ 2 ^ s.alloc_factor := by
      intro h1
      calc 2 = 2 ^ 1 := rfl
        _ ≤ 2 ^ s.alloc_factor := Nat.pow_le_pow_right (by decide) h1
    simp only [DEFAULT_BUFER_SIZE, INT_MAX] at hsz hcap ⊢
    generalize hP : 2 ^ s.alloc_factor = P at hcap hpow hpos hP1 hP2 ⊢
    by_cases hgrow : s.bufsize ≤ fuse_dirent_size n.length + s.reply_buffer.length
    · simp only [hgrow, ↓reduceIte]
      have hint : ¬ 2147483647 < 1024 * P := by
        rcases hcap with ⟨h0, _⟩ | ⟨_, h2⟩
        · have := hP1 h0; omega
        · omega
      have hfit : ¬ 1024 * P < s.reply_buffer.length + fuse_dirent_size n.length := by
        rcases hcap with ⟨h0, hb⟩ | ⟨h1, h2⟩
        · have := hP1 h0; omega
        · have := hP2 h1; omega
      simp only [hint, hfit, ↓reduceIte]
      obtain ⟨s', hs', hbuf⟩ := ih
        ⟨s.reply_buffer ++ fuse_add_direntry n (fill_item_stats context c ic)
            (s.reply_buffer.length + fuse_dirent_size n.length),
          1024 * P, s.alloc_factor + 1⟩ hrest
        (by simp only [List.length_append, hlen]; omega)
        (by simp only [List.length_append, hlen]; omega)
        (by right
            refine ⟨by simp, ?_⟩
            simp only [DEFAULT_BUFER_SIZE, hpow]
            omega)
      refine ⟨s', hs', ?_⟩
      rw [hbuf]
      simp only [List.length_append, hlen, List.append_assoc]
    · simp only [hgrow, ↓reduceIte]
      obtain ⟨s', hs', hbuf⟩ := ih
        ⟨s.reply_buffer ++ fuse_add_direntry n (fill_item_stats context c ic)
            (s.reply_buffer.length + fuse_dirent_size n.length), s.bufsize, s.alloc_factor⟩
        hrest
        (by simp only [List.length_append, hlen]; omega)
        (by simp only [List.length_append, hlen]; omega)
        (by simp only [DEFAULT_BUFER_SIZE, hP]; exact hcap)
      refine ⟨s', hs', ?_⟩
      rw [hbuf]
      simp only [List.length_append, hlen, List.append_assoc]

/-- The reply of `fuse_readdir` for a registered directory whose children's records are
each at most `DEFAULT_BUFER_SIZE` bytes and whose listing is below `2^30` bytes, when
every `realloc` succeeds: the window of the listing that starts at `off` and has at most
`size` bytes, and no byte when `off` is not inside the listing. -/
theorem fuse_readdir_listing (context : procstat_context) (ino size off : Nat)
    (d : procstat_item)
    (hd : context.items (fuse_inode_to_item context ino) = some d)
    (hreg : item_registered d = true) (hdir : item_type_directory d = true)
    (hch : ∀ c ∈ d.children, ∃ ic n, context.items c = some ic ∧
      procstat_item_name ic = some n ∧ fuse_dirent_size n.length ≤ DEFAULT_BUFER_SIZE)
    (htot : (listing context d.children 0).length < 2 ^ 30) :
    fuse_readdir context (fun _ => true) ino size off =
      .ok (context, reply.buf
        (if off < (listing context d.children 0).length then
          ((listing context d.children 0).drop off).take
            (min size ((listing context d.children 0).length - off))
        else [])) := by
  obtain ⟨s', hs', hbuf⟩ := readdir_loop_listing context d.children
    { reply_buffer := [], bufsize := 0, alloc_factor := 0 } hch (by simpa using htot) (by simp)
    (Or.inl ⟨rfl, rfl⟩)
  simp only [List.nil_append, List.length_nil] at hbuf
  simp only [fuse_readdir, hd, hreg, hdir, Bool.not_true, Bool.false_eq_true, ↓reduceIte, hs',
    hbuf]
  split <;> rfl

theorem ex_grabbed_reachable : reachable (ex_state 2 3 1) := by
  refine ⟨1, 1000, 0, 0, [op.create_directory none [97] (some 2000),
    op.create_directory (some 2000) [98] (some 3000), op.lookup FUSE_ROOT_ID [97]],
    ex_fresh, ex_fresh_created, ?_, ?_⟩
  · simp only [allocs_fresh, alloc_fresh, ex_step_create_a, ex_step_create_b, and_true,
      true_and]
    refine ⟨⟨rfl, by decide⟩, ⟨rfl, by decide⟩, ?_⟩
    split <;> trivial
  · simp only [run, ex_step_create_a, ex_step_create_b, ex_step_lookup_a 1 1 (by decide),
      Int.reduceAdd]

/-! ## The hash pre-filter -/

theorem first_named_cons (h : item_heap) (name : List Nat) (c : Nat) (rest : List Nat) :
    first_named h name (c :: rest) =
      if (h c).bind procstat_item_name = some name then some c
      else first_named h name rest := by
  unfold first_named
  rw [List.find?_cons]
  by_cases hc : (h c).bind procstat_item_name = some name
  · simp [hc]
  · simp [hc]

/-- On children that are live, bear a name and store its hash, the scan of
`lookup_item_locked` with the hash of `name` finds what the scan by name finds. -/
theorem lookup_scan_first_named (h : item_heap) (name : List Nat) :
    ∀ cs, (∀ c ∈ cs, ∃ ic n, h c = some ic ∧ procstat_item_name ic = some n ∧
        ic.name_hash = string_hash n) →
      lookup_scan h (some name) (string_hash name) cs = .ok (first_named h name cs) := by
  intro cs
  induction cs with
  | nil => intro _; rfl
  | cons c rest ih =>
    intro hch
    obtain ⟨ic, n, hic, hn, hh⟩ := hch c (by simp)
    have hrest := ih (fun x hx => hch x (by simp [hx]))
    have hb : (h c).bind procstat_item_name = some n := by rw [hic]; exact hn
    rw [first_named_cons, hb]
    simp only [lookup_scan, hic, hn]
    by_cases hnn : n = name
    · subst hnn
      simp [hh]
    · have hne : ¬ (some n = some name) := fun e => hnn (Option.some.inj e)
      simp only [hne, hnn, ↓reduceIte]
      split
      · exact hrest
      · exact hrest

theorem ex_clash_one_created :
    procstat_create_directory ex_fresh none [65, 97] (some 2000) =
      .ok (ex_clash_one, .ok 2000) := by
  rw [create_directory_ok ex_fresh none [65, 97] 2000 (ex_item [46] 1 3 []) rfl rfl rfl
    (by simp [valid_name]) (by intro c hc; simp [ex_item] at hc)]
  simp only [ex_clash_one, Except.ok.injEq, Prod.mk.injEq, procstat_context.mk.injEq, and_true]
  refine ⟨rfl, ?_, rfl, rfl⟩
  funext q
  by_cases h1000 : q = 1000
  · subst h1000; rfl
  · by_cases h2000 : q = 2000
    · subst h2000; rfl
    · simp [heap_set, h1000, h2000, ex_fresh]

theorem ex_clash_created :
    procstat_create_directory ex_clash_one none [66, 66] (some 3000) =
      .ok (ex_clash, .ok 3000) := by
  rw [create_directory_ok ex_clash_one none [66, 66] 3000 (ex_item [46] 1 3 [2000]) rfl rfl rfl
    (by simp [valid_name])
    (by intro c hc
        have : c = 2000 := by simpa [ex_item] using hc
        subst this
        exact ⟨ex_item [65, 97] 1 3 [], [65, 97], rfl, rfl, by decide⟩)]
  simp only [ex_clash, Except.ok.injEq, Prod.mk.injEq, procstat_context.mk.injEq, and_true]
  refine ⟨rfl, ?_, rfl, rfl⟩
  funext q
  by_cases h1000 : q = 1000
  · subst h1000; rfl
  · by_cases h2000 : q = 2000
    · subst h2000; rfl
    · by_cases h3000 : q = 3000
      · subst h3000; rfl
      · simp [heap_set, h1000, h2000, h3000, ex_clash_one]

theorem ex_clash_reachable : reachable_by_strings ex_clash := by
  refine ⟨1, 1000, 0, 0, [op.create_directory none [65, 97] (some 2000),
      op.create_directory none [66, 66] (some 3000)], ex_fresh, ex_fresh_created, ?_, ?_, ?_⟩
  · simp only [allocs_fresh, alloc_fresh, step, ex_clash_one_created, ex_clash_created,
      Except.map, and_true]
    exact ⟨⟨rfl, by decide⟩, rfl, by decide⟩
  · intro o ho
    simp only [List.mem_cons, List.mem_singleton, List.not_mem_nil, or_false] at ho
    rcases ho with rfl | rfl <;> simp [op_strings, c_string]
  · simp only [run, step, ex_clash_one_created, ex_clash_created, Except.map]

/-! ## The capacity of the listing buffer -/

theorem readdir_writes_cons (context : procstat_context) (c : Nat) (rest : List Nat)
    (offset bufsize alloc_factor : Nat) (ic : procstat_item) (n : List Nat)
    (hic : context.items c = some ic) (hn : procstat_item_name ic = some n) :
    readdir_writes context (c :: rest) offset bufsize alloc_factor =
      if bufsize ≤ fuse_dirent_size n.length + offset then
        if INT_MAX < DEFAULT_BUFER_SIZE * 2 ^ alloc_factor then []
        else
          (offset, fuse_dirent_size n.length, DEFAULT_BUFER_SIZE * 2 ^ alloc_factor) ::
            readdir_writes context rest (offset + fuse_dirent_size n.length)
              (DEFAULT_BUFER_SIZE * 2 ^ alloc_factor) (alloc_factor + 1)
      else
        (offset, fuse_dirent_size n.length, bufsize) ::
          readdir_writes context rest (offset + fuse_dirent_size n.length) bufsize
            alloc_factor := by
  simp only [readdir_writes, hic, hn, fuse_add_direntry_size]

/-- When every record is at most `DEFAULT_BUFER_SIZE` bytes, every write of the loop of
`fuse_readdir` finds the capacity it needs. -/
theorem readdir_writes_fit (context : procstat_context) :
    ∀ (cs : List Nat) (offset bufsize alloc_factor : Nat),
      (∀ c ∈ cs, ∃ ic n, context.items c = some ic ∧ procstat_item_name ic = some n ∧
        fuse_dirent_size n.length ≤ DEFAULT_BUFER_SIZE) →
      offset ≤ bufsize →
      bufsize + DEFAULT_BUFER_SIZE ≤ DEFAULT_BUFER_SIZE * 2 ^ alloc_factor →
      ∀ w ∈ readdir_writes context cs offset bufsize alloc_factor, w.1 + w.2.1 ≤ w.2.2 := by
  intro cs
  induction cs with
  | nil => intro _ _ _ _ _ _ w hw; simp [readdir_writes] at hw
  | cons c rest ih =>
    intro offset bufsize alloc_factor hch hoff hcap w hw
    obtain ⟨ic, n, hic, hn, hsz⟩ := hch c (by simp)
    have hrest : ∀ x ∈ rest, ∃ ix m, context.items x = some ix ∧
        procstat_item_name ix = some m ∧ fuse_dirent_size m.length ≤ DEFAULT_BUFER_SIZE :=
      fun x hx => hch x (by simp [hx])
    have hpow : 1 ≤ 2 ^ alloc_factor := Nat.one_le_two_pow
    have hmul : DEFAULT_BUFER_SIZE * 1 ≤ DEFAULT_BUFER_SIZE * 2 ^ alloc_factor :=
      Nat.mul_le_mul_left _ hpow
    rw [readdir_writes_cons context c rest offset bufsize alloc_factor ic n hic hn] at hw
    by_cases hgrow : bufsize ≤ fuse_dirent_size n.length + offset
    · simp only [hgrow, ↓reduceIte] at hw
      by_cases hint : INT_MAX < DEFAULT_BUFER_SIZE * 2 ^ alloc_factor
      · simp [hint] at hw
      · simp only [hint, ↓reduceIte, List.mem_cons] at hw
        rcases hw with rfl | hw
        · show offset + fuse_dirent_size n.length ≤ DEFAULT_BUFER_SIZE * 2 ^ alloc_factor
          omega
        · exact ih _ _ _ hrest (by omega)
            (by simp only [Nat.pow_succ]; rw [← Nat.mul_assoc]; omega) w hw
    · simp only [hgrow, ↓reduceIte, List.mem_cons] at hw
      rcases hw with rfl | hw
      · show offset + fuse_dirent_size n.length ≤ bufsize
        omega
      · exact ih _ _ _ hrest (by omega) hcap w hw

/-- The loop of `fuse_readdir` over live children that bear names, when every `realloc`
succeeds: it fills the buffer if there is a write for every child (no capacity
overflows the `int`) and every write finds the capacity it needs, and it writes past the
allocation if one write does not. -/
theorem readdir_loop_writes (context : procstat_context) :
    ∀ (cs : List Nat) (s : readdir_state),
      (∀ c ∈ cs, ∃ ic n, context.items c = some ic ∧ procstat_item_name ic = some n) →
      ((readdir_writes context cs s.reply_buffer.length s.bufsize s.alloc_factor).length =
          cs.length →
        (∀ w ∈ readdir_writes context cs s.reply_buffer.length s.bufsize s.alloc_factor,
          w.1 + w.2.1 ≤ w.2.2) →
        ∃ s', readdir_loop context (fun _ => true) cs s = .ok (.filled s')) ∧
      ((∃ w ∈ readdir_writes context cs s.reply_buffer.length s.bufsize s.alloc_factor,
          w.2.2 < w.1 + w.2.1) →
        readdir_loop context (fun _ => true) cs s = .error .invalid_access) := by
  intro cs
  induction cs with
  | nil =>
    intro s _
    refine ⟨fun _ _ => ⟨s, rfl⟩, ?_⟩
    rintro ⟨w, hw, _⟩
    simp [readdir_writes] at hw
  | cons c rest ih =>
    intro s hch
    obtain ⟨ic, n, hic, hn⟩ := hch c (by simp)
    have hrest : ∀ x ∈ rest, ∃ ix m, context.items x = some ix ∧
        procstat_item_name ix = some m := fun x hx => hch x (by simp [hx])
    have hlen := fuse_add_direntry_length n (fill_item_stats context c ic)
      (s.reply_buffer.length + fuse_dirent_size n.length)
    rw [readdir_writes_cons context c rest _ _ _ ic n hic hn]
    simp only [readdir_loop, hic, hn, fuse_add_direntry_size]
    by_cases hgrow : s.bufsize ≤ fuse_dirent_size n.length + s.reply_buffer.length
    · simp only [hgrow, ↓reduceIte]
      by_cases hint : INT_MAX < DEFAULT_BUFER_SIZE * 2 ^ s.alloc_factor
      · simp only [hint, ↓reduceIte]
        refine ⟨fun hl => ?_, ?_⟩
        · simp at hl
        · rintro ⟨w, hw, _⟩
          simp at hw
      · simp only [hint, ↓reduceIte]
        by_cases hfit : DEFAULT_BUFER_SIZE * 2 ^ s.alloc_factor <
            s.reply_buffer.length + fuse_dirent_size n.length
        · simp only [hfit, ↓reduceIte]
          refine ⟨fun _ hall => ?_, fun _ => trivial⟩
          have := hall _ (List.mem_cons_self _ _)
          simp only at this
          omega
        · simp only [hfit, ↓reduceIte]
          have key := ih
            ⟨s.reply_buffer ++ fuse_add_direntry n (fill_item_stats context c ic)
                (s.reply_buffer.length + fuse_dirent_size n.length),
              DEFAULT_BUFER_SIZE * 2 ^ s.alloc_factor, s.alloc_factor + 1⟩ hrest
          simp only [List.length_append, hlen] at key
          refine ⟨fun hl hall => key.1 (by simpa using hl)
            (fun w hw => hall w (List.mem_cons_of_mem _ hw)), ?_⟩
          rintro ⟨w, hw, hlt⟩
          rcases List.mem_cons.mp hw with rfl | hw'
          · simp only at hlt; omega
          · exact key.2 ⟨w, hw', hlt⟩
    · simp only [hgrow, ↓reduceIte]
      have key := ih
        ⟨s.reply_buffer ++ fuse_add_direntry n (fill_item_stats context c ic)
            (s.reply_buffer.length + fuse_dirent_size n.length), s.bufsize, s.alloc_factor⟩
        hrest
      simp only [List.length_append, hlen] at key
      refine ⟨fun hl hall => key.1 (by simpa using hl)
        (fun w hw => hall w (List.mem_cons_of_mem _ hw)), ?_⟩
      rintro ⟨w, hw, hlt⟩
      rcases List.mem_cons.mp hw with rfl | hw'
      · simp only at hlt; omega
      · exact key.2 ⟨w, hw', hlt⟩

/-! ## Counts up to `INT_MAX` -/

theorem run_append (fuel : Nat) (ops1 ops2 : List op) :
    ∀ (c c1 : procstat_context), run fuel c ops1 = .ok c1 →
      run fuel c (ops1 ++ ops2) = run fuel c1 ops2 := by
  induction ops1 with
  | nil => intro c c1 h; cases h; rfl
  | cons o rest ih =>
    intro c c1 h
    simp only [run, List.cons_append] at h ⊢
    split at h
    · cases h
    · rename_i c2 hc2
      exact ih c2 c1 h

theorem allocs_fresh_append (fuel : Nat) (ops1 ops2 : List op) :
    ∀ (c c1 : procstat_context), allocs_fresh fuel c ops1 → run fuel c ops1 = .ok c1 →
      allocs_fresh fuel c1 ops2 → allocs_fresh fuel c (ops1 ++ ops2) := by
  induction ops1 with
  | nil => intro c c1 _ h h2; cases h; exact h2
  | cons o rest ih =>
    intro c c1 h1 h h2
    simp only [run] at h
    simp only [allocs_fresh, List.cons_append] at h1 ⊢
    split at h
    · cases h
    · rename_i c2 hc2
      rw [hc2] at h1
      exact ⟨h1.1, ih c2 c1 h1.2 h h2⟩

/-- The kernel looks "a" up `n` times. -/
theorem ex_run_lookups_a (rb : Int) (n : Nat) :
    ∀ (ra : Int), ra + n ≤ (INT_MAX : Int) →
      run 1 (ex_state ra 3 rb) (List.replicate n (op.lookup FUSE_ROOT_ID [97])) =
        .ok (ex_state (ra + n) 3 rb) ∧
      allocs_fresh 1 (ex_state ra 3 rb) (List.replicate n (op.lookup FUSE_ROOT_ID [97])) := by
  induction n with
  | zero => intro ra _; simp [run, allocs_fresh]
  | succ n ih =>
    intro ra hra
    have hlt : ra < (INT_MAX : Int) := by push_cast at hra; omega
    obtain ⟨h1, h2⟩ := ih (ra + 1) (by push_cast at hra ⊢; omega)
    have e : ra + 1 + (n : Int) = ra + ((n + 1 : Nat) : Int) := by push_cast; ring
    rw [e] at h1
    simp only [List.replicate_succ, run, allocs_fresh, alloc_fresh, ex_step_lookup_a ra rb hlt,
      true_and]
    exact ⟨h1, h2⟩

/-- The kernel looks "b" up `n` times through "a". -/
theorem ex_run_lookups_b (ra : Int) (fa : Nat) (hfa : fa &&& 2 ≠ 0) (n : Nat) :
    ∀ (rb : Int), rb + n ≤ (INT_MAX : Int) →
      run 1 (ex_state ra fa rb) (List.replicate n (op.lookup 2000 [98])) =
        .ok (ex_state ra fa (rb + n)) ∧
      allocs_fresh 1 (ex_state ra fa rb) (List.replicate n (op.lookup 2000 [98])) := by
  induction n with
  | zero => intro rb _; simp [run, allocs_fresh]
  | succ n ih =>
    intro rb hrb
    have hlt : rb < (INT_MAX : Int) := by push_cast at hrb; omega
    obtain ⟨h1, h2⟩ := ih (rb + 1) (by push_cast at hrb ⊢; omega)
    have e : rb + 1 + (n : Int) = rb + ((n + 1 : Nat) : Int) := by push_cast; ring
    rw [e] at h1
    simp only [List.replicate_succ, run, allocs_fresh, alloc_fresh,
      ex_step_lookup_b ra fa rb hfa hlt, true_and]
    exact ⟨h1, h2⟩

/-- Every example tree with "a" and "b" registered and counts between 1 and `INT_MAX`
is reachable: create "a" and "b", then look each of them up as often as it takes. -/
theorem ex_state_reachable (ra rb : Int) (ha : 1 ≤ ra) (ha' : ra ≤ (INT_MAX : Int))
    (hb : 1 ≤ rb) (hb' : rb ≤ (INT_MAX : Int)) : reachable (ex_state ra 3 rb) := by
  obtain ⟨na, hna⟩ : ∃ na : Nat, ra = 1 + na := ⟨(ra - 1).toNat, by omega⟩
  obtain ⟨nb, hnb⟩ : ∃ nb : Nat, rb = 1 + nb := ⟨(rb - 1).toNat, by omega⟩
  obtain ⟨a1, a2⟩ := ex_run_lookups_a 1 na 1 (by omega)
  obtain ⟨b1, b2⟩ := ex_run_lookups_b (1 + na) 3 (by decide) nb 1 (by omega)
  rw [← hna] at a1 b1 b2
  rw [← hnb] at b1
  have hcreate : run 1 ex_fresh [op.create_directory none [97] (some 2000),
      op.create_directory (some 2000) [98] (some 3000)] = .ok (ex_state 1 3 1) := by
    simp only [run, ex_step_create_a, ex_step_create_b]
  have hcf : allocs_fresh 1 ex_fresh [op.create_directory none [97] (some 2000),
      op.create_directory (some 2000) [98] (some 3000)] := by
    simp only [allocs_fresh, alloc_fresh, ex_step_create_a, ex_step_create_b, and_true]
    exact ⟨⟨rfl, by decide⟩, rfl, by decide⟩
  have hrun2 : run 1 ex_fresh ([op.create_directory none [97] (some 2000),
      op.create_directory (some 2000) [98] (some 3000)] ++
        List.replicate na (op.lookup FUSE_ROOT_ID [97])) = .ok (ex_state ra 3 1) := by
    rw [run_append 1 _ _ ex_fresh _ hcreate]; exact a1
  refine ⟨1, 1000, 0, 0, ([op.create_directory none [97] (some 2000),
      op.create_directory (some 2000) [98] (some 3000)] ++
        List.replicate na (op.lookup FUSE_ROOT_ID [97])) ++
        List.replicate nb (op.lookup 2000 [98]), ex_fresh, ex_fresh_created, ?_, ?_⟩
  · exact allocs_fresh_append 1 _ _ ex_fresh _
      (allocs_fresh_append 1 _ _ ex_fresh _ hcf hcreate a2) hrun2 b2
  · rw [run_append 1 _ _ ex_fresh _ hrun2]; exact b1

/-! ## The root stays -/

theorem stays_root_heap_set (h : item_heap) (r q : Nat) (it it' : procstat_item)
    (hs : stays_root h r) (hq : h q = some it) (hc : it'.children = it.children)
    (hf : q = r → item_registered it' = true) : stays_root (heap_set h q it') r := by
  obtain ⟨⟨ir, hir, hreg⟩, hun⟩ := hs
  constructor
  · by_cases hqr : q = r
    · subst hqr; exact ⟨it', heap_set_same _ _ _, hf rfl⟩
    · exact ⟨ir, by rw [heap_set_other _ _ _ _ (Ne.symm hqr)]; exact hir, hreg⟩
  · intro x ix hx
    by_cases hxq : x = q
    · subst hxq; rw [heap_set_same] at hx; cases hx; rw [hc]; exact hun x it hq
    · rw [heap_set_other _ _ _ _ hxq] at hx; exact hun x ix hx

theorem stays_root_list_del (h : item_heap) (r q : Nat) (hs : stays_root h r) :
    stays_root (list_del h q) r := by
  obtain ⟨⟨ir, hir, hreg⟩, hun⟩ := hs
  constructor
  · exact ⟨unlink q ir, by rw [list_del_apply, hir]; rfl, hreg⟩
  · intro x ix hx hm
    obtain ⟨iy, hy, e⟩ := list_del_some h q x ix hx
    subst e
    exact hun x iy hy ((mem_unlink q r iy).mp hm).1

theorem stays_root_free (h : item_heap) (r q : Nat) (hqr : q ≠ r) (hs : stays_root h r) :
    stays_root (heap_free (list_del h q) q) r := by
  obtain ⟨⟨ir, hir, hreg⟩, hun⟩ := stays_root_list_del h r q hs
  constructor
  · exact ⟨ir, by rw [heap_free_other _ _ _ (Ne.symm hqr)]; exact hir, hreg⟩
  · intro x ix hx
    by_cases hxq : x = q
    · subst hxq; rw [heap_free_same] at hx; cases hx
    · rw [heap_free_other _ _ _ hxq] at hx; exact hun x ix hx

/-- The loop of `item_put_children_locked` over items other than `r` keeps `r`, when
every release of the loop does. -/
theorem put_children_loop_stays (r : Nat) (put : item_heap → Nat → Except fault item_heap)
    (hput : ∀ h c h', c ≠ r → stays_root h r → put h c = .ok h' → stays_root h' r) :
    ∀ cs h h', (∀ c ∈ cs, c ≠ r) → stays_root h r →
      item_put_children_loop put cs h = .ok h' → stays_root h' r := by
  intro cs
  induction cs with
  | nil => intro h h' _ hs hr; cases hr; exact hs
  | cons c rest ih =>
    intro h h' hcs hs hr
    simp only [item_put_children_loop] at hr
    split at hr
    · cases hr
    · rename_i ic hic
      split at hr
      · cases hr
      · rename_i h1 h1eq
        have hcr : c ≠ r := hcs c (by simp)
        exact ih h1 h' (fun x hx => hcs x (by simp [hx]))
          (hput _ c h1 hcr
            (stays_root_list_del _ r c
              (stays_root_heap_set h r c ic { ic with parent := none } hs hic rfl
                (fun e => absurd e hcr))) h1eq) hr

/-- A release of an item other than `r` keeps `r` live, registered and unlinked. -/
theorem item_put_locked_stays (r : Nat) :
    ∀ fuel h p h', p ≠ r → stays_root h r → item_put_locked fuel h p = .ok h' →
      stays_root h' r := by
  intro fuel
  induction fuel with
  | zero => intro h p h' _ _ hr; cases hr
  | succ fuel ih =>
    intro h p h' hpr hs hr
    simp only [item_put_locked] at hr
    split at hr
    · cases hr
    · rename_i it hit
      split at hr
      · cases hr
      · split at hr
        · cases hr
          exact stays_root_heap_set h r p it _ hs hit rfl (fun e => absurd e hpr)
        · have hs1 : stays_root (heap_set h p
              { it with refcnt := it.refcnt - 1, flags := clear_registered it.flags }) r :=
            stays_root_heap_set h r p it _ hs hit rfl (fun e => absurd e hpr)
          have hch : ∀ c ∈ it.children, c ≠ r := by
            intro c hc e
            exact hs.2 p it hit (e ▸ hc)
          split at hr
          · split at hr
            · cases hr
            · rename_i h2 h2eq
              have hs2 := put_children_loop_stays r (item_put_locked fuel)
                (fun g c g' hc hg hput => ih g c g' hc hg hput) _ _ h2 hch hs1 h2eq
              rw [free_item_ok _ _ _ hr]
              exact stays_root_free _ r p hpr hs2
          · rw [free_item_ok _ _ _ hr]
            exact stays_root_free _ r p hpr hs1

theorem lookup_scan_mem (h : item_heap) (nm : Option (List Nat)) (hash : Nat) (item : Nat) :
    ∀ cs, lookup_scan h nm hash cs = .ok (some item) → item ∈ cs := by
  intro cs
  induction cs with
  | nil => intro hs; simp [lookup_scan] at hs
  | cons x rest ih =>
    intro hs
    simp only [lookup_scan] at hs
    split at hs
    · cases hs
    · split at hs
      · exact List.mem_cons_of_mem _ (ih hs)
      · split at hs
        · split at hs
          · cases hs; exact List.mem_cons_self _ _
          · exact List.mem_cons_of_mem _ (ih hs)
        · cases hs

theorem lookup_item_locked_mem (h : item_heap) (parent : Nat) (nm : Option (List Nat))
    (hash : Nat) (item : Nat) (hl : lookup_item_locked h parent nm hash = .ok (some item)) :
    ∃ d, h parent = some d ∧ item ∈ d.children := by
  unfold lookup_item_locked at hl
  split at hl
  · cases hl
  · rename_i d hd
    split at hl
    · exact ⟨d, hd, lookup_scan_mem h nm hash item d.children hl⟩
    · cases hl

/-- The item of an entry that `fuse_lookup` replies with is a child of the directory
behind the handle. -/
theorem fuse_lookup_entry_child (context : procstat_context) (parent_inode : Nat)
    (name : List Nat) (c' : procstat_context) (ino : Nat) (st : stat)
    (hr : fuse_lookup context parent_inode name = .ok (c', reply.entry ino st)) :
    ∃ d, context.items (fuse_inode_to_item context parent_inode) = some d ∧
      ino ∈ d.children := by
  unfold fuse_lookup at hr
  simp only at hr
  split at hr
  · cases hr
  · cases hr
  · rename_i item hl
    split at hr
    · cases hr
    · split at hr
      · cases hr
      · split at hr
        · cases hr
        · cases hr
          exact lookup_item_locked_mem _ _ _ _ _ hl

theorem clear_registered_heap_stays (h : item_heap) (r p : Nat) (ip : procstat_item)
    (hpr : p ≠ r) (hs : stays_root h r) (hp : h p = some ip) :
    stays_root (heap_set h p { ip with flags := clear_registered ip.flags }) r :=
  stays_root_heap_set h r p ip _ hs hp rfl (fun e => absurd e hpr)

/-- A call that returns keeps the root live and registered, when the forgets give back
references that the kernel holds and the kernel holds none on the root. -/
theorem step_root_stays (fuel : Nat) (context : procstat_context) (held : Nat → Nat) (o : op)
    (c' : procstat_context) (hinv : tree_inv context.items)
    (hs : stays_root context.items context.root) (hheld : held context.root = 0)
    (hfresh : alloc_fresh context o) (hk : forget_conforms context held o)
    (hstep : step fuel context o = .ok c') :
    stays_root c'.items c'.root ∧ held_after context held o c'.root = 0 := by
  have hroot := step_root fuel context o c' hinv.2 hfresh (tree_inv_unreferenced _ hinv) hstep
  rw [hroot]
  cases o with
  | create_directory parent name calloc =>
    refine ⟨?_, hheld⟩
    simp only [step, Except.map] at hstep
    split at hstep
    · cases hstep
    · rename_i res hres
      cases hstep
      obtain ⟨c1, r⟩ := res
      rcases create_directory_effect context parent name calloc c1 r hres
        (by intro a e; subst e; exact hfresh) (tree_inv_unreferenced _ hinv) with
        e | ⟨a, par, d, h', hca, ha, hd, hpa, e, eh⟩
      · rw [e]; exact hs
      · rw [e, eh]
        subst hca
        have har : a ≠ context.root := hfresh.2
        show stays_root (heap_set (heap_set context.items par
          { d with children := d.children ++ [a] }) a (new_directory name)) context.root
        obtain ⟨⟨ir, hir, hreg⟩, hun⟩ := hs
        constructor
        · rw [heap_set_other _ _ _ _ (Ne.symm har)]
          by_cases hpr : par = context.root
          · subst hpr
            rw [heap_set_same]
            rw [hd] at hir; cases hir
            exact ⟨_, rfl, hreg⟩
          · rw [heap_set_other _ _ _ _ (Ne.symm hpr)]
            exact ⟨ir, hir, hreg⟩
        · intro q iq hq hm
          by_cases hqa : q = a
          · subst hqa; rw [heap_set_same] at hq; cases hq
            simp [new_directory, fresh_directory] at hm
          · rw [heap_set_other _ _ _ _ hqa] at hq
            by_cases hqp : q = par
            · subst hqp; rw [heap_set_same] at hq; cases hq
              rcases List.mem_append.mp hm with h1 | h1
              · exact hun q d hd h1
              · exact har (List.mem_singleton.mp h1).symm
            · rw [heap_set_other _ _ _ _ hqp] at hq
              exact hun q iq hq hm
  | remove item =>
    refine ⟨?_, hheld⟩
    obtain ⟨ip, h', hip, e, hcase⟩ := remove_effect fuel context item c' hstep hinv.2
    rw [e]
    show stays_root h' context.root
    rcases hcase with ⟨hr, hput⟩ | ⟨hr, hput⟩
    · subst hr
      unfold item_put_children_locked at hput
      rw [hip] at hput
      simp only at hput
      exact put_children_loop_stays context.root (item_put_locked fuel)
        (fun g c g' hc hg hp => item_put_locked_stays context.root fuel g c g' hc hg hp)
        ip.children context.items h' (fun c hc e => hs.2 context.root ip hip (e ▸ hc)) hs hput
    · exact item_put_locked_stays context.root fuel _ item h' (Ne.symm hr)
        (clear_registered_heap_stays _ _ _ ip (Ne.symm hr) hs hip) hput
  | remove_by_name parent name =>
    refine ⟨?_, hheld⟩
    simp only [step, Except.map] at hstep
    split at hstep
    · cases hstep
    · rename_i res hres
      cases hstep
      obtain ⟨c1, r⟩ := res
      rcases remove_by_name_effect fuel context parent name c1 r hres with
        ⟨e, _⟩ | ⟨par, item, ip, h', _, hl, hip, e, hput⟩
      · rw [e]; exact hs
      · rw [e]
        show stays_root h' context.root
        obtain ⟨d, hd, hm⟩ := lookup_item_locked_mem _ _ _ _ _ hl
        have hir : item ≠ context.root := fun e => hs.2 par d hd (e ▸ hm)
        exact item_put_locked_stays context.root fuel _ item h' hir
          (clear_registered_heap_stays _ _ _ ip hir hs hip) hput
  | lookup parent_inode name =>
    simp only [step, Except.map] at hstep
    split at hstep
    · cases hstep
    · rename_i res hres
      cases hstep
      obtain ⟨c1, r⟩ := res
      constructor
      · rcases fuse_lookup_effect context parent_inode name c1 r hres with
          e | ⟨x, ix, hx, e⟩
        · rw [e]; exact hs
        · rw [e]
          exact stays_root_heap_set context.items context.root x ix _ hs hx rfl
            (fun e => by
              obtain ⟨⟨ir, hir, hreg⟩, _⟩ := hs
              rw [e, hir] at hx; cases hx; exact hreg)
      · simp only [held_after, hres]
        cases r with
        | entry ino st =>
          obtain ⟨d, hd, hm⟩ := fuse_lookup_entry_child context parent_inode name c1 ino st hres
          have hir : context.root ≠ ino := fun e => hs.2 _ d hd (e ▸ hm)
          simp only [hir, ↓reduceIte]
          exact hheld
        | _ => exact hheld
  | forget ino nlookup =>
    simp only [step, Except.map] at hstep
    split at hstep
    · cases hstep
    · rename_i res hres
      cases hstep
      obtain ⟨c1, r⟩ := res
      obtain ⟨it, h', hit, hle, e, hcase⟩ := fuse_forget_effect context ino nlookup c1 r hres
      have hk' : nlookup ≤ held (fuse_inode_to_item context ino) := hk
      constructor
      · rw [e]
        show stays_root h' context.root
        by_cases hir : fuse_inode_to_item context ino = context.root
        · have hn : nlookup = 0 := by rw [hir, hheld] at hk'; omega
          subst hn
          obtain ⟨⟨rk, hwf⟩, _⟩ := hinv
          have hpos := hwf.refcnt_pos _ it hit
          rcases hcase with ⟨_, eh⟩ | ⟨hz, _⟩
          · rw [eh]
            exact stays_root_heap_set context.items context.root _ it _ hs hit rfl
              (fun _ => by
                obtain ⟨⟨ir, hir', hreg⟩, _⟩ := hs
                rw [hir, hir'] at hit; cases hit; exact hreg)
          · exfalso; simp at hz; omega
        · rcases hcase with ⟨_, eh⟩ | ⟨_, eh⟩
          · rw [eh]
            exact stays_root_heap_set context.items context.root _ it _ hs hit rfl
              (fun e => absurd e hir)
          · rw [eh]
            exact stays_root_free _ context.root _ hir
              (stays_root_heap_set context.items context.root _ it _ hs hit rfl
                (fun e => absurd e hir))
      · simp only [held_after]
        split
        · rw [hheld]; exact Nat.zero_sub _
        · exact hheld
  | getattr ino =>
    refine ⟨?_, hheld⟩
    simp only [step, Except.map] at hstep
    split at hstep
    · cases hstep
    · rename_i res hres
      cases hstep
      rw [fuse_getattr_effect context ino res.1 res.2 hres]; exact hs
  | opendir ino =>
    refine ⟨?_, hheld⟩
    simp only [step, Except.map] at hstep
    split at hstep
    · cases hstep
    · rename_i res hres
      cases hstep
      rw [fuse_opendir_effect context ino res.1 res.2 hres]; exact hs
  | readdir ino size off =>
    refine ⟨?_, hheld⟩
    simp only [step, Except.map] at hstep
    split at hstep
    · cases hstep
    · rename_i res hres
      cases hstep
      rw [fuse_readdir_effect context _ ino size off res.1 res.2 hres]; exact hs

theorem run_root_stays (fuel : Nat) (ops : List op) :
    ∀ (context c' : procstat_context) (held : Nat → Nat), tree_inv context.items →
      stays_root context.items context.root → held context.root = 0 →
      allocs_fresh fuel context ops → forgets_conform fuel context held ops →
      run fuel context ops = .ok c' →
      c'.root = context.root ∧ stays_root c'.items c'.root := by
  induction ops with
  | nil => intro context c' held _ hs _ _ _ hr; cases hr; exact ⟨rfl, hs⟩
  | cons o rest ih =>
    intro context c' held hinv hs hheld hf hk hr
    simp only [run] at hr
    simp only [allocs_fresh] at hf
    simp only [forgets_conform] at hk
    split at hr
    · cases hr
    · rename_i c1 hc1
      rw [hc1] at hf hk
      have h1 := step_root_stays fuel context held o c1 hinv hs hheld hf.1 hk.1 hc1
      have hroot := step_root fuel context o c1 hinv.2 hf.1 (tree_inv_unreferenced _ hinv) hc1
      have h2 := ih c1 c' (held_after context held o)
        (step_invariant fuel context o c1 hinv hf.1 hc1) h1.1 h1.2 hf.2 hk.2 hr
      exact ⟨by rw [h2.1, hroot], h2.2⟩

theorem procstat_create_stays (addr uid gid : Nat) (c0 : procstat_context)
    (h0 : procstat_create addr uid gid = .ok c0) :
    c0.root = addr ∧ stays_root c0.items c0.root := by
  have hun := (procstat_create_names addr uid gid c0 h0).2
  have key := procstat_create_items addr uid gid c0 h0
  simp only [procstat_create, init_directory_zeroed, register_item, heap_set_same] at h0
  cases h0
  refine ⟨rfl, ⟨_, heap_set_same _ _ _, rfl⟩, hun⟩

/-! ## Counts stay in the `int` -/

theorem counts_heap_set (h : item_heap) (q : Nat) (it : procstat_item)
    (hc : counts_in_int h) (hle : it.refcnt ≤ (INT_MAX : Int)) :
    counts_in_int (heap_set h q it) := by
  intro a ia ha
  by_cases haq : a = q
  · subst haq; rw [heap_set_same] at ha; cases ha; exact hle
  · rw [heap_set_other _ _ _ _ haq] at ha; exact hc a ia ha

theorem counts_list_del (h : item_heap) (q : Nat) (hc : counts_in_int h) :
    counts_in_int (list_del h q) := by
  intro a ia ha
  obtain ⟨iy, hy, e⟩ := list_del_some h q a ia ha
  subst e
  exact hc a iy hy

theorem counts_heap_free (h : item_heap) (q : Nat) (hc : counts_in_int h) :
    counts_in_int (heap_free h q) := by
  intro a ia ha
  by_cases haq : a = q
  · subst haq; rw [heap_free_same] at ha; cases ha
  · rw [heap_free_other _ _ _ haq] at ha; exact hc a ia ha

theorem put_children_loop_counts (put : item_heap → Nat → Except fault item_heap)
    (hput : ∀ h c h', counts_in_int h → put h c = .ok h' → counts_in_int h') :
    ∀ cs h h', counts_in_int h → item_put_children_loop put cs h = .ok h' →
      counts_in_int h' := by
  intro cs
  induction cs with
  | nil => intro h h' hc hr; cases hr; exact hc
  | cons c rest ih =>
    intro h h' hc hr
    simp only [item_put_children_loop] at hr
    split at hr
    · cases hr
    · rename_i ic hic
      split at hr
      · cases hr
      · rename_i h1 h1eq
        exact ih h1 h' (hput _ c h1
          (counts_list_del _ c (counts_heap_set h c { ic with parent := none } hc (hc c ic hic)))
          h1eq) hr

/-- A release raises no count. -/
theorem item_put_locked_counts :
    ∀ fuel h p h', counts_in_int h → item_put_locked fuel h p = .ok h' → counts_in_int h' := by
  intro fuel
  induction fuel with
  | zero => intro h p h' _ hr; cases hr
  | succ fuel ih =>
    intro h p h' hc hr
    simp only [item_put_locked] at hr
    split at hr
    · cases hr
    · rename_i it hit
      have hle : it.refcnt - 1 ≤ (INT_MAX : Int) := by have := hc p it hit; omega
      split at hr
      · cases hr
      · split at hr
        · cases hr
          exact counts_heap_set h p _ hc hle
        · have hc1 : counts_in_int (heap_set h p
              { it with refcnt := it.refcnt - 1, flags := clear_registered it.flags }) :=
            counts_heap_set h p _ hc hle
          split at hr
          · split at hr
            · cases hr
            · rename_i h2 h2eq
              have hc2 := put_children_loop_counts (item_put_locked fuel)
                (fun g c g' hg hp => ih g c g' hg hp) _ _ h2 hc1 h2eq
              rw [free_item_ok _ _ _ hr]
              exact counts_heap_free _ p (counts_list_del _ p hc2)
          · rw [free_item_ok _ _ _ hr]
            exact counts_heap_free _ p (counts_list_del _ p hc1)

/-- The count that `fuse_lookup` raises is below `INT_MAX`. -/
theorem fuse_lookup_effect_int (context : procstat_context) (parent_inode : Nat)
    (name : List Nat) (c' : procstat_context) (r : reply)
    (hr : fuse_lookup context parent_inode name = .ok (c', r)) :
    c' = context ∨ ∃ x ix, context.items x = some ix ∧ ix.refcnt < (INT_MAX : Int) ∧
      c' = { context with items := heap_set context.items x { ix with refcnt := ix.refcnt + 1 } } := by
  unfold fuse_lookup at hr
  simp only at hr
  split at hr
  · cases hr
  · cases hr; exact Or.inl rfl
  · rename_i item _
    split at hr
    · cases hr
    · rename_i it hit
      split at hr
      · cases hr; exact Or.inl rfl
      · split at hr
        · cases hr
        · rename_i hlt
          cases hr; exact Or.inr ⟨item, it, hit, not_le.mp hlt, rfl⟩

/-- Every call that returns leaves every count in the `int`. -/
theorem step_counts_in_int (fuel : Nat) (context : procstat_context) (o : op)
    (c' : procstat_context) (hinv : tree_inv context.items)
    (hc : counts_in_int context.items) (hfresh : alloc_fresh context o)
    (hstep : step fuel context o = .ok c') : counts_in_int c'.items := by
  cases o with
  | create_directory parent name calloc =>
    simp only [step, Except.map] at hstep
    split at hstep
    · cases hstep
    · rename_i res hres
      cases hstep
      obtain ⟨c1, r⟩ := res
      rcases create_directory_effect context parent name calloc c1 r hres
        (by intro a e; subst e; exact hfresh) (tree_inv_unreferenced _ hinv) with
        e | ⟨a, par, d, h', _, ha, hd, hpa, e, eh⟩
      · rw [e]; exact hc
      · rw [e, eh]
        exact counts_heap_set _ a _ (counts_heap_set _ par _ hc (hc par d hd))
          (by show (1 : Int) ≤ (INT_MAX : Int); decide)
  | remove item =>
    obtain ⟨ip, h', hip, e, hcase⟩ := remove_effect fuel context item c' hstep hinv.2
    rw [e]
    show counts_in_int h'
    rcases hcase with ⟨_, hput⟩ | ⟨_, hput⟩
    · unfold item_put_children_locked at hput
      rw [hip] at hput
      simp only at hput
      exact put_children_loop_counts (item_put_locked fuel)
        (fun g c g' hg hp => item_put_locked_counts fuel g c g' hg hp) _ _ h' hc hput
    · exact item_put_locked_counts fuel _ item h'
        (counts_heap_set _ item { ip with flags := clear_registered ip.flags } hc
          (hc item ip hip)) hput
  | remove_by_name parent name =>
    simp only [step, Except.map] at hstep
    split at hstep
    · cases hstep
    · rename_i res hres
      cases hstep
      obtain ⟨c1, r⟩ := res
      rcases remove_by_name_effect fuel context parent name c1 r hres with
        ⟨e, _⟩ | ⟨par, item, ip, h', _, _, hip, e, hput⟩
      · rw [e]; exact hc
      · rw [e]
        exact item_put_locked_counts fuel _ item h'
          (counts_heap_set _ item { ip with flags := clear_registered ip.flags } hc
          (hc item ip hip)) hput
  | lookup parent_inode name =>
    simp only [step, Except.map] at hstep
    split at hstep
    · cases hstep
    · rename_i res hres
      cases hstep
      obtain ⟨c1, r⟩ := res
      rcases fuse_lookup_effect_int context parent_inode name c1 r hres with
        e | ⟨x, ix, hx, hlt, e⟩
      · rw [e]; exact hc
      · rw [e]
        exact counts_heap_set _ x _ hc (by show ix.refcnt + 1 ≤ (INT_MAX : Int); omega)
  | forget ino nlookup =>
    simp only [step, Except.map] at hstep
    split at hstep
    · cases hstep
    · rename_i res hres
      cases hstep
      obtain ⟨c1, r⟩ := res
      obtain ⟨it, h', hit, hle, e, hcase⟩ := fuse_forget_effect context ino nlookup c1 r hres
      rw [e]
      show counts_in_int h'
      have hle' : it.refcnt - (nlookup : Int) ≤ (INT_MAX : Int) := by
        have := hc _ it hit; omega
      rcases hcase with ⟨_, eh⟩ | ⟨_, eh⟩
      · rw [eh]; exact counts_heap_set _ _ _ hc hle'
      · rw [eh]
        exact counts_heap_free _ _ (counts_list_del _ _ (counts_heap_set _ _ _ hc hle'))
  | getattr ino =>
    simp only [step, Except.map] at hstep
    split at hstep
    · cases hstep
    · rename_i res hres
      cases hstep
      rw [fuse_getattr_effect context ino res.1 res.2 hres]; exact hc
  | opendir ino =>
    simp only [step, Except.map] at hstep
    split at hstep
    · cases hstep
    · rename_i res hres
      cases hstep
      rw [fuse_opendir_effect context ino res.1 res.2 hres]; exact hc
  | readdir ino size off =>
    simp only [step, Except.map] at hstep
    split at hstep
    · cases hstep
    · rename_i res hres
      cases hstep
      rw [fuse_readdir_effect context _ ino size off res.1 res.2 hres]; exact hc

theorem run_counts_in_int (fuel : Nat) (ops : List op) :
    ∀ (context c' : procstat_context), tree_inv context.items →
      counts_in_int context.items → allocs_fresh fuel context ops →
      run fuel context ops = .ok c' → counts_in_int c'.items := by
  induction ops with
  | nil => intro context c' _ hc _ hr; cases hr; exact hc
  | cons o rest ih =>
    intro context c' hinv hc hf hr
    simp only [run] at hr
    simp only [allocs_fresh] at hf
    split at hr
    · cases hr
    · rename_i c1 hc1
      rw [hc1] at hf
      exact ih c1 c' (step_invariant fuel context o c1 hinv hf.1 hc1)
        (step_counts_in_int fuel context o c1 hinv hc hf.1 hc1) hf.2 hr

theorem reachable_counts_in_int (context : procstat_context) (hr : reachable context) :
    counts_in_int context.items := by
  obtain ⟨fuel, addr, uid, gid, ops, c0, h0, hf, hrun⟩ := hr
  refine run_counts_in_int fuel ops c0 context (procstat_create_inv addr uid gid c0 h0) ?_ hf hrun
  intro a ia ha
  rw [procstat_create_items addr uid gid c0 h0 a ia ha]
  decide

/-! ## The claims -/

/-- C1, the failing input: the tree `ex_held` is reachable (create "a", create "b"
under "a", look "a" up, remove "a"); in it the directory "a" holds one reference and
has the child "b". `fuse_forget` of that one reference does not release "b": it stops
in the assertion of `free_item`. The release path of `procstat_remove`,
`item_put_locked`, does on the same tree what the claim says: "a" and "b" are freed. -/
theorem fuse_forget_skips_cascade :
    reachable ex_held ∧
    refcnt_at ex_held 2000 = some 1 ∧
    children_at ex_held 2000 = some [3000] ∧
    fuse_forget ex_held 2000 1 = .error fault.assertion ∧
    (item_put_locked 2 ex_held.items 2000).map (fun h => (h 2000, h 3000)) = .ok (none, none) :=
  ⟨ex_held_reachable, rfl, rfl, rfl, rfl⟩

/-- C2 (as amended): `procstat_remove` on a non-root item of a well-formed tree that is
already unregistered and still holds references is not a no-op, it releases one more
reference. When the item holds more than one, its count drops by one and nothing else
changes (flags, child lists, every other item); when it holds exactly one, the call
frees the item. -/
theorem procstat_remove_unregistered (rk : Nat → Nat) (fuel : Nat)
    (context : procstat_context) (p : Nat) (ip : procstat_item)
    (hwf : tree_wf rk context.items) (hp : context.items p = some ip)
    (hroot : p ≠ context.root) (hunreg : item_registered ip = false)
    (hflags : ip.flags < 2 ^ 32) (hfuel : rk p < fuel) :
    (ip.refcnt ≠ 1 → procstat_remove fuel context p =
      .ok { context with items := heap_set context.items p { ip with refcnt := ip.refcnt - 1 } }) ∧
    (ip.refcnt = 1 → ∃ context', procstat_remove fuel context p = .ok context' ∧
      context'.items p = none) := by
  constructor
  · intro hr
    have hclear : clear_registered ip.flags = ip.flags := by
      apply clear_registered_of_unregistered _ hflags
      simpa [item_registered] using hunreg
    have h1 : 1 ≤ ip.refcnt := hwf.refcnt_pos p ip hp
    obtain ⟨f, rfl⟩ : ∃ f, fuel = f + 1 := ⟨fuel - 1, by omega⟩
    rw [remove_not_root (f + 1) context p ip hp hroot, hclear,
      item_put_locked_more f _ p ip (heap_set_same _ _ _) (by omega) hr, heap_set_idem]
    rfl
  · intro hr
    obtain ⟨h', he, hfree, _, _⟩ := remove_last rk fuel context p ip hwf hp hroot hr hfuel
    exact ⟨_, he, hfree⟩

/-- An instance of C2 as amended: "a" in the reachable tree `ex_held_twice` is
unregistered and holds two references; a further `procstat_remove` leaves it with one. -/
theorem procstat_remove_unregistered_witness :
    reachable ex_held_twice ∧
    (ex_held_twice.items 2000).map item_registered = some false ∧
    procstat_remove 2 ex_held_twice 2000 =
      .ok { ex_held_twice with
            items := heap_set ex_held_twice.items 2000 (ex_item [97] 1 2 [3000]) } :=
  ⟨ex_held_twice_reachable, rfl,
    (procstat_remove_unregistered ex_rank 2 ex_held_twice 2000 (ex_item [97] 2 2 [3000])
      ex_held_twice_wf rfl (by decide) rfl (by decide) (by decide)).1 (by decide)⟩

/-- C2 fails as stated: "a" in the reachable tree `ex_held_twice` is not the root, is
unregistered and alive with reference count 2, and `procstat_remove` on it changes the
count to 1; in the reachable tree `ex_held`, where it holds one reference, the same
call frees it together with its child "b". -/
theorem procstat_remove_not_idempotent :
    reachable ex_held_twice ∧
    (ex_held_twice.items 2000).map item_registered = some false ∧
    refcnt_at ex_held_twice 2000 = some 2 ∧
    (procstat_remove 2 ex_held_twice 2000).map (fun c => refcnt_at c 2000) = .ok (some 1) ∧
    reachable ex_held ∧
    (ex_held.items 2000).map item_registered = some false ∧
    refcnt_at ex_held 2000 = some 1 ∧
    (procstat_remove 2 ex_held 2000).map
      (fun c => (c.items 2000, c.items 3000, children_at c 1000)) = .ok (none, none, some []) :=
  ⟨ex_held_twice_reachable, rfl, rfl, rfl, ex_held_reachable, rfl, rfl, rfl⟩

/-- C4, the failing input: in the reachable tree `ex_held` the directory "a" under the
root is unregistered. Its lookup is refused, but the listing of the root that
`fuse_readdir` builds is the directory-entry record of "a". -/
theorem fuse_readdir_lists_unregistered :
    reachable ex_held ∧
    (ex_held.items 2000).map item_registered = some false ∧
    (fuse_lookup ex_held FUSE_ROOT_ID [97]).map Prod.snd = .ok (reply.err ENOENT) ∧
    (fuse_readdir ex_held (fun _ => true) FUSE_ROOT_ID 4096 0).map Prod.snd =
      .ok (reply.buf (fuse_add_direntry [97]
        (fill_item_stats ex_held 2000 (ex_item [97] 1 2 [3000])) 32)) :=
  ⟨ex_held_reachable, rfl, rfl, rfl⟩

/-- C5, the failing input: starting from a fresh context, the calls `ex_calls` (create
"a", create "b" under "a", look up "a", remove "a") succeed and leave "a" unregistered
with the kernel's reference and its child; the kernel's `forget` of that reference then
frees "a" while "b" is still linked in it, and the assertion of `free_item` fails. -/
theorem forget_frees_nonempty_directory :
    ((procstat_create 1000 0 0).bind (fun c => run 2 c ex_calls)).map
      (fun c => (refcnt_at c 2000, flags_at c 2000, children_at c 2000, refcnt_at c 3000)) =
        .ok (some 1, some 2, some [3000], some 1) ∧
    (procstat_create 1000 0 0).bind (fun c => run 2 c (ex_calls ++ [op.forget 2000 1])) =
      .error fault.assertion :=
  ⟨rfl, rfl⟩

/-- C6 (as amended): in every state that a freshly created context reaches by calls that
return, every live item holds at least one reference and at most `INT_MAX`: no count is
negative, and none has left the range of the `int`. For every call on such a state
that returns, the same holds afterwards; an item that was live is freed by the call
exactly when the references the call releases from it (`refs_released`) are all it
held, that is when the call brings its count to zero; and an item that stays live has
lost exactly the references the call releases from it. A freed item is not live, so it
is freed once. The recursion bound of the model does not stand in the way: every call has
a fuel from which on it does not run out of it. -/
theorem refcount_invariant (context : procstat_context) (hreach : reachable context) :
    (∀ a ia, context.items a = some ia → 1 ≤ ia.refcnt ∧ ia.refcnt ≤ (INT_MAX : Int)) ∧
    (∀ fuel o context', alloc_fresh context o → step fuel context o = .ok context' →
      (∀ a ia', context'.items a = some ia' → 1 ≤ ia'.refcnt ∧ ia'.refcnt ≤ (INT_MAX : Int)) ∧
      (∀ a ia, context.items a = some ia →
        (context'.items a = none ↔ ∃ k, refs_released context o a k ∧ ia.refcnt - k = 0) ∧
        (∀ ia', context'.items a = some ia' → ∀ k, refs_released context o a k →
          ia'.refcnt = ia.refcnt - k))) ∧
    (∀ o, ∃ N, ∀ fuel, N ≤ fuel → step fuel context o ≠ .error .out_of_fuel) := by
  have hinv := reachable_inv context hreach
  have hc := reachable_counts_in_int context hreach
  refine ⟨?_, ?_, step_fuel_enough context hinv⟩
  · obtain ⟨⟨rk, hwf⟩, _⟩ := hinv
    exact fun a ia ha => ⟨hwf.refcnt_pos a ia ha, hc a ia ha⟩
  · intro fuel o context' hfresh hstep
    refine ⟨?_, fun a ia ha => step_refcounts fuel context o context' hinv hfresh hstep a ia ha⟩
    obtain ⟨⟨rk, hwf⟩, _⟩ := step_invariant fuel context o context' hinv hfresh hstep
    have hc' := step_counts_in_int fuel context o context' hinv hc hfresh hstep
    exact fun a ia ha => ⟨hwf.refcnt_pos a ia ha, hc' a ia ha⟩

/-- An instance of C6: the tree `ex_tree`, reached by two creations. -/
theorem refcount_invariant_witness :
    reachable ex_tree ∧
    (∀ a ia, ex_tree.items a = some ia → 1 ≤ ia.refcnt ∧ ia.refcnt ≤ (INT_MAX : Int)) ∧
    (∀ fuel o context', alloc_fresh ex_tree o → step fuel ex_tree o = .ok context' →
      (∀ a ia', context'.items a = some ia' → 1 ≤ ia'.refcnt ∧ ia'.refcnt ≤ (INT_MAX : Int)) ∧
      (∀ a ia, ex_tree.items a = some ia →
        (context'.items a = none ↔ ∃ k, refs_released ex_tree o a k ∧ ia.refcnt - k = 0) ∧
        (∀ ia', context'.items a = some ia' → ∀ k, refs_released ex_tree o a k →
          ia'.refcnt = ia.refcnt - k))) ∧
    (∀ o, ∃ N, ∀ fuel, N ≤ fuel → step fuel ex_tree o ≠ .error .out_of_fuel) :=
  ⟨ex_tree_reachable, refcount_invariant ex_tree ex_tree_reachable⟩

/-- C6 fails as stated: from a fresh context, the creation of "a" and "b" and
2147483646 lookups of "a" return and leave "a" with `INT_MAX` = 2147483647 references.
The next lookup of "a" increments an `int` that holds `INT_MAX`: a signed overflow,
undefined behaviour, after which no count is guaranteed to be non-negative. -/
theorem refcount_overflow :
    run 1 ex_fresh ([op.create_directory none [97] (some 2000),
      op.create_directory (some 2000) [98] (some 3000)] ++
        List.replicate 2147483646 (op.lookup FUSE_ROOT_ID [97])) =
      .ok (ex_state 2147483647 3 1) ∧
    reachable (ex_state 2147483647 3 1) ∧
    refcnt_at (ex_state 2147483647 3 1) 2000 = some (INT_MAX : Int) ∧
    step 1 (ex_state 2147483647 3 1) (op.lookup FUSE_ROOT_ID [97]) = .error .overflow := by
  refine ⟨?_, ex_state_reachable 2147483647 1 (by decide) (by decide) (by decide) (by decide),
    rfl, ?_⟩
  · have hcreate : run 1 ex_fresh [op.create_directory none [97] (some 2000),
        op.create_directory (some 2000) [98] (some 3000)] = .ok (ex_state 1 3 1) := by
      simp only [run, ex_step_create_a, ex_step_create_b]
    rw [run_append 1 _ _ ex_fresh _ hcreate]
    exact (ex_run_lookups_a 1 2147483646 1 (by decide)).1
  · simp only [step]
    rw [fuse_lookup_overflow (ex_state 2147483647 3 1) FUSE_ROOT_ID [97] (ex_item [46] 1 3 [2000])
      (ex_item [97] 2147483647 3 [3000]) [] [] 2000 rfl rfl rfl (by simp) rfl rfl rfl rfl
      (by decide)]
    rfl

/-- C9 (as amended): for a directory (registered or not) whose first child named `name` is
`c`, with `c` registered and holding fewer than `INT_MAX` references, `fuse_lookup` replies
with the handle `c` and its attributes, and the tree afterwards differs from the one
before only in the reference count of `c`, which is one more. -/
theorem fuse_lookup_success (context : procstat_context) (parent_inode : Nat)
    (name : List Nat) (d ic : procstat_item) (pre post : List Nat) (c : Nat)
    (hd : context.items (fuse_inode_to_item context parent_inode) = some d)
    (hdir : item_type_directory d = true)
    (hch : d.children = pre ++ c :: post)
    (hpre : ∀ x ∈ pre, other_name context.items name x)
    (hic : context.items c = some ic)
    (hn : procstat_item_name ic = some name)
    (hh : ic.name_hash = string_hash name)
    (hreg : item_registered ic = true)
    (hmax : ic.refcnt < (INT_MAX : Int)) :
    fuse_lookup context parent_inode name =
      .ok ({ context with items := heap_set context.items c { ic with refcnt := ic.refcnt + 1 } },
        reply.entry c (fill_item_stats context c ic)) :=
  fuse_lookup_found context parent_inode name d ic pre post c hd hdir hch hpre hic hn hh hreg
    hmax

/-- An instance of C9, the example of the specification: the freshly created directory
"a" of the reachable tree `ex_tree` has reference count 1; one lookup under the root
makes it 2 and replies with the mode of a directory. -/
theorem fuse_lookup_success_witness :
    reachable ex_tree ∧
    refcnt_at ex_tree 2000 = some 1 ∧
    fuse_lookup ex_tree FUSE_ROOT_ID [97] =
      .ok ({ ex_tree with items := heap_set ex_tree.items 2000 (ex_item [97] 2 3 [3000]) },
        reply.entry 2000
          { st_uid := 0, st_gid := 0, st_ino := 2000, st_mode := S_IFDIR ||| 0o755,
            st_nlink := 1, st_size := 0, st_blocks := 0, st_blksize := 0 }) :=
  ⟨ex_tree_reachable, rfl,
    fuse_lookup_success ex_tree FUSE_ROOT_ID [97] (ex_item [46] 1 3 [2000])
      (ex_item [97] 1 3 [3000]) [] [] 2000 rfl rfl rfl (by simp) rfl rfl rfl rfl (by decide)⟩

/-- C9 fails as stated: in the reachable example tree where "b" holds `INT_MAX`
references (its own and those of 2147483646 lookups), "b" is registered and is the child
named "b" of the registered directory "a", and the lookup of "b" through the handle of "a"
does not reply: the increment of the count overflows the `int`. -/
theorem fuse_lookup_overflows :
    reachable (ex_state 1 3 2147483647) ∧
    (ex_state 1 3 2147483647).items 2000 = some (ex_item [97] 1 3 [3000]) ∧
    (ex_state 1 3 2147483647).items 3000 = some (ex_item [98] 2147483647 3 []) ∧
    item_registered (ex_item [97] 1 3 [3000]) = true ∧
    item_registered (ex_item [98] 2147483647 3 []) = true ∧
    procstat_item_name (ex_item [98] 2147483647 3 []) = some [98] ∧
    fuse_lookup (ex_state 1 3 2147483647) 2000 [98] = .error .overflow :=
  ⟨ex_state_reachable 1 2147483647 (by decide) (by decide) (by decide) (by decide),
    rfl, rfl, rfl, rfl, rfl,
    fuse_lookup_overflow (ex_state 1 3 2147483647) 2000 [98] (ex_item [97] 1 3 [3000])
      (ex_item [98] 2147483647 3 []) [] [] 3000 rfl rfl rfl (by simp) rfl rfl rfl rfl
      (by decide)⟩

/-- C10: `procstat_remove` on a non-root item `p` of a well-formed tree that holds
exactly one reference returns (with fuel above the rank of `p`), frees `p`, and leaves
`p` in no child list. Every item `a` of the cascade (the children of `p`, and the
children of every directory of the cascade whose count was 1) has exactly one reference
released: it is freed if its count was 1, and otherwise stays with its parent link
cleared and its count one less. Every other item is as before, up to the link to `p`
that its child list loses. -/
theorem procstat_remove_last_reference (rk : Nat → Nat) (fuel : Nat)
    (context : procstat_context) (p : Nat) (ip : procstat_item)
    (hwf : tree_wf rk context.items) (hp : context.items p = some ip)
    (hroot : p ≠ context.root) (hr : ip.refcnt = 1) (hfuel : rk p < fuel) :
    ∃ context', procstat_remove fuel context p = .ok context' ∧
      context'.items p = none ∧
      (∀ q iq, context'.items q = some iq → p ∉ iq.children) ∧
      (∀ a ia, cascade context.items p a → context.items a = some ia →
        context'.items a =
          if ia.refcnt = 1 then none
          else some { ia with parent := none, refcnt := ia.refcnt - 1 }) ∧
      (∀ a, a ≠ p → ¬ cascade context.items p a →
        context'.items a = (context.items a).map (unlink p)) := by
  obtain ⟨h', he, hfree, hcas, hoth⟩ := remove_last rk fuel context p ip hwf hp hroot hr hfuel
  refine ⟨_, he, hfree, ?_, hcas, hoth⟩
  intro q iq hq hm
  change h' q = some iq at hq
  by_cases hqp : q = p
  · rw [hqp, hfree] at hq; cases hq
  · by_cases hca : cascade context.items p q
    · obtain ⟨ia, ha⟩ := cascade_live rk _ hwf.shape p q hca
      rw [hcas q ia hca ha] at hq
      unfold put_result at hq
      split at hq
      · cases hq
      · cases hq
        exact lt_irrefl _ (lt_trans (hwf.shape.rank q ia p ha hm)
          (cascade_rank rk _ hwf.shape p q hca))
    · rw [hoth q hqp hca] at hq
      cases hx : context.items q with
      | none => rw [hx] at hq; cases hq
      | some ix =>
        rw [hx] at hq; cases hq
        exact ((mem_unlink p p ix).mp hm).2 rfl

/-- An instance of C10: in the reachable tree `ex_looked` the directory "a" holds one
reference and its child "b" two; the removal of "a" frees it, leaves the root without
children and "b" alive with one reference. -/
theorem procstat_remove_last_reference_witness :
    reachable ex_looked ∧ tree_wf ex_rank ex_looked.items ∧
    (procstat_remove 2 ex_looked 2000).map
      (fun c => (refcnt_at c 2000, refcnt_at c 3000, children_at c 1000)) =
        .ok (none, some 1, some []) ∧
    ∃ context', procstat_remove 2 ex_looked 2000 = .ok context' ∧
      context'.items 2000 = none ∧
      (∀ q iq, context'.items q = some iq → 2000 ∉ iq.children) ∧
      (∀ a ia, cascade ex_looked.items 2000 a → ex_looked.items a = some ia →
        context'.items a =
          if ia.refcnt = 1 then none
          else some { ia with parent := none, refcnt := ia.refcnt - 1 }) ∧
      (∀ a, a ≠ 2000 → ¬ cascade ex_looked.items 2000 a →
        context'.items a = (ex_looked.items a).map (unlink 2000)) :=
  ⟨ex_looked_reachable, ex_looked_wf, rfl,
    procstat_remove_last_reference ex_rank 2 ex_looked 2000 (ex_item [97] 1 3 [3000])
      ex_looked_wf rfl (by decide) rfl (by decide)⟩

/-- C11 (as amended): `procstat_remove` on a non-root directory `p` of a well-formed tree
that holds at least two references returns; afterwards `p` is still live, not registered,
a directory, with one reference less and the same children, and every other item is as
before. Every registered child `c` of `p` (the first child of `p` that bears its name)
that holds fewer than `INT_MAX` references is then still found by `fuse_lookup` through
the handle `p`: the reply is the entry of `c`, and `c` gains the reference. -/
theorem procstat_remove_kernel_held (rk : Nat → Nat) (fuel : Nat)
    (context : procstat_context) (p : Nat) (ip : procstat_item)
    (hwf : tree_wf rk context.items) (hp : context.items p = some ip)
    (hroot : p ≠ context.root) (hdir : item_type_directory ip = true)
    (href : 2 ≤ ip.refcnt) (hfuel : 0 < fuel) (hino : p ≠ FUSE_ROOT_ID) :
    ∃ context' ip', procstat_remove fuel context p = .ok context' ∧
      context'.items p = some ip' ∧
      ip' = { ip with refcnt := ip.refcnt - 1, flags := clear_registered ip.flags } ∧
      item_registered ip' = false ∧ item_type_directory ip' = true ∧
      ip'.refcnt = ip.refcnt - 1 ∧ ip'.children = ip.children ∧
      (∀ a, a ≠ p → context'.items a = context.items a) ∧
      (∀ pre c post ic name, ip.children = pre ++ c :: post →
        (∀ x ∈ pre, other_name context.items name x) → context.items c = some ic →
        procstat_item_name ic = some name → ic.name_hash = string_hash name →
        item_registered ic = true → ic.refcnt < (INT_MAX : Int) →
        ∃ context'', fuse_lookup context' p name =
            .ok (context'', reply.entry c (fill_item_stats context' c ic)) ∧
          refcnt_at context'' c = some (ic.refcnt + 1)) := by
  obtain ⟨f, rfl⟩ : ∃ f, fuel = f + 1 := ⟨fuel - 1, by omega⟩
  have hd' : item_type_directory
      { ip with refcnt := ip.refcnt - 1, flags := clear_registered ip.flags } = true := by
    rw [dir_clear_registered]; exact hdir
  refine ⟨_, _, remove_more f context p ip hp hroot href, heap_set_same _ _ _, rfl, ?_, hd',
    rfl, rfl, ?_, ?_⟩
  · have := registered_clear_registered ip.flags
    simp [item_registered, this]
  · intro a hap
    exact heap_set_other _ _ _ _ hap
  · intro pre c post ic name hch hpre hic hn hh hreg hmax
    have hcp : c ≠ p := by
      intro e
      have := hwf.shape.rank p ip c hp (by rw [hch]; simp)
      rw [e] at this; exact lt_irrefl _ this
    have hfound := fuse_lookup_found
      { context with
        items := heap_set context.items p
                   { ip with refcnt := ip.refcnt - 1, flags := clear_registered ip.flags } }
      p name { ip with refcnt := ip.refcnt - 1, flags := clear_registered ip.flags } ic pre post c
      (by simp [fuse_inode_to_item, hino]) hd' hch
      (fun x hx => other_name_same_name _ name p x ip _ hp (name_clear_registered ip _)
        (hpre x hx))
      (by show heap_set context.items p _ c = some ic
          rw [heap_set_other _ _ _ _ hcp]; exact hic) hn hh hreg hmax
    exact ⟨_, hfound, by simp [refcnt_at]⟩

/-- An instance of C11: in the reachable example tree where "a" holds two references (its
own and one of the kernel) and is registered, the removal of "a" leaves the tree `ex_held`, and
the lookup of "b" through the handle of "a" still replies with the entry of "b". -/
theorem procstat_remove_kernel_held_witness :
    reachable (ex_state 2 3 1) ∧
    (procstat_remove 1 (ex_state 2 3 1) 2000).map
      (fun c => (refcnt_at c 2000, flags_at c 2000, children_at c 2000)) =
        .ok (some 1, some 2, some [3000]) ∧
    ∃ context' ip', procstat_remove 1 (ex_state 2 3 1) 2000 = .ok context' ∧
      context'.items 2000 = some ip' ∧
      ip' = { ex_item [97] 2 3 [3000] with
              refcnt := 2 - 1, flags := clear_registered (ex_item [97] 2 3 [3000]).flags } ∧
      item_registered ip' = false ∧ item_type_directory ip' = true ∧
      ip'.refcnt = (ex_item [97] 2 3 [3000]).refcnt - 1 ∧
      ip'.children = (ex_item [97] 2 3 [3000]).children ∧
      (∀ a, a ≠ 2000 → context'.items a = (ex_state 2 3 1).items a) ∧
      (∀ pre c post ic name, (ex_item [97] 2 3 [3000]).children = pre ++ c :: post →
        (∀ x ∈ pre, other_name (ex_state 2 3 1).items name x) →
        (ex_state 2 3 1).items c = some ic →
        procstat_item_name ic = some name → ic.name_hash = string_hash name →
        item_registered ic = true → ic.refcnt < (INT_MAX : Int) →
        ∃ context'', fuse_lookup context' 2000 name =
            .ok (context'', reply.entry c (fill_item_stats context' c ic)) ∧
          refcnt_at context'' c = some (ic.refcnt + 1)) :=
  ⟨ex_grabbed_reachable, rfl,
    procstat_remove_kernel_held ex_rank 1 (ex_state 2 3 1) 2000 (ex_item [97] 2 3 [3000])
    (ex_state_wf 2 3 1 (by decide) (by decide)) rfl (by decide) rfl (by decide) (by decide)
    (by decide)⟩

/-- C11 fails as stated: in the reachable example tree where "a" holds two references
and its registered child "b" holds `INT_MAX`, the removal of "a" returns and keeps "a"
alive and unregistered with its child; the lookup of "b" through the handle of "a" then
does not reply: the increment of the count of "b" overflows the `int`. -/
theorem procstat_remove_kernel_held_overflow :
    reachable (ex_state 2 3 2147483647) ∧
    (procstat_remove 1 (ex_state 2 3 2147483647) 2000).map
      (fun c => (refcnt_at c 2000, flags_at c 2000, children_at c 2000,
        (c.items 3000).map item_registered)) =
        .ok (some 1, some 2, some [3000], some true) ∧
    (procstat_remove 1 (ex_state 2 3 2147483647) 2000).bind
      (fun c => fuse_lookup c 2000 [98]) = .error .overflow :=
  ⟨ex_state_reachable 2 2147483647 (by decide) (by decide) (by decide) (by decide), rfl, rfl⟩

/-- C12: `procstat_remove` on the root of a well-formed tree returns (with fuel at least
the rank of the root); afterwards the root is the item it was, registered flag and
reference count included, with an empty child list. Every former child of the root, and
every item of the cascade below a child that lost its last reference, has exactly one
reference released and is detached: it is freed if it held one reference, and stays with
its parent link cleared and one reference less otherwise. Every other item is
unchanged. -/
theorem procstat_remove_root (rk : Nat → Nat) (fuel : Nat) (context : procstat_context)
    (ir : procstat_item) (hwf : tree_wf rk context.items)
    (hr : context.items context.root = some ir) (hdir : item_type_directory ir = true)
    (hfuel : rk context.root ≤ fuel) :
    ∃ context', procstat_remove fuel context context.root = .ok context' ∧
      context'.root = context.root ∧
      context'.items context.root = some { ir with children := [] } ∧
      (∀ c ic, c ∈ ir.children → context.items c = some ic →
        context'.items c =
          if ic.refcnt = 1 then none
          else some { ic with parent := none, refcnt := ic.refcnt - 1 }) ∧
      (∀ a ia, cascade context.items context.root a → context.items a = some ia →
        context'.items a =
          if ia.refcnt = 1 then none
          else some { ia with parent := none, refcnt := ia.refcnt - 1 }) ∧
      (∀ a, a ≠ context.root → ¬ cascade context.items context.root a →
        context'.items a = context.items a) := by
  obtain ⟨h', he, hroot, hcas, hoth⟩ := remove_root rk fuel context ir hwf hr hdir hfuel
  refine ⟨_, he, rfl, hroot, ?_, hcas, hoth⟩
  intro c ic hc hic
  exact hcas c ic (cascade.child ir c hr hdir hc) hic

/-- An instance of C12: in the reachable tree `ex_looked` ("a" under the root with one
reference, "b" under "a" with two), the removal of the root frees "a", leaves "b" alive
with one reference, and the root registered with its reference and no children. -/
theorem procstat_remove_root_witness :
    reachable ex_looked ∧
    (procstat_remove 2 ex_looked 1000).map
      (fun c => (c.items 1000, refcnt_at c 2000, refcnt_at c 3000)) =
        .ok (some (ex_item [46] 1 3 []), none, some 1) ∧
    ∃ context', procstat_remove 2 ex_looked ex_looked.root = .ok context' ∧
      context'.root = ex_looked.root ∧
      context'.items ex_looked.root = some { ex_item [46] 1 3 [2000] with children := [] } ∧
      (∀ c ic, c ∈ (ex_item [46] 1 3 [2000]).children → ex_looked.items c = some ic →
        context'.items c =
          if ic.refcnt = 1 then none
          else some { ic with parent := none, refcnt := ic.refcnt - 1 }) ∧
      (∀ a ia, cascade ex_looked.items ex_looked.root a → ex_looked.items a = some ia →
        context'.items a =
          if ia.refcnt = 1 then none
          else some { ia with parent := none, refcnt := ia.refcnt - 1 }) ∧
      (∀ a, a ≠ ex_looked.root → ¬ cascade ex_looked.items ex_looked.root a →
        context'.items a = ex_looked.items a) :=
  ⟨ex_looked_reachable, rfl,
    procstat_remove_root ex_rank 2 ex_looked (ex_item [46] 1 3 [2000]) ex_looked_wf rfl rfl
      (by decide)⟩

/-- C14 (as amended): when `fuse_lookup` finds the registered item `c` (the first child
named `name` of the directory behind the handle) and `c` holds at least one reference and
fewer than `INT_MAX`, the lookup followed by `fuse_forget` of one reference on the
returned handle `c` leaves the context exactly as it was before the lookup: the count of
`c` is the old one, nothing is freed, nothing else changes. -/
theorem lookup_forget_round_trip (context : procstat_context) (parent_inode : Nat)
    (name : List Nat) (d ic : procstat_item) (pre post : List Nat) (c : Nat)
    (hd : context.items (fuse_inode_to_item context parent_inode) = some d)
    (hdir : item_type_directory d = true)
    (hch : d.children = pre ++ c :: post)
    (hpre : ∀ x ∈ pre, other_name context.items name x)
    (hic : context.items c = some ic)
    (hn : procstat_item_name ic = some name)
    (hh : ic.name_hash = string_hash name)
    (hreg : item_registered ic = true)
    (href : 1 ≤ ic.refcnt)
    (hmax : ic.refcnt < (INT_MAX : Int))
    (hino : c ≠ FUSE_ROOT_ID) :
    ∃ context1, fuse_lookup context parent_inode name =
        .ok (context1, reply.entry c (fill_item_stats context c ic)) ∧
      refcnt_at context1 c = some (ic.refcnt + 1) ∧
      fuse_forget context1 c 1 = .ok (context, reply.none) := by
  have hc : fuse_inode_to_item context c = c := by simp [fuse_inode_to_item, hino]
  refine ⟨_, fuse_lookup_found context parent_inode name d ic pre post c hd hdir hch hpre hic hn hh
    hreg hmax, ?_, ?_⟩
  · simp [refcnt_at]
  · have hc1 : ∀ (h : item_heap), fuse_inode_to_item { context with items := h } c = c := by
      intro h; simp [fuse_inode_to_item, hino]
    rw [fuse_forget_more _ c 1 { ic with refcnt := ic.refcnt + 1 }
      (by rw [hc1]; exact heap_set_same _ _ _) (by show ((1 : Nat) : Int) ≤ ic.refcnt + 1; omega)
      (by show ic.refcnt + 1 - ((1 : Nat) : Int) ≠ 0; omega)]
    rw [hc1]
    simp only [heap_set_idem]
    have e : ({ ic with refcnt := ic.refcnt + 1 - ((1 : Nat) : Int) } : procstat_item) = ic := by
      cases ic; simp
    simp only [e]
    rw [heap_set_self _ _ _ hic]

/-- An instance of C14: in the reachable tree `ex_tree`, looking up "a" under the root
and forgetting the reference again gives `ex_tree` back. -/
theorem lookup_forget_round_trip_witness :
    reachable ex_tree ∧
    ∃ context1, fuse_lookup ex_tree FUSE_ROOT_ID [97] =
        .ok (context1, reply.entry 2000 (fill_item_stats ex_tree 2000 (ex_item [97] 1 3 [3000]))) ∧
      refcnt_at context1 2000 = some (1 + 1) ∧
      fuse_forget context1 2000 1 = .ok (ex_tree, reply.none) :=
  ⟨ex_tree_reachable,
    lookup_forget_round_trip ex_tree FUSE_ROOT_ID [97] (ex_item [46] 1 3 [2000])
      (ex_item [97] 1 3 [3000]) [] [] 2000 rfl rfl rfl (by simp) rfl rfl rfl rfl (by decide)
      (by decide) (by decide)⟩

/-- C14 fails as stated: in the reachable example tree where "a" is registered and
holds `INT_MAX` references, the lookup of "a" under the root followed by the forget of one
reference on the handle of "a" does not give the tree back: the increment of the lookup
overflows the `int`. -/
theorem lookup_forget_overflow :
    reachable (ex_state 2147483647 3 1) ∧
    (ex_state 2147483647 3 1).items 2000 = some (ex_item [97] 2147483647 3 [3000]) ∧
    item_registered (ex_item [97] 2147483647 3 [3000]) = true ∧
    (fuse_lookup (ex_state 2147483647 3 1) FUSE_ROOT_ID [97]).bind
      (fun r => fuse_forget r.1 2000 1) = .error .overflow :=
  ⟨ex_state_reachable 2147483647 1 (by decide) (by decide) (by decide) (by decide),
    rfl, rfl, rfl⟩

/-- C15: in every state that a freshly created context reaches by calls whose names are C
strings, the children of every live item are live and linked once, and any two of them
have different names: no directory has two children with equal names. -/
theorem names_unique_in_directory (context : procstat_context)
    (hr : reachable_by_strings context) :
    ∀ p ip, context.items p = some ip →
      ip.children.Nodup ∧
      (∀ c ∈ ip.children, ∃ ic, context.items c = some ic) ∧
      ∀ c1 c2 i1 i2, c1 ∈ ip.children → c2 ∈ ip.children → c1 ≠ c2 →
        context.items c1 = some i1 → context.items c2 = some i2 →
        procstat_item_name i1 ≠ procstat_item_name i2 := by
  intro p ip hp
  obtain ⟨⟨rk, hwf⟩, _⟩ := reachable_inv context (reachable_of_strings context hr)
  have hn := reachable_names_inv context hr
  exact ⟨hwf.shape.nodup p ip hp, fun c hc => hwf.shape.children_live p ip c hp hc,
    fun c1 c2 i1 i2 hc1 hc2 hne h1 h2 => hn.unique p ip c1 c2 i1 i2 hp hc1 hc2 hne h1 h2⟩

/-- An instance of C15: the tree `ex_pair`, reached by creating "a" and "b" under the
root, whose two children bear the names "a" and "b". -/
theorem names_unique_in_directory_witness :
    reachable_by_strings ex_pair ∧
    children_at ex_pair 1000 = some [2000, 3000] ∧
    (ex_pair.items 2000).map procstat_item_name = some (some [97]) ∧
    (ex_pair.items 3000).map procstat_item_name = some (some [98]) ∧
    ∀ p ip, ex_pair.items p = some ip →
      ip.children.Nodup ∧
      (∀ c ∈ ip.children, ∃ ic, ex_pair.items c = some ic) ∧
      ∀ c1 c2 i1 i2, c1 ∈ ip.children → c2 ∈ ip.children → c1 ≠ c2 →
        ex_pair.items c1 = some i1 → ex_pair.items c2 = some i2 →
        procstat_item_name i1 ≠ procstat_item_name i2 :=
  ⟨ex_pair_reachable, rfl, rfl, rfl, names_unique_in_directory ex_pair ex_pair_reachable⟩

/-- C16: for every sequence of Registration API calls and protocol handler calls on a
freshly created context that return, in which `calloc` returns free storage and every
forget gives back references that lookup replies have issued on its item and that the
kernel still holds, the root stays where `procstat_create` put it, live (never freed) and
registered. No lookup reply issues a reference on the root, so the kernel has none to
forget. -/
theorem root_permanence (fuel addr uid gid : Nat) (ops : List op)
    (c0 context : procstat_context)
    (h0 : procstat_create addr uid gid = .ok c0)
    (hf : allocs_fresh fuel c0 ops)
    (hk : forgets_conform fuel c0 (fun _ => 0) ops)
    (hrun : run fuel c0 ops = .ok context) :
    context.root = addr ∧
    ∃ ir, context.items context.root = some ir ∧ item_registered ir = true := by
  obtain ⟨hroot, hs⟩ := procstat_create_stays addr uid gid c0 h0
  obtain ⟨e, hs'⟩ := run_root_stays fuel ops c0 context (fun _ => 0)
    (procstat_create_inv addr uid gid c0 h0) hs rfl hf hk hrun
  exact ⟨by rw [e, hroot], hs'.1⟩

/-- An instance of C16: create "a" and "b" under it, look "a" up, forget that reference,
remove "a" by name, remove the root and forget no reference on the root handle. The
kernel forgets only the reference the lookup issued; the root stays. -/
theorem root_permanence_witness :
    ∃ context,
      run 2 ex_fresh [op.create_directory none [97] (some 2000),
        op.create_directory (some 2000) [98] (some 3000), op.lookup FUSE_ROOT_ID [97],
        op.forget 2000 1, op.remove_by_name none [97], op.remove 1000,
        op.forget FUSE_ROOT_ID 0, op.readdir FUSE_ROOT_ID 4096 0] = .ok context ∧
      context.root = 1000 ∧
      ∃ ir, context.items context.root = some ir ∧ item_registered ir = true :=
  ⟨_, rfl, root_permanence 2 1000 0 0 [op.create_directory none [97] (some 2000),
        op.create_directory (some 2000) [98] (some 3000), op.lookup FUSE_ROOT_ID [97],
        op.forget 2000 1, op.remove_by_name none [97], op.remove 1000,
        op.forget FUSE_ROOT_ID 0, op.readdir FUSE_ROOT_ID 4096 0] ex_fresh _ ex_fresh_created
      ⟨⟨rfl, by decide⟩, ⟨rfl, by decide⟩, trivial, trivial, trivial, trivial, trivial, trivial,
        trivial⟩
      ⟨trivial, trivial, trivial, Nat.le_refl 1, trivial, trivial, Nat.le_refl 0, trivial,
        trivial⟩ rfl⟩

set_option maxRecDepth 100000 in
/-- C18, the failing input: from the fresh context, create under the root a directory
whose name has 1001 bytes. The call succeeds and the root, registered, has this one
child. Its record takes 1032 bytes, and the one growth of the buffer that `fuse_readdir`
makes before writing it sets the capacity to 1024: the record is written past the
allocation, and no reply is built. In the tree `ex_pair`, whose records take 32 bytes
each, the reply is what the claim says: the record of "a" at 0 and the record of "b" at
32. -/
theorem fuse_readdir_overflows :
    (∃ context, reachable_by_strings context ∧
      children_at context context.root = some [2000] ∧
      (context.items context.root).map item_registered = some true ∧
      (context.items 2000).map procstat_item_name = some (some ex_long_name) ∧
      fuse_readdir context (fun _ => true) FUSE_ROOT_ID 4096 0 = .error fault.invalid_access) ∧
    ex_long_name.length = 1001 ∧ fuse_add_direntry_size ex_long_name = 1032 ∧
    DEFAULT_BUFER_SIZE * 2 ^ 0 = 1024 ∧
    (fuse_readdir ex_pair (fun _ => true) FUSE_ROOT_ID 4096 0).map Prod.snd =
      .ok (reply.buf
        (fuse_add_direntry [97] (fill_item_stats ex_pair 2000 (ex_item [97] 1 3 [])) 32 ++
         fuse_add_direntry [98] (fill_item_stats ex_pair 3000 (ex_item [98] 1 3 [])) 64)) :=
  ⟨⟨_, ⟨1, 1000, 0, 0, [op.create_directory none ex_long_name (some 2000)], ex_fresh,
      ex_fresh_created, ⟨⟨rfl, by decide⟩, by split <;> trivial⟩,
      by intro o ho
         rw [List.mem_singleton.mp ho]
         intro b hb
         rw [List.eq_of_mem_replicate hb]
         decide,
      rfl⟩, rfl, rfl, rfl, rfl⟩, rfl, rfl, rfl, rfl⟩

/-- C19: for a handle that resolves to the live item `it`, `fuse_getattr` leaves the
context as it is and replies ENOENT when `it` is not registered; when it is registered
the reply is the attributes with the context's uid and gid, and for a directory the mode
`S_IFDIR | 0755` and link count 2 for the root and 1 for any other, for a leaf the mode
`S_IFREG | 0444`, size 0 and link count 1. -/
theorem fuse_getattr_reply (context : procstat_context) (ino : Nat) (it : procstat_item)
    (hit : context.items (fuse_inode_to_item context ino) = some it) :
    (item_registered it = false →
      fuse_getattr context ino = .ok (context, reply.err ENOENT)) ∧
    (item_registered it = true →
      ∃ st, fuse_getattr context ino = .ok (context, reply.attr st) ∧
        st.st_uid = context.uid ∧ st.st_gid = context.gid ∧
        (item_type_directory it = true →
          st.st_mode = S_IFDIR ||| 0o755 ∧
          st.st_nlink = if fuse_inode_to_item context ino = context.root then 2 else 1) ∧
        (item_type_directory it = false →
          st.st_mode = S_IFREG ||| 0o444 ∧ st.st_size = 0 ∧ st.st_nlink = 1)) := by
  constructor
  · intro hreg
    simp [fuse_getattr, hit, hreg]
  · intro hreg
    refine ⟨fill_item_stats context (fuse_inode_to_item context ino) it, ?_, ?_, ?_, ?_, ?_⟩
    · simp [fuse_getattr, hit, hreg]
    · unfold fill_item_stats; split <;> rfl
    · unfold fill_item_stats; split <;> rfl
    · intro hdir
      simp only [fill_item_stats, hdir, ↓reduceIte, root_directory, true_and]
      by_cases e : fuse_inode_to_item context ino = context.root
      · simp [e]
      · have e' : context.root ≠ fuse_inode_to_item context ino := fun x => e x.symm
        simp [e, e']
    · intro hdir
      simp [fill_item_stats, hdir]

/-- Instances of C19 in the reachable tree `ex_held`: the root (registered, link count
2), the directory "b" (registered, link count 1) and the directory "a" (not registered,
ENOENT). -/
theorem fuse_getattr_reply_witness :
    reachable ex_held ∧
    fuse_getattr ex_held FUSE_ROOT_ID = .ok (ex_held, reply.attr
      { st_uid := 0, st_gid := 0, st_ino := 1000, st_mode := S_IFDIR ||| 0o755, st_nlink := 2,
        st_size := 0, st_blocks := 0, st_blksize := 0 }) ∧
    fuse_getattr ex_held 3000 = .ok (ex_held, reply.attr
      { st_uid := 0, st_gid := 0, st_ino := 3000, st_mode := S_IFDIR ||| 0o755, st_nlink := 1,
        st_size := 0, st_blocks := 0, st_blksize := 0 }) ∧
    fuse_getattr ex_held 2000 = .ok (ex_held, reply.err ENOENT) :=
  ⟨ex_held_reachable, rfl, rfl,
    (fuse_getattr_reply ex_held 2000 (ex_item [97] 1 2 [3000]) rfl).1 rfl⟩

/-- C20: `string_hash` is the polynomial hash of the specification. It is the last value
of the recurrence `h 0 = 0`, `h (i + 1) = (31 * h i + byte i) mod 2^32` over the bytes in
order, every prefix of the name hashes to the value of the recurrence at its length, and
the result is the polynomial in 31 with the bytes as coefficients (first byte at the
highest power, seed 0), reduced modulo `2^32`. Being a function of the list of bytes, it
depends on nothing else. -/
theorem string_hash_polynomial (name : List Nat) :
    string_hash name = polynomial_hash name name.length ∧
    (∀ i, i ≤ name.length → string_hash (name.take i) = polynomial_hash name i) ∧
    string_hash name = polynomial_value name % 2 ^ 32 ∧
    string_hash name < 2 ^ 32 := by
  refine ⟨?_, string_hash_take name, string_hash_value name, ?_⟩
  · have := string_hash_take name name.length (Nat.le_refl _)
    rwa [List.take_length] at this
  · exact foldl_hash_lt name 0 (by decide)

/-- C21: for a live directory whose children are live, bear a name and store the hash of
that name, and for every name, `lookup_item_locked` with the hash of the name returns
what the scan that compares names only returns: the first child in collection order
whose name is the given one, or nothing. The hash check rejects no child whose name
matches: such a child stores the hash that is looked for. -/
theorem hash_filter_transparent (h : item_heap) (parent : Nat) (d : procstat_item)
    (name : List Nat) (hd : h parent = some d) (hdir : item_type_directory d = true)
    (hch : ∀ c ∈ d.children, ∃ ic n, h c = some ic ∧ procstat_item_name ic = some n ∧
      ic.name_hash = string_hash n) :
    lookup_item_locked h parent (some name) (string_hash name) =
      .ok (first_named h name d.children) ∧
    (∀ c ∈ d.children, ∀ ic, h c = some ic → procstat_item_name ic = some name →
      ¬ (ic.name_hash ≠ string_hash name)) := by
  constructor
  · rw [lookup_item_locked_dir h parent d _ _ hd hdir]
    exact lookup_scan_first_named h name d.children hch
  · intro c hc ic hic hn hne
    obtain ⟨ic', n, hic', hn', hh⟩ := hch c hc
    rw [hic] at hic'; cases hic'
    rw [hn] at hn'; cases hn'
    exact hne hh

/-- An instance of C21: in the reachable tree `ex_clash` the children "Aa" and "BB" of the
root store the same hash, 2112. The lookup of "BB" passes the hash check at "Aa", whose
name differs, and returns "BB", the child the scan by name finds; the lookup of "Ab", a
name no child bears, returns nothing. -/
theorem hash_filter_transparent_witness :
    reachable_by_strings ex_clash ∧
    string_hash [65, 97] = 2112 ∧ string_hash [66, 66] = 2112 ∧
    first_named ex_clash.items [66, 66] [2000, 3000] = some 3000 ∧
    first_named ex_clash.items [65, 98] [2000, 3000] = none ∧
    lookup_item_locked ex_clash.items 1000 (some [65, 98]) (string_hash [65, 98]) = .ok none ∧
    (lookup_item_locked ex_clash.items 1000 (some [66, 66]) (string_hash [66, 66]) =
      .ok (first_named ex_clash.items [66, 66] (ex_item [46] 1 3 [2000, 3000]).children) ∧
     (∀ c ∈ (ex_item [46] 1 3 [2000, 3000]).children, ∀ ic, ex_clash.items c = some ic →
       procstat_item_name ic = some [66, 66] → ¬ (ic.name_hash ≠ string_hash [66, 66]))) :=
  ⟨ex_clash_reachable, by decide, by decide, by decide, by decide, rfl,
    hash_filter_transparent ex_clash.items 1000 (ex_item [46] 1 3 [2000, 3000]) [66, 66] rfl rfl
      (by intro c hc
          have hc' : c = 2000 ∨ c = 3000 := by simpa [ex_item] using hc
          rcases hc' with rfl | rfl
          · exact ⟨ex_item [65, 97] 1 3 [], [65, 97], rfl, rfl, rfl⟩
          · exact ⟨ex_item [66, 66] 1 3 [], [66, 66], rfl, rfl, rfl⟩)⟩

set_option maxRecDepth 100000 in
/-- C22, the failing input: from the fresh context, create under the root a directory
whose name has 1001 bytes, and list the root. The record of the child takes 1032 bytes
(24 plus 1001, rounded up to a multiple of 8). The capacity is 0 at first, so the write
is preceded by the growth event 0, which sets the capacity to `1024 * 2^0`: the record is
written at offset 0 into a buffer of 1024 bytes, less than offset plus record size, and
the loop runs past the allocation. In the tree `ex_pair`, whose records take 32 bytes,
both writes find the capacity 1024 that the first growth leaves. -/
theorem readdir_capacity_exceeded :
    (∃ context, reachable_by_strings context ∧
      children_at context context.root = some [2000] ∧
      (context.items 2000).map procstat_item_name = some (some ex_long_name) ∧
      readdir_writes context [2000] 0 0 0 = [(0, 1032, 1024)] ∧
      readdir_loop context (fun _ => true) [2000] ⟨[], 0, 0⟩ = .error fault.invalid_access) ∧
    fuse_dirent_size 1001 = (24 + 1001 + 7) / 8 * 8 ∧ fuse_dirent_size 1001 = 1032 ∧
    ¬ (0 + 1032 ≤ DEFAULT_BUFER_SIZE * 2 ^ 0) ∧
    readdir_writes ex_pair [2000, 3000] 0 0 0 = [(0, 32, 1024), (32, 32, 1024)] :=
  ⟨⟨_, ⟨1, 1000, 0, 0, [op.create_directory none ex_long_name (some 2000)], ex_fresh,
      ex_fresh_created, ⟨⟨rfl, by decide⟩, by split <;> trivial⟩,
      by intro o ho
         rw [List.mem_singleton.mp ho]
         intro b hb
         rw [List.eq_of_mem_replicate hb]
         decide,
      rfl⟩, rfl, rfl, rfl, rfl⟩, rfl, rfl, by decide, rfl⟩

end Procstat
